import Mathlib

/-!
# Hyperbolic points and matrices (`hyperpoint.cpp`)

A shallow embedding of the point / isometry kernel of `hyperpoint.cpp`.

* The floating type `ld` is replaced by an arbitrary linearly ordered field `K`
  (exact arithmetic); theorems that involve no math library function hold over every such
  `K`, the others are stated over `ℝ`.
* The ambient dimension `DIM` is a parameter `D`; `MDIM = D + 1`, points are
  indexed by `Fin (D + 1)` and the last index `Fin.last D` is the source's `DIM`.
* The process-wide geometry configuration is an explicit value `Geometry`.
* The C math library (`sqrt`, `cos`, ...) is the class `CMath`, instantiated on `ℝ` by the
  real functions.
* The literal `1e-12` is the exact number `10⁻¹²`.
-/

namespace hr

/-! ## Geometry context and math library -/

/-- The curvature class `cgclass` of the active geometry. -/
inductive eGeometryClass
  | gcHyperbolic
  | gcEuclid
  | gcSphere
  deriving DecidableEq, Repr

/-- Modelled from the spec: the Geometry Context (declared outside `hyperpoint.cpp`), the
process-wide flags read by every function: the curvature class and the quotient
(elliptic) mode. -/
structure Geometry where
  cgclass : eGeometryClass
  elliptic : Bool
  deriving DecidableEq, Repr

/-- Modelled from the spec: the flag `euclid` (flat curvature class). -/
def euclid (g : Geometry) : Bool := g.cgclass = eGeometryClass.gcEuclid

/-- Modelled from the spec: the flag `sphere` (spherical curvature class). -/
def sphere (g : Geometry) : Bool := g.cgclass = eGeometryClass.gcSphere

/-- Flat geometry, quotient mode off. -/
def flatGeometry : Geometry := ⟨eGeometryClass.gcEuclid, false⟩

/-- Hyperbolic geometry, quotient mode off. -/
def hyperbolicGeometry : Geometry := ⟨eGeometryClass.gcHyperbolic, false⟩

/-- Spherical geometry, quotient mode off. -/
def sphericalGeometry : Geometry := ⟨eGeometryClass.gcSphere, false⟩

/-- The functions of the C math library used by `hyperpoint.cpp`, over the scalar type `K`. -/
class CMath (K : Type) where
  sqrt : K → K
  hypot : K → K → K
  sin : K → K
  cos : K → K
  sinh : K → K
  cosh : K → K
  acos : K → K
  acosh : K → K
  M_PI : K

/-- Exact real arithmetic: the math library on `ℝ`. -/
noncomputable instance realCMath : CMath ℝ where
  sqrt := Real.sqrt
  hypot := fun x y => Real.sqrt (x ^ 2 + y ^ 2)
  sin := Real.sin
  cos := Real.cos
  sinh := Real.sinh
  cosh := Real.cosh
  acos := Real.arccos
  acosh := fun x => Real.log (x + Real.sqrt (x ^ 2 - 1))
  M_PI := Real.pi

/-! ## Points and matrices -/

/-- Modelled from the spec: a point, a vector of length `MDIM = DIM + 1`. -/
abbrev hyperpoint (D : ℕ) (K : Type) := Fin (D + 1) → K

/-- Modelled from the spec: a matrix, `MDIM × MDIM`; `T i j` is the source's `T[i][j]`. -/
abbrev transmatrix (D : ℕ) (K : Type) := Matrix (Fin (D + 1)) (Fin (D + 1)) K

section Defs

variable {D : ℕ} {K : Type} [LinearOrderedField K]

/-- Modelled from the spec: the identity matrix `Id`. -/
def Id : transmatrix D K := 1

/-- Modelled from the spec: `T * H`, the standard matrix-vector product. -/
def mulPoint (T : transmatrix D K) (H : hyperpoint D K) : hyperpoint D K :=
  fun i => ∑ j, T i j * H j

/-- Modelled from the spec: `T * U`, the standard matrix product. -/
def mulMatrix (T U : transmatrix D K) : transmatrix D K :=
  fun i j => ∑ k, T i k * U k j

/-- Modelled from the spec: the constructor `hpxyz` is not in the source file; the source
declares `const hyperpoint Hypc = hpxyz(0,0,0)`, the centre of the pseudosphere, every
coordinate `0`. -/
def Hypc : hyperpoint D K := fun _ => 0

/-- Modelled from the spec: the constructor `hpxyz` is not in the source file; the source
declares `const hyperpoint C0 = hpxyz(0,0,1)`, the origin `(0, ..., 0, 1)`. -/
def C0 : hyperpoint D K := fun i => if i = Fin.last D then 1 else 0

/-- Modelled from the spec: `co * H` of `hyperpoint_vec`, the scaling of a vector. -/
def scalePoint (co : K) (H : hyperpoint D K) : hyperpoint D K := fun i => co * H i

/-- Modelled from the spec: `-h`, the antipode of a point (every coordinate negated). -/
def negPoint (h : hyperpoint D K) : hyperpoint D K := fun i => -h i

/-- Modelled from the spec: `H1 + H2` of `hyperpoint_vec`, the sum of two vectors. -/
def addPoint (H1 H2 : hyperpoint D K) : hyperpoint D K := fun i => H1 i + H2 i

/-- The assignment `T[a][b] = v`. -/
def setEntry (T : transmatrix D K) (a b : Fin (D + 1)) (v : K) : transmatrix D K :=
  fun i j => if i = a ∧ j = b then v else T i j

/-- The assignment `h[a] = v`. -/
def setCoord (h : hyperpoint D K) (a : Fin (D + 1)) (v : K) : hyperpoint D K :=
  fun i => if i = a then v else h i

/-- Source function `ld squar(ld x) { return x*x; }` -/
def squar (x : K) : K := x * x

/-- Source function `int sig(int z) { return (sphere || z<DIM)?1:-1; }` -/
def sig (D : ℕ) (g : Geometry) (z : ℕ) : ℤ := if sphere g || decide (z < D) then 1 else -1

/-- Source function `curvature()` -/
def curvature (g : Geometry) : ℤ :=
  match g.cgclass with
  | eGeometryClass.gcEuclid => 0
  | eGeometryClass.gcHyperbolic => -1
  | eGeometryClass.gcSphere => 1

/-- The loop `for(int i = lo; i < hi; i++) body(i)`, threading the state `s`; the index is used to
address a point or matrix, so the iterations at `i > DIM` (never reached by the source) are
skipped. -/
def forRange {σ : Type} (D : ℕ) (lo : ℕ) (hi : ℕ) (body : Fin (D + 1) → σ → σ) (s : σ) : σ :=
  match hi with
  | 0 => s
  | k + 1 =>
    let s' := forRange D lo k body s
    if h : lo ≤ k ∧ k < D + 1 then body ⟨k, h.2⟩ s' else s'

/-- The loop `for(int i = n-1; i >= 0; i--) body(i)`, threading the state `s`. -/
def forDown {σ : Type} (D : ℕ) (n : ℕ) (body : Fin (D + 1) → σ → σ) (s : σ) : σ :=
  match n with
  | 0 => s
  | k + 1 => forDown D k body (if h : k < D + 1 then body ⟨k, h⟩ s else s)

/-! ### Curvature-parametrized trigonometry -/

/-- Source function `sin_auto` -/
def sin_auto [CMath K] (g : Geometry) (x : K) : K :=
  match g.cgclass with
  | eGeometryClass.gcEuclid => x
  | eGeometryClass.gcHyperbolic => CMath.sinh x
  | eGeometryClass.gcSphere => CMath.sin x

/-- Source function `cos_auto` -/
def cos_auto [CMath K] (g : Geometry) (x : K) : K :=
  match g.cgclass with
  | eGeometryClass.gcEuclid => 1
  | eGeometryClass.gcHyperbolic => CMath.cosh x
  | eGeometryClass.gcSphere => CMath.cos x

/-! ### Point algebra -/

/-- Source function `intval(h1, h2)` -/
def intval (g : Geometry) (h1 h2 : hyperpoint D K) : K :=
  let res := ∑ i : Fin (D + 1), squar (h1 i - h2 i) * (sig D g i : K)
  if g.elliptic then
    let res2 := ∑ i : Fin (D + 1), squar (h1 i + h2 i) * (sig D g i : K)
    min res res2
  else res

/-- Source function `sqhypot_d(h, d)`: the sum of `h[i]*h[i]` over `i < d`. -/
def sqhypot_d (h : hyperpoint D K) (d : ℕ) : K :=
  ∑ i in Finset.univ.filter (fun i : Fin (D + 1) => i.val < d), h i * h i

/-- Source function `hypot_d(h, d)` -/
def hypot_d [CMath K] (h : hyperpoint D K) (d : ℕ) : K := CMath.sqrt (sqhypot_d h d)

/-- Source function `zlevel(h)` -/
def zlevel [CMath K] (g : Geometry) (h : hyperpoint D K) : K :=
  if euclid g then h (Fin.last D)
  else if sphere g then CMath.sqrt (intval g h Hypc)
  else (if h (Fin.last D) < 0 then -1 else 1) * CMath.sqrt (-intval g h Hypc)

/-- Source function `normalize(H)`: divides every coordinate by `zlevel(H)`. -/
def normalize [CMath K] (g : Geometry) (H : hyperpoint D K) : hyperpoint D K :=
  let Z := zlevel g H
  fun c => H c / Z

/-- Source function `mid(H1, H2) = normalize(H1 + H2)`: the centre of the segment from `H1` to
`H2`. -/
def mid [CMath K] (g : Geometry) (H1 H2 : hyperpoint D K) : hyperpoint D K :=
  normalize g (addPoint H1 H2)

/-! ### Elementary builders -/

/-- Source function `cspin(a, b, alpha)` -/
def cspin [CMath K] (a b : Fin (D + 1)) (alpha : K) : transmatrix D K :=
  let T : transmatrix D K := Id
  let T := setEntry T a a (CMath.cos alpha)
  let T := setEntry T a b (CMath.sin alpha)
  let T := setEntry T b a (-CMath.sin alpha)
  let T := setEntry T b b (CMath.cos alpha)
  T

/-- Source function `spin(alpha) = cspin(0, 1, alpha)` -/
def spin [CMath K] (alpha : K) : transmatrix D K := cspin 0 1 alpha

/-- Source function `eupush(hyperpoint h)`: `Id` with `T[i][DIM] = h[i]` for `i < DIM`. -/
def eupush (h : hyperpoint D K) : transmatrix D K :=
  fun i j => if i.val < D ∧ j = Fin.last D then h i else (Id : transmatrix D K) i j

/-- Source function `cpush(cid, alpha)` -/
def cpush [CMath K] (g : Geometry) (cid : Fin (D + 1)) (alpha : K) : transmatrix D K :=
  let T : transmatrix D K := Id
  let T := setEntry T cid cid (cos_auto g alpha)
  let T := setEntry T (Fin.last D) (Fin.last D) (cos_auto g alpha)
  let T := setEntry T cid (Fin.last D) (sin_auto g alpha)
  let T := setEntry T (Fin.last D) cid (-(curvature g : K) * sin_auto g alpha)
  T

/-- Source function `xpush(alpha) = cpush(0, alpha)` -/
def xpush [CMath K] (g : Geometry) (alpha : K) : transmatrix D K := cpush g 0 alpha

/-- Source function `cpush0(c, x)` -/
def cpush0 [CMath K] (g : Geometry) (c : Fin (D + 1)) (x : K) : hyperpoint D K :=
  let h : hyperpoint D K := Hypc
  let h := setCoord h (Fin.last D) (cos_auto g x)
  let h := setCoord h c (sin_auto g x)
  h

/-- Source function `xpush0(x) = cpush0(0, x)` -/
def xpush0 [CMath K] (g : Geometry) (x : K) : hyperpoint D K := cpush0 g 0 x

/-- Source function `spintoc(H, t, f)` -/
def spintoc [CMath K] (H : hyperpoint D K) (t f : Fin (D + 1)) : transmatrix D K :=
  let T : transmatrix D K := Id
  let R := CMath.hypot (H f) (H t)
  if R ≥ 1e-12 then
    let T := setEntry T t t (H t / R)
    let T := setEntry T t f (H f / R)
    let T := setEntry T f t (-H f / R)
    let T := setEntry T f f (H t / R)
    T
  else T

/-- Source function `rspintoc(H, t, f)` -/
def rspintoc [CMath K] (H : hyperpoint D K) (t f : Fin (D + 1)) : transmatrix D K :=
  let T : transmatrix D K := Id
  let R := CMath.hypot (H f) (H t)
  if R ≥ 1e-12 then
    let T := setEntry T t t (H t / R)
    let T := setEntry T t f (-H f / R)
    let T := setEntry T f t (H f / R)
    let T := setEntry T f f (H t / R)
    T
  else T

/-- Source function `spintox(H)`: the `DIM == 2` branch is one rotation, the other branch chains two. -/
def spintox [CMath K] (H : hyperpoint D K) : transmatrix D K :=
  if D = 2 then spintoc H 0 1
  else
    let T1 := spintoc H 0 1
    mulMatrix (spintoc (mulPoint T1 H) 0 2) T1

/-- Source function `rspintox(H)`, the reverse of `spintox(H)`. -/
def rspintox [CMath K] (H : hyperpoint D K) : transmatrix D K :=
  if D = 2 then rspintoc H 0 1
  else
    let T1 := spintoc H 0 1
    mulMatrix (rspintoc H 0 1) (rspintoc (mulPoint T1 H) 0 2)

/-! ### Direct origin-pushing -/

/-- Source function `ggpushxto0(H, co)` -/
def ggpushxto0 (g : Geometry) (H : hyperpoint D K) (co : K) : transmatrix D K :=
  if euclid g then eupush (scalePoint co H)
  else
    let res : transmatrix D K := Id
    if sqhypot_d H D < 1e-12 then res
    else
      let fac := (H (Fin.last D) - 1) / sqhypot_d H D
      let res : transmatrix D K :=
        fun i j => if i.val < D ∧ j.val < D then res i j + H i * H j * fac else res i j
      let res : transmatrix D K :=
        fun i j =>
          if i = Fin.last D ∧ j.val < D then -(curvature g : K) * co * H j
          else if i.val < D ∧ j = Fin.last D then co * H i
          else res i j
      setEntry res (Fin.last D) (Fin.last D) (H (Fin.last D))

/-- Source function `gpushxto0(H) = ggpushxto0(H, -1)` -/
def gpushxto0 (g : Geometry) (H : hyperpoint D K) : transmatrix D K := ggpushxto0 g H (-1)

/-- Source function `rgpushxto0(H) = ggpushxto0(H, 1)` -/
def rgpushxto0 (g : Geometry) (H : hyperpoint D K) : transmatrix D K := ggpushxto0 g H 1

/-! ### Validity restoration -/

/-- One iteration `(x, y)` of the flat branch of `fixmatrix`: the inner product `dp` of the
columns `x` and `y` over the rows below `DIM`, its correction on the diagonal, and the update of
column `x` in those rows. -/
def fixmatrix_euclid_step [CMath K] (x y : Fin (D + 1)) (T : transmatrix D K) : transmatrix D K :=
  let dp := ∑ z in Finset.univ.filter (fun z : Fin (D + 1) => z.val < D), T z x * T z y
  let dp := if y = x then 1 - CMath.sqrt (1 / dp) else dp
  fun z c => if z.val < D ∧ c = x then T z x - dp * T z y else T z c

/-- One iteration `(x, y)` of the curved branch of `fixmatrix`: the signature-weighted inner
product `dp` of the columns `x` and `y`, its correction on the diagonal, and the update of
column `x`. -/
def fixmatrix_step [CMath K] (g : Geometry) (x y : Fin (D + 1)) (T : transmatrix D K) : transmatrix D K :=
  let dp := ∑ z : Fin (D + 1), T z x * T z y * (sig D g z : K)
  let dp := if y = x then 1 - CMath.sqrt ((sig D g x : K) / dp) else dp
  fun z c => if c = x then T z x - dp * T z y else T z c

/-- Source function `fixmatrix(T)`; the matrix left in `T` is the result. -/
def fixmatrix [CMath K] (g : Geometry) (T : transmatrix D K) : transmatrix D K :=
  if euclid g then
    let T := forRange D 0 D
      (fun x T => forRange D 0 (x.val + 1) (fun y T => fixmatrix_euclid_step x y T) T) T
    let T := forRange D 0 D (fun x T => setEntry T 2 x 0) T
    setEntry T 2 2 1
  else
    forRange D 0 (D + 1)
      (fun x T => forRange D 0 (x.val + 1) (fun y T => fixmatrix_step g x y T) T) T

/-! ### Determinant and inverse -/

/-- The pivot search of `det` and `inverse`: the first row `b` with `a <= b <= DIM` and
`M[b][a] != 0`, if there is one. -/
def findPivot (M : transmatrix D K) (a : Fin (D + 1)) : Option (Fin (D + 1)) :=
  (List.finRange (D + 1)).find? (fun b => decide (a ≤ b) && decide (M b a ≠ 0))

/-- The row exchange of `inverse`: `swap(M[b][c], M[a][c])` for every column `c`. -/
def swapRows (M : transmatrix D K) (b a : Fin (D + 1)) : transmatrix D K :=
  fun i c => if i = b then M a c else if i = a then M b c else M i c

/-- The row exchange of `det`: `tie(M[b][c], M[a][c]) = make_pair(-M[a][c], M[b][c])` for the
columns `c >= a`. -/
def swapNegRows (M : transmatrix D K) (b a : Fin (D + 1)) : transmatrix D K :=
  fun i c => if a ≤ c then (if i = b then -M a c else if i = a then M b c else M i c) else M i c

/-- The row operation `M[b][c] += M[a][c] * co` for every column `c`. -/
def addRowMul (M : transmatrix D K) (b a : Fin (D + 1)) (co : K) : transmatrix D K :=
  fun i c => if i = b then M b c + M a c * co else M i c

/-- The row operation `M[b][c] += M[a][c] * co` for the columns `c >= a`. -/
def addRowMulFrom (M : transmatrix D K) (b a : Fin (D + 1)) (co : K) : transmatrix D K :=
  fun i c => if i = b ∧ a ≤ c then M b c + M a c * co else M i c

/-- The row scaling `M[a][c] *= co` for every column `c`. -/
def scaleRow (M : transmatrix D K) (a : Fin (D + 1)) (co : K) : transmatrix D K :=
  fun i c => if i = a then M a c * co else M i c

/-- One column `a` of the elimination of `det` on the state `(det, M)`; `none` is the early
`return 0`. -/
def det_column (a : Fin (D + 1)) (S : K × transmatrix D K) : Option (K × transmatrix D K) :=
  let M := S.2
  let M := match findPivot M a with
    | some b => if b ≠ a then swapNegRows M b a else M
    | none => M
  if M a a = 0 then none
  else
    let M := forRange D (a.val + 1) (D + 1)
      (fun b M => let co := -M b a / M a a; addRowMulFrom M b a co) M
    some (S.1 * M a a, M)

/-- Source function `det(T)`: the cofactor expansion when `DIM == 2`, elimination otherwise. -/
def det (T : transmatrix D K) : K :=
  if D = 2 then
    let det : K := 0
    let det := det + ∑ i : Fin (D + 1), T 0 i * T 1 (i + 1) * T 2 (i + 2)
    let det := det - ∑ i : Fin (D + 1), T 0 i * T 1 (i + 2) * T 2 (i + 1)
    det
  else
    match forRange D 0 (D + 1) (fun a S => S.bind (det_column a)) (some (1, T)) with
    | none => 0
    | some S => S.1

/-- One column `a` of the forward elimination of `inverse` on the state `(T1, T2)`; `none` is
the exit through `inverse_error`. -/
def inverse_column (a : Fin (D + 1)) (S : transmatrix D K × transmatrix D K) :
    Option (transmatrix D K × transmatrix D K) :=
  let S := match findPivot S.1 a with
    | some b => if b ≠ a then (swapRows S.1 b a, swapRows S.2 b a) else S
    | none => S
  if S.1 a a = 0 then none
  else
    some (forRange D (a.val + 1) (D + 1)
      (fun b S => let co := -S.1 b a / S.1 a a; (addRowMul S.1 b a co, addRowMul S.2 b a co)) S)

/-- The forward elimination of `inverse`, started from `(T, Id)`. -/
def inverse_forward (T : transmatrix D K) : Option (transmatrix D K × transmatrix D K) :=
  forRange D 0 (D + 1) (fun a S => S.bind (inverse_column a)) (some (T, Id))

/-- One column `a` of the back-substitution of `inverse` on the state `(T1, T2)`. -/
def inverse_back_column (a : Fin (D + 1)) (S : transmatrix D K × transmatrix D K) :
    transmatrix D K × transmatrix D K :=
  let S := forRange D 0 a.val
    (fun b S => let co := -S.1 b a / S.1 a a; (addRowMul S.1 b a co, addRowMul S.2 b a co)) S
  let co := 1 / S.1 a a
  (scaleRow S.1 a co, scaleRow S.2 a co)

/-- Source function `inverse(T)`: adjugate over determinant when `DIM == 2`, elimination otherwise; a singular
matrix is reported and `Id` is returned. -/
def inverse (T : transmatrix D K) : transmatrix D K :=
  if D = 2 then
    let d := det T
    if d = 0 then Id
    else
      fun j i =>
        (T (i + 1) (j + 1) * T (i + 2) (j + 2) - T (i + 1) (j + 2) * T (i + 2) (j + 1)) / d
  else
    match inverse_forward T with
    | none => Id
    | some S => (forDown D (D + 1) inverse_back_column S).2

/-! ### Distances -/

/-- Source function `hdist0(mh)`: the distance between `mh` and the origin. -/
def hdist0 [CMath K] (g : Geometry) (mh : hyperpoint D K) : K :=
  match g.cgclass with
  | eGeometryClass.gcHyperbolic =>
    if mh (Fin.last D) < 1 then 0 else CMath.acosh (mh (Fin.last D))
  | eGeometryClass.gcEuclid => sqhypot_d mh D
  | eGeometryClass.gcSphere =>
    let res : K :=
      if mh (Fin.last D) ≥ 1 then 0
      else if mh (Fin.last D) ≤ -1 then CMath.M_PI
      else CMath.acos (mh (Fin.last D))
    if g.elliptic && decide (res > CMath.M_PI / 2) then CMath.M_PI - res else res

/-- Source function `hdist(h1, h2)`: the active code path, `hdist0(gpushxto0(h1) * h2)`. -/
def hdist [CMath K] (g : Geometry) (h1 h2 : hyperpoint D K) : K :=
  hdist0 g (mulPoint (gpushxto0 g h1) h2)

/-! ### Composite operations -/

/-- Source function `mid_at_actual(h, v) = rspintox(h) * xpush0(hdist0(h) * v)` -/
def mid_at_actual [CMath K] (g : Geometry) (h : hyperpoint D K) (v : K) : hyperpoint D K :=
  mulPoint (rspintox h) (xpush0 g (hdist0 g h * v))

/-! ### Specification predicates -/

/-- The points of the active manifold, in the words of the data model: flat, the last
coordinate is `1`; hyperbolic, the signature-weighted form is `-1` and the last coordinate is
positive; spherical, the sum of the squares is `1`. -/
def OnManifold (g : Geometry) (H : hyperpoint D K) : Prop :=
  match g.cgclass with
  | eGeometryClass.gcEuclid => H (Fin.last D) = 1
  | eGeometryClass.gcHyperbolic =>
    (∑ i in Finset.univ.filter (fun i : Fin (D + 1) => i.val < D), H i ^ 2)
      - H (Fin.last D) ^ 2 = -1 ∧ 0 < H (Fin.last D)
  | eGeometryClass.gcSphere => ∑ i : Fin (D + 1), H i ^ 2 = 1

/-- The matrix `G = diag(sig(0), ..., sig(DIM))` of the signature-weighted bilinear form. -/
def Gram (D : ℕ) (K : Type) [LinearOrderedField K] (g : Geometry) : transmatrix D K :=
  Matrix.diagonal (fun i : Fin (D + 1) => (sig D g i : K))

/-- The isometry condition `Tᵗ G T = G`. -/
def IsIsometry (g : Geometry) (T : transmatrix D K) : Prop :=
  mulMatrix (mulMatrix (Matrix.transpose T) (Gram D K g)) T = Gram D K g

/-- The signature-weighted inner product of the columns `x` and `y` of `T`, the quantity `dp`
of `fixmatrix`. -/
def colProduct (g : Geometry) (T : transmatrix D K) (x y : Fin (D + 1)) : K :=
  ∑ z : Fin (D + 1), T z x * T z y * (sig D g z : K)

/-- The matrix held by the curved branch of `fixmatrix`, run on `T`, when it reaches the
diagonal iteration `y == x` of column `x`: the columns before `x` are finished and the
iterations `y < x` of column `x` are done. -/
def fixmatrix_before_diag [CMath K] (g : Geometry) (T : transmatrix D K) (x : Fin (D + 1)) :
    transmatrix D K :=
  forRange D 0 x.val (fun y T => fixmatrix_step g x y T)
    (forRange D 0 x.val
      (fun x T => forRange D 0 (x.val + 1) (fun y T => fixmatrix_step g x y T) T) T)

/-- The run of `fixmatrix` on `T` never takes the square root of a non-positive quantity: at each
diagonal iteration `y == x` the weighted self-product `dp` of the current column `x` is
non-zero and has the sign of `sig(x)`. -/
def FixmatrixSqrtDefined [CMath K] (g : Geometry) (T : transmatrix D K) : Prop :=
  ∀ x : Fin (D + 1),
    0 < (sig D g x : K) * colProduct g (fixmatrix_before_diag g T x) x x

/-- The first `a` columns of `M` are eliminated: zeros below the diagonal and non-zero pivots
on it (the state of `T1` in `inverse` once the columns before `a` are processed). -/
def Eliminated (a : ℕ) (M : transmatrix D K) : Prop :=
  (∀ i j : Fin (D + 1), j.val < a → j < i → M i j = 0) ∧
  (∀ j : Fin (D + 1), j.val < a → M j j ≠ 0)

/-- The columns from `k` on are back-substituted: `M` is upper triangular with non-zero
diagonal and its columns `j >= k` are unit columns (the state of `T1` in the second loop of
`inverse` once the columns from `k` on are processed). -/
def BackSubstituted (k : ℕ) (M : transmatrix D K) : Prop :=
  (∀ i j : Fin (D + 1), j < i → M i j = 0) ∧
  (∀ j : Fin (D + 1), M j j ≠ 0) ∧
  (∀ i j : Fin (D + 1), k ≤ j.val → M i j = if i = j then 1 else 0)

end Defs

/-! ## Basic lemmas: sums over the coordinates, signature, products -/

section Basics

variable {D : ℕ} {K : Type} [LinearOrderedField K]

/-- A loop over `i < DIM` is a sum over the first `DIM` indices. -/
theorem sum_filter_lt (f : Fin (D + 1) → K) :
    ∑ i in Finset.univ.filter (fun i : Fin (D + 1) => i.val < D), f i
      = ∑ i : Fin D, f i.castSucc := by
  rw [Finset.sum_filter, Fin.sum_univ_castSucc]
  simp

theorem sqhypot_d_DIM (h : hyperpoint D K) :
    sqhypot_d h D = ∑ i : Fin D, h i.castSucc * h i.castSucc := by
  unfold sqhypot_d
  exact sum_filter_lt _

theorem sqhypot_d_nonneg (h : hyperpoint D K) (d : ℕ) : 0 ≤ sqhypot_d h d := by
  unfold sqhypot_d
  exact Finset.sum_nonneg (fun i _ => mul_self_nonneg (h i))

theorem sig_castSucc (g : Geometry) (i : Fin D) : sig D g (i.castSucc : Fin (D + 1)) = 1 := by
  simp [sig]

theorem sig_of_lt (g : Geometry) (i : ℕ) (h : i < D) : sig D g i = 1 := by
  simp [sig, h]

theorem sig_last (g : Geometry) : sig D g (Fin.last D : Fin (D + 1)) = if sphere g then 1 else -1 := by
  simp [sig]

theorem sig_mul_self (g : Geometry) (i : ℕ) : sig D g i * sig D g i = 1 := by
  unfold sig
  split <;> simp

theorem mulPoint_apply (T : transmatrix D K) (H : hyperpoint D K) (i : Fin (D + 1)) :
    mulPoint T H i = (∑ j : Fin D, T i j.castSucc * H j.castSucc) + T i (Fin.last D) * H (Fin.last D) := by
  unfold mulPoint
  rw [Fin.sum_univ_castSucc]

theorem mulMatrix_eq_mul (T U : transmatrix D K) : mulMatrix T U = T * U := rfl

theorem Id_eq_one : (Id : transmatrix D K) = 1 := rfl

theorem Id_apply (i j : Fin (D + 1)) : (Id : transmatrix D K) i j = if i = j then 1 else 0 := by
  simp [Id, Matrix.one_apply]

/-- The isometry condition, entry by entry: the columns are orthonormal for the
signature-weighted inner product. -/
theorem isIsometry_iff (g : Geometry) (T : transmatrix D K) :
    IsIsometry g T ↔
      ∀ j k : Fin (D + 1), ∑ z : Fin (D + 1), T z j * T z k * (sig D g z : K)
        = if j = k then (sig D g j : K) else 0 := by
  unfold IsIsometry Gram
  rw [mulMatrix_eq_mul, mulMatrix_eq_mul, ← Matrix.ext_iff]
  refine forall_congr' (fun j => forall_congr' (fun k => ?_))
  rw [Matrix.mul_apply, Matrix.diagonal_apply]
  simp only [Matrix.mul_diagonal, Matrix.transpose_apply]
  constructor <;> intro h <;> rw [← h] <;> exact Finset.sum_congr rfl (fun z _ => by ring)

theorem isIsometry_Id (g : Geometry) : IsIsometry g (Id : transmatrix D K) := by
  unfold IsIsometry
  simp [mulMatrix_eq_mul, Id_eq_one, Gram]

/-- A product of isometries is an isometry. -/
theorem IsIsometry.mul {g : Geometry} {T U : transmatrix D K} (hT : IsIsometry g T)
    (hU : IsIsometry g U) : IsIsometry g (mulMatrix T U) := by
  unfold IsIsometry at *
  simp only [mulMatrix_eq_mul] at *
  rw [Matrix.transpose_mul]
  calc Matrix.transpose U * Matrix.transpose T * Gram D K g * (T * U)
      = Matrix.transpose U * (Matrix.transpose T * Gram D K g * T) * U := by
        simp only [Matrix.mul_assoc]
    _ = Gram D K g := by rw [hT, hU]

theorem sqhypot_d_dim2 {K : Type} [LinearOrderedField K] (x y z : K) :
    sqhypot_d (![x, y, z] : hyperpoint 2 K) 2 = x * x + y * y := by
  rw [sqhypot_d_DIM]
  simp [Fin.sum_univ_two]

theorem last_dim2 {K : Type} (x y z : K) : (![x, y, z] : hyperpoint 2 K) (Fin.last 2) = z := rfl

end Basics

/-! ## The closed-form origin push `ggpushxto0` -/

section Push

variable {D : ℕ} {K : Type} [LinearOrderedField K]

theorem curvature_sq (g : Geometry) (h : euclid g = false) :
    (curvature g : K) * (curvature g : K) = 1 := by
  rcases g with ⟨c, e⟩
  cases c <;> simp [curvature, euclid] at h ⊢

/-- On the manifold of a curved geometry, `curvature * (H[0]^2 + ... + H[DIM-1]^2)` is
`1 - H[DIM]^2`. -/
theorem onManifold_curved (g : Geometry) (H : hyperpoint D K) (hg : euclid g = false)
    (hH : OnManifold g H) :
    (curvature g : K) * sqhypot_d H D = 1 - H (Fin.last D) ^ 2 := by
  rcases g with ⟨c, e⟩
  cases c
  · simp only [OnManifold, sum_filter_lt] at hH
    simp only [curvature, sqhypot_d_DIM]
    have h1 : ∑ i : Fin D, H i.castSucc * H i.castSucc = ∑ i : Fin D, H i.castSucc ^ 2 :=
      Finset.sum_congr rfl (fun i _ => by ring)
    rw [h1]
    push_cast
    linarith [hH.1]
  · simp [euclid] at hg
  · simp only [OnManifold, Fin.sum_univ_castSucc] at hH
    simp only [curvature, sqhypot_d_DIM]
    have h1 : ∑ i : Fin D, H i.castSucc * H i.castSucc = ∑ i : Fin D, H i.castSucc ^ 2 :=
      Finset.sum_congr rfl (fun i _ => by ring)
    rw [h1]
    push_cast
    linarith [hH]

/-- The entries of `ggpushxto0(H, co)` in a curved geometry, outside the near-zero guard. -/
theorem ggpushxto0_curved (g : Geometry) (H : hyperpoint D K) (co : K) (hg : euclid g = false)
    (hs : (1e-12 : K) ≤ sqhypot_d H D) :
    (∀ i j : Fin D, ggpushxto0 g H co i.castSucc j.castSucc
        = (if i = j then 1 else 0) + H i.castSucc * H j.castSucc
            * ((H (Fin.last D) - 1) / sqhypot_d H D)) ∧
    (∀ i : Fin D, ggpushxto0 g H co i.castSucc (Fin.last D) = co * H i.castSucc) ∧
    (∀ j : Fin D, ggpushxto0 g H co (Fin.last D) j.castSucc
        = -(curvature g : K) * co * H j.castSucc) ∧
    ggpushxto0 g H co (Fin.last D) (Fin.last D) = H (Fin.last D) := by
  have hs' : ¬ sqhypot_d H D < (1e-12 : K) := not_lt.mpr hs
  refine ⟨fun i j => ?_, fun i => ?_, fun j => ?_, ?_⟩
  · simp [ggpushxto0, hg, hs', setEntry, Id_apply, (Fin.castSucc_lt_last i).ne,
      (Fin.castSucc_lt_last j).ne]
  · simp [ggpushxto0, hg, hs', setEntry, Id_apply, (Fin.castSucc_lt_last i).ne]
  · simp [ggpushxto0, hg, hs', setEntry, Id_apply, (Fin.castSucc_lt_last j).ne]
  · simp [ggpushxto0, hg, hs', setEntry, Id_apply]

/-- The entries of `ggpushxto0(H, co)` in flat geometry. -/
theorem ggpushxto0_flat (g : Geometry) (H : hyperpoint D K) (co : K) (hg : euclid g = true) :
    (∀ (i : Fin (D + 1)) (j : Fin D), ggpushxto0 g H co i j.castSucc
        = if i = j.castSucc then 1 else 0) ∧
    (∀ i : Fin D, ggpushxto0 g H co i.castSucc (Fin.last D) = co * H i.castSucc) ∧
    ggpushxto0 g H co (Fin.last D) (Fin.last D) = 1 := by
  refine ⟨fun i j => ?_, fun i => ?_, ?_⟩
  · simp [ggpushxto0, hg, eupush, Id_apply, (Fin.castSucc_lt_last j).ne, scalePoint]
  · simp [ggpushxto0, hg, eupush, Id_apply, scalePoint]
  · simp [ggpushxto0, hg, eupush, Id_apply]

end Push

section RealMath

@[simp] theorem cmath_sqrt (x : ℝ) : CMath.sqrt x = Real.sqrt x := rfl
@[simp] theorem cmath_hypot (x y : ℝ) : CMath.hypot x y = Real.sqrt (x ^ 2 + y ^ 2) := rfl
@[simp] theorem cmath_sin (x : ℝ) : CMath.sin x = Real.sin x := rfl
@[simp] theorem cmath_cos (x : ℝ) : CMath.cos x = Real.cos x := rfl
@[simp] theorem cmath_sinh (x : ℝ) : CMath.sinh x = Real.sinh x := rfl
@[simp] theorem cmath_cosh (x : ℝ) : CMath.cosh x = Real.cosh x := rfl
@[simp] theorem cmath_acos (x : ℝ) : CMath.acos x = Real.arccos x := rfl
@[simp] theorem cmath_pi : (CMath.M_PI : ℝ) = Real.pi := rfl

/-- In a curved geometry, `cos_auto(x)^2 + curvature * sin_auto(x)^2 = 1`. -/
theorem cos_auto_sq_add (g : Geometry) (hg : euclid g = false) (x : ℝ) :
    cos_auto g x * cos_auto g x + (curvature g : ℝ) * (sin_auto g x * sin_auto g x) = 1 := by
  rcases g with ⟨c, e⟩
  cases c
  · simp only [cos_auto, sin_auto, curvature, cmath_cosh, cmath_sinh]
    have := Real.cosh_sq x
    push_cast
    nlinarith
  · simp [euclid] at hg
  · simp only [cos_auto, sin_auto, curvature, cmath_cos, cmath_sin]
    have := Real.sin_sq_add_cos_sq x
    push_cast
    nlinarith

end RealMath

/-! ## Transformations acting in one coordinate plane -/

section Plane

variable {D : ℕ} {K : Type} [LinearOrderedField K]

/-- The matrix equal to `Id` except for the four entries `(a,a) = p`, `(a,b) = q`,
`(b,a) = r`, `(b,b) = t`. -/
theorem setEntry_plane (a b : Fin (D + 1)) (hab : a ≠ b) (p q r t : K) (i j : Fin (D + 1)) :
    setEntry (setEntry (setEntry (setEntry (Id : transmatrix D K) a a p) a b q) b a r) b b t i j
      = if i = a then (if j = a then p else if j = b then q else 0)
        else if i = b then (if j = a then r else if j = b then t else 0)
        else if i = j then 1 else 0 := by
  have hba : b ≠ a := Ne.symm hab
  simp only [setEntry, Id_apply]
  by_cases hia : i = a <;> by_cases hib : i = b <;> by_cases hja : j = a <;>
    by_cases hjb : j = b <;> simp_all <;> intro h <;> simp_all

/-- A matrix acting in the coordinate plane `(a, b)` only is an isometry as soon as its
2 × 2 block preserves the weights of the two axes. -/
theorem isIsometry_plane (g : Geometry) (a b : Fin (D + 1)) (hab : a ≠ b) (p q r t : K)
    (T : transmatrix D K)
    (hT : ∀ i j, T i j = if i = a then (if j = a then p else if j = b then q else 0)
        else if i = b then (if j = a then r else if j = b then t else 0)
        else if i = j then 1 else 0)
    (h1 : p * p * (sig D g a : K) + r * r * (sig D g b : K) = (sig D g a : K))
    (h2 : q * q * (sig D g a : K) + t * t * (sig D g b : K) = (sig D g b : K))
    (h3 : p * q * (sig D g a : K) + r * t * (sig D g b : K) = 0) :
    IsIsometry g T := by
  have hba : b ≠ a := Ne.symm hab
  rw [isIsometry_iff]
  intro j k
  have hb : b ∈ (Finset.univ : Finset (Fin (D + 1))).erase a :=
    Finset.mem_erase.mpr ⟨hba, Finset.mem_univ b⟩
  rw [← Finset.add_sum_erase _ _ (Finset.mem_univ a), ← Finset.add_sum_erase _ _ hb]
  have hrest : ∑ z in ((Finset.univ : Finset (Fin (D + 1))).erase a).erase b,
        T z j * T z k * (sig D g z : K)
      = if j = a ∨ j = b then 0 else if j = k then (sig D g j : K) else 0 := by
    have e : ∀ z ∈ ((Finset.univ : Finset (Fin (D + 1))).erase a).erase b,
        T z j * T z k * (sig D g z : K)
          = if z = j then (if j = k then (sig D g j : K) else 0) else 0 := by
      intro z hz
      have hzb : z ≠ b := (Finset.mem_erase.mp hz).1
      have hza : z ≠ a := (Finset.mem_erase.mp (Finset.mem_erase.mp hz).2).1
      simp only [hT, hza, hzb, if_false]
      by_cases hzj : z = j
      · subst hzj
        by_cases hzk : z = k <;> simp [hzk]
      · simp [hzj]
    rw [Finset.sum_congr rfl e, Finset.sum_ite_eq']
    by_cases hja : j = a
    · simp [hja]
    · by_cases hjb : j = b
      · simp [hjb]
      · simp [hja, hjb]
  rw [hrest]
  simp only [hT, if_true, hba, if_false]
  have cls : ∀ x : Fin (D + 1), x = a ∨ x = b ∨ (x ≠ a ∧ x ≠ b ∧ a ≠ x ∧ b ≠ x) := by
    intro x
    by_cases hxa : x = a
    · exact Or.inl hxa
    · by_cases hxb : x = b
      · exact Or.inr (Or.inl hxb)
      · exact Or.inr (Or.inr ⟨hxa, hxb, Ne.symm hxa, Ne.symm hxb⟩)
  rcases cls j with hj | hj | hj <;> rcases cls k with hk | hk | hk <;>
    simp only [if_true, if_false, hab, hba, hj, hk, true_or, or_true,
      or_self, mul_zero, zero_mul, add_zero, zero_add, ne_eq, not_false_eq_true, mul_one, one_mul]
  · linear_combination h1
  · linear_combination h3
  · linear_combination h3
  · linear_combination h2

end Plane

/-! ## Loop invariants -/

section Loops

variable {D : ℕ} {σ : Type}

theorem forRange_zero (lo : ℕ) (body : Fin (D + 1) → σ → σ) (s : σ) :
    forRange D lo 0 body s = s := rfl

theorem forRange_succ_of_lt (lo k : ℕ) (body : Fin (D + 1) → σ → σ) (s : σ) (hlo : lo ≤ k)
    (hk : k < D + 1) :
    forRange D lo (k + 1) body s = body ⟨k, hk⟩ (forRange D lo k body s) := by
  simp [forRange, hlo, hk]

theorem forRange_succ_skip (lo k : ℕ) (body : Fin (D + 1) → σ → σ) (s : σ)
    (h : ¬ (lo ≤ k ∧ k < D + 1)) :
    forRange D lo (k + 1) body s = forRange D lo k body s := by
  simp [forRange, h]

/-- A loop whose range is empty leaves the state alone. -/
theorem forRange_of_le (lo hi : ℕ) (body : Fin (D + 1) → σ → σ) (s : σ) (h : hi ≤ lo) :
    forRange D lo hi body s = s := by
  induction hi with
  | zero => rfl
  | succ k ih =>
    rw [forRange_succ_skip lo k body s (by omega)]
    exact ih (by omega)

/-- A property kept by every iteration is kept by the loop. -/
theorem forRange_preserves (P : σ → Prop) (lo hi : ℕ) (body : Fin (D + 1) → σ → σ) (s : σ)
    (hs : P s) (hstep : ∀ i s, P s → P (body i s)) : P (forRange D lo hi body s) := by
  induction hi with
  | zero => exact hs
  | succ k ih =>
    by_cases h : lo ≤ k ∧ k < D + 1
    · rw [forRange_succ_of_lt lo k body s h.1 h.2]
      exact hstep _ _ ih
    · rw [forRange_succ_skip lo k body s h]
      exact ih

/-- Loop invariant indexed by the loop counter: `P lo` holds on entry, every iteration `k`
takes `P k` to `P (k + 1)`, so `P hi` holds on exit. -/
theorem forRange_induction (P : ℕ → σ → Prop) (lo hi : ℕ) (body : Fin (D + 1) → σ → σ) (s : σ)
    (hlo : lo ≤ hi) (hhi : hi ≤ D + 1) (h0 : P lo s)
    (hstep : ∀ (k : ℕ) (hk : k < D + 1), lo ≤ k → k < hi → ∀ s', P k s' → P (k + 1) (body ⟨k, hk⟩ s')) :
    P hi (forRange D lo hi body s) := by
  induction hi with
  | zero =>
    have : lo = 0 := by omega
    subst this
    exact h0
  | succ k ih =>
    by_cases h : lo ≤ k
    · have hk : k < D + 1 := by omega
      rw [forRange_succ_of_lt lo k body s h hk]
      exact hstep k hk h (by omega) _
        (ih h (by omega) (fun k' hk' h1 h2 s' hs' => hstep k' hk' h1 (by omega) s' hs'))
    · have hlo' : lo = k + 1 := by omega
      rw [forRange_of_le lo (k + 1) body s (by omega), ← hlo']
      exact h0

/-- Loop invariant on the successive states of the loop itself: `P lo` holds on entry, and
iteration `k` takes `P k` of the state reached so far to `P (k + 1)` of the next one. -/
theorem forRange_induction_state (P : ℕ → σ → Prop) (lo hi : ℕ) (body : Fin (D + 1) → σ → σ)
    (s : σ) (hlo : lo ≤ hi) (hhi : hi ≤ D + 1) (h0 : P lo s)
    (hstep : ∀ (k : ℕ) (hk : k < D + 1), lo ≤ k → k < hi → P k (forRange D lo k body s) →
      P (k + 1) (body ⟨k, hk⟩ (forRange D lo k body s))) :
    P hi (forRange D lo hi body s) := by
  induction hi with
  | zero =>
    have : lo = 0 := by omega
    subst this
    exact h0
  | succ k ih =>
    by_cases h : lo ≤ k
    · have hk : k < D + 1 := by omega
      rw [forRange_succ_of_lt lo k body s h hk]
      exact hstep k hk h (by omega)
        (ih h (by omega) (fun k' hk' h1 h2 hs' => hstep k' hk' h1 (by omega) hs'))
    · have hlo' : lo = k + 1 := by omega
      rw [forRange_of_le lo (k + 1) body s (by omega), ← hlo']
      exact h0

end Loops

/-! ## Row operations of the elimination in `inverse` -/

section Elimination

variable {D : ℕ} {K : Type} [LinearOrderedField K]

theorem findPivot_none (M : transmatrix D K) (a : Fin (D + 1)) (h : findPivot M a = none)
    (b : Fin (D + 1)) (hab : a ≤ b) : M b a = 0 := by
  unfold findPivot at h
  rw [List.find?_eq_none] at h
  have := h b (List.mem_finRange b)
  simpa [hab] using this

theorem findPivot_some (M : transmatrix D K) (a b : Fin (D + 1)) (h : findPivot M a = some b) :
    a ≤ b ∧ M b a ≠ 0 := by
  unfold findPivot at h
  have := List.find?_some h
  simpa using this

theorem swapRows_eq_submatrix (M : transmatrix D K) (b a : Fin (D + 1)) :
    swapRows M b a = M.submatrix (Equiv.swap b a) id := by
  ext i c
  simp only [swapRows, Matrix.submatrix_apply, id, Equiv.swap_apply_def]
  split_ifs <;> rfl

theorem det_swapRows (M : transmatrix D K) (b a : Fin (D + 1)) (hba : b ≠ a) :
    Matrix.det (swapRows M b a) = -Matrix.det M := by
  rw [swapRows_eq_submatrix, Matrix.det_permute, Equiv.Perm.sign_swap hba]
  simp

theorem addRowMul_eq_updateRow (M : transmatrix D K) (b a : Fin (D + 1)) (co : K) :
    addRowMul M b a co = Matrix.updateRow M b (M b + co • M a) := by
  ext i c
  simp only [addRowMul, Matrix.updateRow_apply, Pi.add_apply, Pi.smul_apply, smul_eq_mul]
  split_ifs <;> ring

theorem det_addRowMul (M : transmatrix D K) (b a : Fin (D + 1)) (hba : b ≠ a) (co : K) :
    Matrix.det (addRowMul M b a co) = Matrix.det M := by
  rw [addRowMul_eq_updateRow, Matrix.det_updateRow_add_smul_self M hba]

/-- A matrix whose column `a` has no pivot at or below the diagonal, the columns before `a`
being eliminated, is singular. -/
theorem det_eq_zero_of_no_pivot (M : transmatrix D K) (a : Fin (D + 1))
    (hE : ∀ i j : Fin (D + 1), j.val < a.val → j < i → M i j = 0)
    (hP : ∀ b : Fin (D + 1), a ≤ b → M b a = 0) : Matrix.det M = 0 := by
  rw [Matrix.twoBlockTriangular_det M (fun i => i < a)
    (fun i hi j hj => hE i j hj (lt_of_lt_of_le hj (not_lt.mp hi)))]
  have hz : Matrix.det (Matrix.toSquareBlockProp M (fun i => ¬ i < a)) = 0 := by
    refine Matrix.det_eq_zero_of_column_eq_zero ⟨a, lt_irrefl a⟩ (fun i => ?_)
    simp only [Matrix.toSquareBlockProp_def, Matrix.of_apply]
    exact hP i.1 (not_lt.mp i.2)
  rw [hz, mul_zero]

/-- A fully eliminated matrix is regular. -/
theorem det_ne_zero_of_eliminated (M : transmatrix D K) (hE : Eliminated (D + 1) M) :
    Matrix.det M ≠ 0 := by
  have hT : Matrix.BlockTriangular M id := fun i j hij => hE.1 i j j.isLt hij
  rw [Matrix.det_of_upperTriangular hT]
  exact Finset.prod_ne_zero_iff.mpr (fun j _ => hE.2 j j.isLt)

/-- Exchanging the pivot row with row `a` keeps the columns before `a` eliminated. -/
theorem eliminated_swapRows (M : transmatrix D K) (a b : Fin (D + 1)) (hab : a ≤ b)
    (hE : Eliminated a.val M) : Eliminated a.val (swapRows M b a) := by
  refine ⟨fun i j hj hji => ?_, fun j hj => ?_⟩
  · have hja : j < a := hj
    simp only [swapRows]
    split_ifs with h1 h2
    · exact hE.1 a j hj hja
    · exact hE.1 b j hj (lt_of_lt_of_le hja hab)
    · exact hE.1 i j hj hji
  · have hja : j < a := hj
    have h1 : j ≠ b := fun h => absurd (h ▸ hab) (not_le.mpr hja)
    have h2 : j ≠ a := ne_of_lt hja
    simp only [swapRows, h1, h2, if_false]
    exact hE.2 j hj

/-- The elimination of column `a` below a non-zero pivot: the determinant is kept and the
columns up to `a` are eliminated. -/
theorem eliminate_below (M N : transmatrix D K) (a : Fin (D + 1)) (hpiv : M a a ≠ 0)
    (hE : Eliminated a.val M) :
    Matrix.det (forRange D (a.val + 1) (D + 1)
      (fun b (S : transmatrix D K × transmatrix D K) =>
        let co := -S.1 b a / S.1 a a
        (addRowMul S.1 b a co, addRowMul S.2 b a co)) (M, N)).1 = Matrix.det M ∧
    Eliminated (a.val + 1) (forRange D (a.val + 1) (D + 1)
      (fun b (S : transmatrix D K × transmatrix D K) =>
        let co := -S.1 b a / S.1 a a
        (addRowMul S.1 b a co, addRowMul S.2 b a co)) (M, N)).1 := by
  have key := forRange_induction
    (fun (k : ℕ) (S : transmatrix D K × transmatrix D K) =>
      Matrix.det S.1 = Matrix.det M ∧
      (∀ i : Fin (D + 1), i ≤ a → ∀ c, S.1 i c = M i c) ∧
      (∀ i j : Fin (D + 1), j.val < a.val → j < i → S.1 i j = 0) ∧
      (∀ i : Fin (D + 1), a < i → i.val < k → S.1 i a = 0))
    (a.val + 1) (D + 1)
    (fun b (S : transmatrix D K × transmatrix D K) =>
      let co := -S.1 b a / S.1 a a
      (addRowMul S.1 b a co, addRowMul S.2 b a co)) (M, N)
    (by have := a.isLt; omega) (le_refl _)
    ⟨rfl, fun _ _ _ => rfl, hE.1, fun i hai hi => absurd hi (by
      have : a.val < i.val := hai
      omega)⟩
    (fun k hk hlo _ S hS => ?_)
  · obtain ⟨hdet, hrows, hz, hcol⟩ := key
    refine ⟨hdet, fun i j hj hji => ?_, fun j hj => ?_⟩
    · by_cases hja : j.val < a.val
      · exact hz i j hja hji
      · have hje : j = a := Fin.ext (by omega)
        rw [hje] at hji ⊢
        exact hcol i hji i.isLt
    · rw [hrows j (Nat.lt_succ_iff.mp hj) j]
      by_cases hja : j.val < a.val
      · exact hE.2 j hja
      · have hje : j = a := Fin.ext (by omega)
        rw [hje]
        exact hpiv
  · obtain ⟨hdet, hrows, hz, hcol⟩ := hS
    have hba : (⟨k, hk⟩ : Fin (D + 1)) ≠ a := fun h => by
      have := congrArg Fin.val h
      simp at this
      omega
    have hab : a < (⟨k, hk⟩ : Fin (D + 1)) := by
      show a.val < k
      omega
    have hpiv' : S.1 a a ≠ 0 := by
      rw [hrows a (le_refl a) a]
      exact hpiv
    refine ⟨?_, fun i hi c => ?_, fun i j hj hji => ?_, fun i hai hi => ?_⟩
    · show Matrix.det (addRowMul S.1 ⟨k, hk⟩ a _) = _
      rw [det_addRowMul _ _ _ hba, hdet]
    · have hik : i ≠ ⟨k, hk⟩ := fun h => absurd (h ▸ hi) (not_le.mpr hab)
      show addRowMul S.1 ⟨k, hk⟩ a _ i c = _
      simp only [addRowMul, hik, if_false]
      exact hrows i hi c
    · show addRowMul S.1 ⟨k, hk⟩ a _ i j = _
      simp only [addRowMul]
      split_ifs with h
      · have hja : j < a := hj
        rw [hz ⟨k, hk⟩ j hj (lt_trans hja hab), hz a j hj hja]
        simp
      · exact hz i j hj hji
    · show addRowMul S.1 ⟨k, hk⟩ a _ i a = _
      simp only [addRowMul]
      split_ifs with h
      · field_simp
        ring
      · have hne : i.val ≠ k := fun h' => h (Fin.ext h')
        exact hcol i hai (by omega)

/-- One column of the forward elimination: either no pivot is found and the matrix is
singular, or the determinant is kept up to sign and one more column is eliminated. -/
theorem inverse_column_spec (a : Fin (D + 1)) (S : transmatrix D K × transmatrix D K)
    (hE : Eliminated a.val S.1) :
    match inverse_column a S with
    | none => Matrix.det S.1 = 0
    | some S' =>
      (Matrix.det S'.1 = Matrix.det S.1 ∨ Matrix.det S'.1 = -Matrix.det S.1) ∧
        Eliminated (a.val + 1) S'.1 := by
  unfold inverse_column
  cases hp : findPivot S.1 a with
  | none =>
    have h0 : S.1 a a = 0 := findPivot_none S.1 a hp a (le_refl a)
    simp only [h0, if_true]
    exact det_eq_zero_of_no_pivot S.1 a hE.1 (findPivot_none S.1 a hp)
  | some b =>
    obtain ⟨hab, hne⟩ := findPivot_some S.1 a b hp
    by_cases hba : b = a
    · subst hba
      simp only [ne_eq, not_true_eq_false, if_false, hne]
      obtain ⟨h1, h2⟩ := eliminate_below S.1 S.2 b hne hE
      exact ⟨Or.inl h1, h2⟩
    · have hsw : swapRows S.1 b a a a ≠ 0 := by
        simp only [swapRows, Ne.symm hba, if_false, if_true]
        exact hne
      simp only [ne_eq, hba, not_false_eq_true, if_true, hsw, if_false]
      obtain ⟨h1, h2⟩ := eliminate_below (swapRows S.1 b a) (swapRows S.2 b a) a hsw
        (eliminated_swapRows S.1 a b hab hE)
      exact ⟨Or.inr (by rw [h1, det_swapRows _ _ _ hba]), h2⟩

/-- The forward elimination of `inverse`: either it takes its zero-pivot exit and the matrix is
singular, or it ends with `T1` fully eliminated and of the determinant of `T` up to sign. -/
theorem inverse_forward_spec (T : transmatrix D K) :
    match inverse_forward T with
    | none => Matrix.det T = 0
    | some S =>
      (Matrix.det S.1 = Matrix.det T ∨ Matrix.det S.1 = -Matrix.det T) ∧
        Eliminated (D + 1) S.1 := by
  refine forRange_induction
    (fun (k : ℕ) (s : Option (transmatrix D K × transmatrix D K)) =>
      match s with
      | none => Matrix.det T = 0
      | some S =>
        (Matrix.det S.1 = Matrix.det T ∨ Matrix.det S.1 = -Matrix.det T) ∧ Eliminated k S.1)
    0 (D + 1) (fun a S => S.bind (inverse_column a)) (some (T, Id)) (Nat.zero_le _) (le_refl _)
    ⟨Or.inl rfl, fun _ _ h => absurd h (Nat.not_lt_zero _), fun _ h => absurd h (Nat.not_lt_zero _)⟩
    (fun k hk _ _ s hs => ?_)
  cases s with
  | none => exact hs
  | some S =>
    obtain ⟨hdet, hE⟩ := hs
    have hspec := inverse_column_spec ⟨k, hk⟩ S hE
    show match inverse_column ⟨k, hk⟩ S with
      | none => Matrix.det T = 0
      | some S' => (Matrix.det S'.1 = Matrix.det T ∨ Matrix.det S'.1 = -Matrix.det T) ∧
          Eliminated (k + 1) S'.1
    cases hc : inverse_column ⟨k, hk⟩ S with
    | none =>
      rw [hc] at hspec
      rcases hdet with h1 | h1
      · exact h1 ▸ hspec
      · have : -Matrix.det T = 0 := h1 ▸ hspec
        simpa using this
    | some S' =>
      rw [hc] at hspec
      obtain ⟨hd', hE'⟩ := hspec
      refine ⟨?_, hE'⟩
      rcases hd' with h2 | h2 <;> rcases hdet with h1 | h1 <;> rw [h2, h1] <;> simp

/-- The forward elimination of `inverse` takes its zero-pivot exit exactly on the singular
matrices. -/
theorem inverse_forward_eq_none_iff (T : transmatrix D K) :
    inverse_forward T = none ↔ Matrix.det T = 0 := by
  have key := inverse_forward_spec T
  cases hf : inverse_forward T with
  | none =>
    rw [hf] at key
    exact ⟨fun _ => key, fun _ => rfl⟩
  | some S =>
    rw [hf] at key
    obtain ⟨hdet, hE⟩ := key
    have hne := det_ne_zero_of_eliminated S.1 hE
    refine ⟨fun h => by simp at h, fun h => ?_⟩
    rcases hdet with h1 | h1 <;> rw [h1, h] at hne <;> simp at hne

end Elimination

/-! ## The elimination of `det` -/

section DetElimination

variable {D : ℕ} {K : Type} [LinearOrderedField K]

/-- On a matrix whose columns before `a` are eliminated, the row exchange of `det` (which
touches the columns `c >= a` only) exchanges the whole rows `a` and `b`, negating one. -/
theorem swapNegRows_eq (M : transmatrix D K) (a b : Fin (D + 1)) (hab : a ≤ b)
    (hz : ∀ i j : Fin (D + 1), j.val < a.val → j < i → M i j = 0) :
    swapNegRows M b a
      = Matrix.updateRow (swapRows M b a) b ((-1 : K) • (swapRows M b a) b) := by
  ext i c
  simp only [swapNegRows, swapRows, Matrix.updateRow_apply, Pi.smul_apply, smul_eq_mul, if_true]
  by_cases hc : a ≤ c
  · simp only [hc, if_true]
    split_ifs <;> ring
  · have hca : c < a := not_le.mp hc
    have h1 : M a c = 0 := hz a c hca hca
    have h2 : M b c = 0 := hz b c hca (lt_of_lt_of_le hca hab)
    simp only [hc, if_false]
    split_ifs with h3 h4
    · rw [h3, h2, h1]
      ring
    · rw [h4, h1, h2]
    · rfl

/-- The row exchange of `det`, which negates one of the two rows, keeps the determinant. -/
theorem det_swapNegRows (M : transmatrix D K) (a b : Fin (D + 1)) (hab : a ≤ b) (hba : b ≠ a)
    (hz : ∀ i j : Fin (D + 1), j.val < a.val → j < i → M i j = 0) :
    Matrix.det (swapNegRows M b a) = Matrix.det M := by
  rw [swapNegRows_eq M a b hab hz, Matrix.det_updateRow_smul, Matrix.updateRow_eq_self,
    det_swapRows M b a hba]
  ring

/-- The row exchange of `det` keeps the columns before `a` eliminated and the rows before `a`
unchanged. -/
theorem eliminated_swapNegRows (M : transmatrix D K) (a b : Fin (D + 1)) (hab : a ≤ b)
    (hE : Eliminated a.val M) :
    Eliminated a.val (swapNegRows M b a) ∧
    (∀ i : Fin (D + 1), i < a → ∀ c, swapNegRows M b a i c = M i c) := by
  refine ⟨⟨fun i j hj hji => ?_, fun j hj => ?_⟩, fun i hi c => ?_⟩
  · have hja : ¬ a ≤ j := not_le.mpr hj
    simp only [swapNegRows, hja, if_false]
    exact hE.1 i j hj hji
  · have hja : ¬ a ≤ j := not_le.mpr hj
    simp only [swapNegRows, hja, if_false]
    exact hE.2 j hj
  · have h1 : i ≠ b := fun h => absurd (h ▸ hab) (not_le.mpr hi)
    have h2 : i ≠ a := ne_of_lt hi
    simp only [swapNegRows, h1, h2, if_false, ite_self]

/-- On a matrix whose row `a` vanishes before column `a`, the row operation of `det` (columns
`c >= a` only) is the whole row operation. -/
theorem addRowMulFrom_eq (M : transmatrix D K) (a b : Fin (D + 1)) (co : K)
    (hz : ∀ c : Fin (D + 1), c < a → M a c = 0) :
    addRowMulFrom M b a co = addRowMul M b a co := by
  ext i c
  simp only [addRowMulFrom, addRowMul]
  by_cases hi : i = b
  · by_cases hc : a ≤ c
    · simp only [hi, hc, and_self, if_true]
    · simp only [hi, hc, and_false, if_false, if_true, hz c (not_le.mp hc), zero_mul, add_zero]
  · simp only [hi, false_and, if_false]

/-- The elimination of column `a` in `det`: the determinant and the rows up to `a` are kept,
the columns up to `a` are eliminated. -/
theorem det_eliminate_below (M : transmatrix D K) (a : Fin (D + 1)) (hpiv : M a a ≠ 0)
    (hE : Eliminated a.val M) :
    Matrix.det (forRange D (a.val + 1) (D + 1)
      (fun b (S : transmatrix D K) =>
        let co := -S b a / S a a
        addRowMulFrom S b a co) M) = Matrix.det M ∧
    Eliminated (a.val + 1) (forRange D (a.val + 1) (D + 1)
      (fun b (S : transmatrix D K) =>
        let co := -S b a / S a a
        addRowMulFrom S b a co) M) ∧
    (∀ i : Fin (D + 1), i ≤ a → ∀ c, forRange D (a.val + 1) (D + 1)
      (fun b (S : transmatrix D K) =>
        let co := -S b a / S a a
        addRowMulFrom S b a co) M i c = M i c) := by
  have key := forRange_induction
    (fun (k : ℕ) (S : transmatrix D K) =>
      Matrix.det S = Matrix.det M ∧
      (∀ i : Fin (D + 1), i ≤ a → ∀ c, S i c = M i c) ∧
      (∀ i j : Fin (D + 1), j.val < a.val → j < i → S i j = 0) ∧
      (∀ i : Fin (D + 1), a < i → i.val < k → S i a = 0))
    (a.val + 1) (D + 1)
    (fun b (S : transmatrix D K) =>
      let co := -S b a / S a a
      addRowMulFrom S b a co) M
    (by have := a.isLt; omega) (le_refl _)
    ⟨rfl, fun _ _ _ => rfl, hE.1, fun i hai hi => absurd hi (by
      have : a.val < i.val := hai
      omega)⟩
    (fun k hk hlo _ S hS => ?_)
  · obtain ⟨hdet, hrows, hz, hcol⟩ := key
    refine ⟨hdet, ⟨fun i j hj hji => ?_, fun j hj => ?_⟩, hrows⟩
    · by_cases hja : j.val < a.val
      · exact hz i j hja hji
      · have hje : j = a := Fin.ext (by omega)
        rw [hje] at hji ⊢
        exact hcol i hji i.isLt
    · rw [hrows j (Nat.lt_succ_iff.mp hj) j]
      by_cases hja : j.val < a.val
      · exact hE.2 j hja
      · have hje : j = a := Fin.ext (by omega)
        rw [hje]
        exact hpiv
  · obtain ⟨hdet, hrows, hz, hcol⟩ := hS
    have hba : (⟨k, hk⟩ : Fin (D + 1)) ≠ a := fun h => by
      have := congrArg Fin.val h
      simp at this
      omega
    have hab : a < (⟨k, hk⟩ : Fin (D + 1)) := by
      show a.val < k
      omega
    have hpiv' : S a a ≠ 0 := by
      rw [hrows a (le_refl a) a]
      exact hpiv
    have hfull : ∀ co : K, addRowMulFrom S ⟨k, hk⟩ a co = addRowMul S ⟨k, hk⟩ a co :=
      fun co => addRowMulFrom_eq S a ⟨k, hk⟩ co (fun c hc => hz a c hc hc)
    show Matrix.det (addRowMulFrom S ⟨k, hk⟩ a _) = _ ∧
      (∀ i : Fin (D + 1), i ≤ a → ∀ c, addRowMulFrom S ⟨k, hk⟩ a _ i c = M i c) ∧
      (∀ i j : Fin (D + 1), j.val < a.val → j < i → addRowMulFrom S ⟨k, hk⟩ a _ i j = 0) ∧
      (∀ i : Fin (D + 1), a < i → i.val < k + 1 → addRowMulFrom S ⟨k, hk⟩ a _ i a = 0)
    rw [hfull]
    refine ⟨?_, fun i hi c => ?_, fun i j hj hji => ?_, fun i hai hi => ?_⟩
    · rw [det_addRowMul _ _ _ hba, hdet]
    · have hik : i ≠ ⟨k, hk⟩ := fun h => absurd (h ▸ hi) (not_le.mpr hab)
      simp only [addRowMul, hik, if_false]
      exact hrows i hi c
    · simp only [addRowMul]
      split_ifs with h
      · have hja : j < a := hj
        rw [hz ⟨k, hk⟩ j hj (lt_trans hja hab), hz a j hj hja]
        simp
      · exact hz i j hj hji
    · simp only [addRowMul]
      split_ifs with h
      · field_simp
        ring
      · have hne : i.val ≠ k := fun h' => h (Fin.ext h')
        exact hcol i hai (by omega)

/-- One column of the elimination of `det`: either no pivot is found and the matrix is
singular, or the determinant and the rows before `a` are kept, one more column is eliminated
and the running product is multiplied by the pivot. -/
theorem det_column_spec (a : Fin (D + 1)) (S : K × transmatrix D K)
    (hE : Eliminated a.val S.2) :
    match det_column a S with
    | none => Matrix.det S.2 = 0
    | some S' =>
      Matrix.det S'.2 = Matrix.det S.2 ∧ Eliminated (a.val + 1) S'.2 ∧
        (∀ i : Fin (D + 1), i < a → ∀ c, S'.2 i c = S.2 i c) ∧ S'.1 = S.1 * S'.2 a a := by
  cases hp : findPivot S.2 a with
  | none =>
    have h0 : S.2 a a = 0 := findPivot_none S.2 a hp a (le_refl a)
    simp only [det_column, hp, h0, if_true]
    exact det_eq_zero_of_no_pivot S.2 a hE.1 (findPivot_none S.2 a hp)
  | some b =>
    obtain ⟨hab, hne⟩ := findPivot_some S.2 a b hp
    by_cases hba : b = a
    · subst hba
      simp only [det_column, hp, ne_eq, not_true_eq_false, if_false, hne]
      obtain ⟨h1, h2, h3⟩ := det_eliminate_below S.2 b hne hE
      exact ⟨h1, h2, fun i hi c => h3 i (le_of_lt hi) c, trivial⟩
    · have hsw : swapNegRows S.2 b a a a ≠ 0 := by
        simp only [swapNegRows, le_refl, Ne.symm hba, if_false, if_true]
        exact hne
      simp only [det_column, hp, ne_eq, hba, not_false_eq_true, if_true, hsw, if_false]
      obtain ⟨hE', hrows⟩ := eliminated_swapNegRows S.2 a b hab hE
      obtain ⟨h1, h2, h3⟩ := det_eliminate_below (swapNegRows S.2 b a) a hsw hE'
      refine ⟨?_, h2, fun i hi c => ?_, trivial⟩
      · rw [h1, det_swapNegRows S.2 a b hab hba hE.1]
      · rw [h3 i (le_of_lt hi) c, hrows i hi c]

/-- Outside `DIM == 2`, `det` by elimination is the determinant: the early `return 0` is taken
on singular matrices only, and otherwise the product of the pivots is returned. -/
theorem det_eq_det_of_ne_two (hD : D ≠ 2) (T : transmatrix D K) : det T = Matrix.det T := by
  have key := forRange_induction
    (fun (k : ℕ) (s : Option (K × transmatrix D K)) =>
      match s with
      | none => Matrix.det T = 0
      | some S =>
        Matrix.det S.2 = Matrix.det T ∧ Eliminated k S.2 ∧
          S.1 = ∏ j : Fin (D + 1), (if j.val < k then S.2 j j else 1))
    0 (D + 1) (fun a S => S.bind (det_column a)) (some (1, T)) (Nat.zero_le _) (le_refl _)
    ⟨rfl, ⟨fun _ _ h => absurd h (Nat.not_lt_zero _), fun _ h => absurd h (Nat.not_lt_zero _)⟩,
      by simp⟩
    (fun k hk _ _ s hs => ?_)
  · unfold det
    rw [if_neg hD]
    cases hf : forRange D 0 (D + 1) (fun a S => S.bind (det_column a)) (some ((1 : K), T)) with
    | none =>
      rw [hf] at key
      exact key.symm
    | some S =>
      rw [hf] at key
      obtain ⟨hdet, hE, hprod⟩ := key
      have hT : Matrix.BlockTriangular S.2 id := fun i j hij => hE.1 i j j.isLt hij
      show S.1 = Matrix.det T
      rw [← hdet, Matrix.det_of_upperTriangular hT, hprod]
      exact Finset.prod_congr rfl (fun j _ => by simp [j.isLt])
  · cases s with
    | none => exact hs
    | some S =>
      obtain ⟨hdet, hE, hprod⟩ := hs
      have hspec := det_column_spec ⟨k, hk⟩ S hE
      show match det_column ⟨k, hk⟩ S with
        | none => Matrix.det T = 0
        | some S' => Matrix.det S'.2 = Matrix.det T ∧ Eliminated (k + 1) S'.2 ∧
            S'.1 = ∏ j : Fin (D + 1), (if j.val < k + 1 then S'.2 j j else 1)
      cases hc : det_column ⟨k, hk⟩ S with
      | none =>
        rw [hc] at hspec
        exact hdet ▸ hspec
      | some S' =>
        rw [hc] at hspec
        obtain ⟨hd', hE', hrows, hmul⟩ := hspec
        refine ⟨hd'.trans hdet, hE', ?_⟩
        rw [hmul, hprod, ← Finset.mul_prod_erase Finset.univ _ (Finset.mem_univ ⟨k, hk⟩),
          ← Finset.mul_prod_erase Finset.univ
            (fun j : Fin (D + 1) => if j.val < k + 1 then S'.2 j j else 1)
            (Finset.mem_univ ⟨k, hk⟩)]
        have hrest : ∀ j ∈ (Finset.univ : Finset (Fin (D + 1))).erase ⟨k, hk⟩,
            (if j.val < k then S.2 j j else 1) = (if j.val < k + 1 then S'.2 j j else 1) := by
          intro j hj
          have hne : j ≠ ⟨k, hk⟩ := (Finset.mem_erase.mp hj).1
          have hjk : j.val ≠ k := fun h => hne (Fin.ext h)
          by_cases hlt : j.val < k
          · have hlt' : j.val < k + 1 := by omega
            simp only [hlt, hlt', if_true]
            exact (hrows j hlt j).symm
          · have hlt' : ¬ j.val < k + 1 := by omega
            simp only [hlt, hlt', if_false]
        rw [Finset.prod_congr rfl hrest]
        simp only [lt_irrefl, if_false, one_mul, Nat.lt_succ_self, if_true]
        ring

end DetElimination

/-! ## The elimination of `inverse`: the companion matrix and the back-substitution -/

section InverseElimination

variable {D : ℕ} {K : Type} [LinearOrderedField K]

theorem forDown_induction {σ : Type} (P : ℕ → σ → Prop) (n : ℕ) (body : Fin (D + 1) → σ → σ)
    (hn : n ≤ D + 1)
    (hstep : ∀ (k : ℕ) (hk : k < D + 1), k < n → ∀ s', P (k + 1) s' → P k (body ⟨k, hk⟩ s'))
    (s : σ) (h0 : P n s) : P 0 (forDown D n body s) := by
  induction n generalizing s with
  | zero => exact h0
  | succ k ih =>
    have hk : k < D + 1 := by omega
    have e : forDown D (k + 1) body s = forDown D k body (body ⟨k, hk⟩ s) := by
      simp [forDown, hk]
    rw [e]
    exact ih (by omega) (fun k' hk' h1 s' hs' => hstep k' hk' (by omega) s' hs') _
      (hstep k hk (Nat.lt_succ_self k) s h0)

/-- Row operations act on the left: they commute with a product on the right. -/
theorem swapRows_mul (A T : transmatrix D K) (b a : Fin (D + 1)) :
    swapRows A b a * T = swapRows (A * T) b a := by
  ext i c
  simp only [swapRows, Matrix.mul_apply]
  split_ifs <;> rfl

theorem addRowMul_mul (A T : transmatrix D K) (b a : Fin (D + 1)) (co : K) :
    addRowMul A b a co * T = addRowMul (A * T) b a co := by
  ext i c
  simp only [addRowMul, Matrix.mul_apply]
  split_ifs
  · rw [Finset.sum_mul, ← Finset.sum_add_distrib]
    exact Finset.sum_congr rfl (fun k _ => by ring)
  · rfl

theorem scaleRow_mul (A T : transmatrix D K) (a : Fin (D + 1)) (co : K) :
    scaleRow A a co * T = scaleRow (A * T) a co := by
  ext i c
  simp only [scaleRow, Matrix.mul_apply]
  split_ifs
  · rw [Finset.sum_mul]
    exact Finset.sum_congr rfl (fun k _ => by ring)
  · rfl

/-- The row-elimination loops of `inverse` keep the relation `T2 * T = T1`. -/
theorem addRowMul_loop_rel (T : transmatrix D K) (a : Fin (D + 1)) (lo hi : ℕ)
    (S : transmatrix D K × transmatrix D K) (hR : S.2 * T = S.1) :
    (forRange D lo hi
      (fun b (S : transmatrix D K × transmatrix D K) =>
        let co := -S.1 b a / S.1 a a
        (addRowMul S.1 b a co, addRowMul S.2 b a co)) S).2 * T
      = (forRange D lo hi
      (fun b (S : transmatrix D K × transmatrix D K) =>
        let co := -S.1 b a / S.1 a a
        (addRowMul S.1 b a co, addRowMul S.2 b a co)) S).1 :=
  forRange_preserves (fun S : transmatrix D K × transmatrix D K => S.2 * T = S.1) lo hi _ S hR
    (fun b S' hS' => by
      show addRowMul S'.2 b a _ * T = addRowMul S'.1 b a _
      rw [addRowMul_mul, hS'])

/-- One column of the forward elimination keeps the relation `T2 * T = T1`. -/
theorem inverse_column_rel (T : transmatrix D K) (a : Fin (D + 1))
    (S S' : transmatrix D K × transmatrix D K) (h : inverse_column a S = some S')
    (hR : S.2 * T = S.1) : S'.2 * T = S'.1 := by
  cases hp : findPivot S.1 a with
  | none =>
    simp only [inverse_column, hp] at h
    split_ifs at h with h0
    rw [← Option.some.inj h]
    exact addRowMul_loop_rel T a _ _ S hR
  | some b =>
    simp only [inverse_column, hp] at h
    by_cases hba : b = a
    · simp only [hba, ne_eq, not_true_eq_false, if_false] at h
      split_ifs at h with h0
      rw [← Option.some.inj h]
      exact addRowMul_loop_rel T a _ _ S hR
    · simp only [ne_eq, hba, not_false_eq_true, if_true] at h
      split_ifs at h with h0
      rw [← Option.some.inj h]
      refine addRowMul_loop_rel T a _ _ (swapRows S.1 b a, swapRows S.2 b a) ?_
      show swapRows S.2 b a * T = swapRows S.1 b a
      rw [swapRows_mul, hR]

/-- The forward elimination ends with `T2 * T = T1`. -/
theorem inverse_forward_rel (T : transmatrix D K) (S : transmatrix D K × transmatrix D K)
    (h : inverse_forward T = some S) : S.2 * T = S.1 := by
  have key := forRange_preserves
    (fun s : Option (transmatrix D K × transmatrix D K) => ∀ S, s = some S → S.2 * T = S.1)
    0 (D + 1) (fun a S => S.bind (inverse_column a)) (some (T, Id))
    (fun S hS => by
      rw [← Option.some.inj hS]
      show (Id : transmatrix D K) * T = T
      rw [Id_eq_one, one_mul])
    (fun a s hs S' hS' => by
      cases s with
      | none => simp at hS'
      | some S0 => exact inverse_column_rel T a S0 S' hS' (hs S0 rfl))
  exact key S h

/-- One column of the back-substitution: with the columns after `a` already unit columns,
the column `a` becomes a unit column too, and the relation `T2 * T = T1` is kept. -/
theorem inverse_back_column_spec (T : transmatrix D K) (a : Fin (D + 1))
    (S : transmatrix D K × transmatrix D K) (hB : BackSubstituted (a.val + 1) S.1)
    (hR : S.2 * T = S.1) :
    BackSubstituted a.val (inverse_back_column a S).1 ∧
      (inverse_back_column a S).2 * T = (inverse_back_column a S).1 := by
  have loop := forRange_induction
    (fun (m : ℕ) (S' : transmatrix D K × transmatrix D K) =>
      ((∀ i j : Fin (D + 1), j < i → S'.1 i j = 0) ∧
        (∀ j : Fin (D + 1), S'.1 j j ≠ 0) ∧
        (∀ i j : Fin (D + 1), a.val < j.val → S'.1 i j = if i = j then 1 else 0) ∧
        (∀ i : Fin (D + 1), i.val < m → S'.1 i a = 0)) ∧ S'.2 * T = S'.1)
    0 a.val
    (fun b (S : transmatrix D K × transmatrix D K) =>
      let co := -S.1 b a / S.1 a a
      (addRowMul S.1 b a co, addRowMul S.2 b a co)) S (Nat.zero_le _) (by omega)
    ⟨⟨hB.1, hB.2.1, fun i j hj => hB.2.2 i j hj, fun i hi => absurd hi (Nat.not_lt_zero _)⟩, hR⟩
    (fun k hk _ hka S' hS' => by
      obtain ⟨⟨hU, hDg, hC, hZ⟩, hR'⟩ := hS'
      have hba : (⟨k, hk⟩ : Fin (D + 1)) < a := hka
      have hne : (⟨k, hk⟩ : Fin (D + 1)) ≠ a := ne_of_lt hba
      have hrow : ∀ c : Fin (D + 1), c ≠ a → S'.1 a c = 0 := by
        intro c hc
        rcases lt_or_gt_of_ne hc with h | h
        · exact hU a c h
        · rw [hC a c h, if_neg (ne_of_lt h)]
      refine ⟨⟨fun i j hji => ?_, fun j => ?_, fun i j hj => ?_, fun i hi => ?_⟩, ?_⟩
      · show addRowMul S'.1 _ a _ i j = 0
        simp only [addRowMul]
        split_ifs with h
        · subst h
          rw [hU _ j hji, hrow j (ne_of_lt (lt_trans hji hba)), zero_mul, add_zero]
        · exact hU i j hji
      · show addRowMul S'.1 _ a _ j j ≠ 0
        simp only [addRowMul]
        split_ifs with h
        · subst h
          rw [hrow _ hne, zero_mul, add_zero]
          exact hDg _
        · exact hDg j
      · show addRowMul S'.1 _ a _ i j = _
        simp only [addRowMul]
        have hja : j ≠ a := fun e => by rw [e] at hj; exact lt_irrefl _ hj
        split_ifs with h1 h2 h2
        · rw [hrow j hja, zero_mul, add_zero, hC _ j hj, if_pos (h1 ▸ h2)]
        · rw [hrow j hja, zero_mul, add_zero, hC _ j hj, if_neg (fun e => h2 (h1 ▸ e))]
        · rw [hC i j hj, if_pos h2]
        · rw [hC i j hj, if_neg h2]
      · show addRowMul S'.1 _ a _ i a = 0
        simp only [addRowMul]
        split_ifs with h
        · field_simp [hDg a]
          ring
        · refine hZ i ?_
          have : i.val ≠ k := fun e => h (Fin.ext e)
          omega
      · show addRowMul S'.2 _ a _ * T = addRowMul S'.1 _ a _
        rw [addRowMul_mul, hR'])
  have e : inverse_back_column a S =
      (scaleRow (forRange D 0 a.val
        (fun b (S : transmatrix D K × transmatrix D K) =>
          let co := -S.1 b a / S.1 a a
          (addRowMul S.1 b a co, addRowMul S.2 b a co)) S).1 a
        (1 / (forRange D 0 a.val
        (fun b (S : transmatrix D K × transmatrix D K) =>
          let co := -S.1 b a / S.1 a a
          (addRowMul S.1 b a co, addRowMul S.2 b a co)) S).1 a a),
       scaleRow (forRange D 0 a.val
        (fun b (S : transmatrix D K × transmatrix D K) =>
          let co := -S.1 b a / S.1 a a
          (addRowMul S.1 b a co, addRowMul S.2 b a co)) S).2 a
        (1 / (forRange D 0 a.val
        (fun b (S : transmatrix D K × transmatrix D K) =>
          let co := -S.1 b a / S.1 a a
          (addRowMul S.1 b a co, addRowMul S.2 b a co)) S).1 a a)) := rfl
  rw [e]
  obtain ⟨⟨hU, hDg, hC, hZ⟩, hR'⟩ := loop
  generalize forRange D 0 a.val
    (fun b (S : transmatrix D K × transmatrix D K) =>
      let co := -S.1 b a / S.1 a a
      (addRowMul S.1 b a co, addRowMul S.2 b a co)) S = S' at hU hDg hC hZ hR' ⊢
  have hrow : ∀ c : Fin (D + 1), c ≠ a → S'.1 a c = 0 := by
    intro c hc
    rcases lt_or_gt_of_ne hc with h | h
    · exact hU a c h
    · rw [hC a c h, if_neg (ne_of_lt h)]
  have hcol : ∀ i : Fin (D + 1), i ≠ a → S'.1 i a = 0 := by
    intro i hi
    rcases lt_or_gt_of_ne hi with h | h
    · exact hZ i h
    · exact hU i a h
  have hd := hDg a
  refine ⟨⟨fun i j hji => ?_, fun j => ?_, fun i j hj => ?_⟩, ?_⟩
  · show scaleRow S'.1 a _ i j = 0
    simp only [scaleRow]
    split_ifs with h
    · rw [hrow j (fun e => by rw [h, e] at hji; exact lt_irrefl _ hji), zero_mul]
    · exact hU i j hji
  · show scaleRow S'.1 a _ j j ≠ 0
    simp only [scaleRow]
    split_ifs with h
    · rw [h]
      exact mul_ne_zero hd (one_div_ne_zero hd)
    · exact hDg j
  · show scaleRow S'.1 a _ i j = _
    simp only [scaleRow]
    rcases Nat.eq_or_lt_of_le hj with e | hlt
    · have hja : j = a := (Fin.ext e).symm
      subst hja
      split_ifs with h
      · field_simp
      · exact hcol i h
    · have hja : j ≠ a := fun e => by rw [e] at hlt; exact lt_irrefl _ hlt
      split_ifs with h1 h2 h2
      · exact absurd (h2.symm.trans h1) hja
      · rw [hrow j hja, zero_mul]
      · rw [hC i j hlt, if_pos h2]
      · rw [hC i j hlt, if_neg h2]
  · show scaleRow S'.2 a _ * T = scaleRow S'.1 a _
    rw [scaleRow_mul, hR']

/-- For a non-singular matrix and `DIM` other than 2, `inverse` is a left inverse. -/
theorem inverse_mul_of_ne_two (hD : D ≠ 2) (T : transmatrix D K) (hT : Matrix.det T ≠ 0) :
    inverse T * T = 1 := by
  have hspec := inverse_forward_spec T
  cases hf : inverse_forward T with
  | none => exact absurd ((inverse_forward_eq_none_iff T).mp hf) hT
  | some S =>
    rw [hf] at hspec
    have hE := hspec.2
    have hR := inverse_forward_rel T S hf
    have e : inverse T = (forDown D (D + 1) inverse_back_column S).2 := by
      simp only [inverse, hD, if_false, hf]
    rw [e]
    have key := forDown_induction
      (fun (k : ℕ) (S' : transmatrix D K × transmatrix D K) =>
        BackSubstituted k S'.1 ∧ S'.2 * T = S'.1)
      (D + 1) inverse_back_column (le_refl _)
      (fun k hk _ S' hS' => inverse_back_column_spec T ⟨k, hk⟩ S' hS'.1 hS'.2)
      S ⟨⟨fun i j hji => hE.1 i j j.isLt hji, fun j => hE.2 j j.isLt,
          fun i j hj => absurd j.isLt (by omega)⟩, hR⟩
    obtain ⟨hB, hR'⟩ := key
    rw [hR']
    ext i j
    rw [hB.2.2 i j (Nat.zero_le _), Matrix.one_apply]

/-- For a non-singular matrix and `DIM` other than 2, `inverse` is a two-sided inverse. -/
theorem inverse_two_sided_of_ne_two (hD : D ≠ 2) (T : transmatrix D K)
    (hT : Matrix.det T ≠ 0) :
    mulMatrix (inverse T) T = Id ∧ mulMatrix T (inverse T) = Id := by
  have h := inverse_mul_of_ne_two hD T hT
  rw [mulMatrix_eq_mul, mulMatrix_eq_mul, Id_eq_one]
  exact ⟨h, (Matrix.mul_eq_one_comm).mp h⟩

end InverseElimination

/-! ## Real math library facts and the `DIM == 2` forms of the builders -/

section RealForms

variable {D : ℕ}

theorem cmath_acosh (x : ℝ) : CMath.acosh x = Real.log (x + Real.sqrt (x ^ 2 - 1)) := rfl

/-- The library `acosh` inverts `cosh` on the non-negative reals. -/
theorem acosh_cosh (x : ℝ) (hx : 0 ≤ x) : CMath.acosh (Real.cosh x) = x := by
  rw [cmath_acosh]
  have h1 : Real.cosh x ^ 2 - 1 = Real.sinh x ^ 2 := by
    have := Real.cosh_sq x
    linarith
  rw [h1, Real.sqrt_sq (Real.sinh_nonneg_iff.mpr hx), Real.cosh_add_sinh, Real.log_exp]

/-- For `y >= 1`, `cosh(acosh(y)) = y` and `sinh(acosh(y)) = sqrt(y^2 - 1)`. -/
theorem cosh_sinh_acosh (y : ℝ) (hy : 1 ≤ y) :
    Real.cosh (CMath.acosh y) = y ∧ Real.sinh (CMath.acosh y) = Real.sqrt (y ^ 2 - 1) := by
  rw [cmath_acosh]
  have hs : 0 ≤ y ^ 2 - 1 := by nlinarith
  have hsq : Real.sqrt (y ^ 2 - 1) * Real.sqrt (y ^ 2 - 1) = y ^ 2 - 1 := Real.mul_self_sqrt hs
  have hs0 : 0 ≤ Real.sqrt (y ^ 2 - 1) := Real.sqrt_nonneg _
  have hw : 0 < y + Real.sqrt (y ^ 2 - 1) := by linarith
  have hinv : (y + Real.sqrt (y ^ 2 - 1))⁻¹ = y - Real.sqrt (y ^ 2 - 1) := by
    rw [inv_eq_iff_eq_inv, eq_comm, inv_eq_iff_eq_inv, eq_comm]
    field_simp
    nlinarith
  constructor
  · rw [Real.cosh_eq, Real.exp_neg, Real.exp_log hw, hinv]
    ring
  · rw [Real.sinh_eq, Real.exp_neg, Real.exp_log hw, hinv]
    ring

theorem hypot_comm (x y : ℝ) : (CMath.hypot x y : ℝ) = CMath.hypot y x := by
  simp only [cmath_hypot, add_comm]

/-- The entries of `spintox(H)` with `DIM = 2`, outside the degeneracy guard. -/
theorem spintox_dim2 (H : hyperpoint 2 ℝ) (hR : (CMath.hypot (H 0) (H 1) : ℝ) ≥ 1e-12) :
    spintox H = !![H 0 / CMath.hypot (H 0) (H 1), H 1 / CMath.hypot (H 0) (H 1), 0;
      -H 1 / CMath.hypot (H 0) (H 1), H 0 / CMath.hypot (H 0) (H 1), 0; 0, 0, 1] := by
  have hR' : (CMath.hypot (H 1) (H 0) : ℝ) ≥ 1e-12 := by rw [hypot_comm]; exact hR
  have e : spintox H = setEntry (setEntry (setEntry (setEntry (Id : transmatrix 2 ℝ) 0 0
      (H 0 / CMath.hypot (H 1) (H 0))) 0 1 (H 1 / CMath.hypot (H 1) (H 0))) 1 0
      (-H 1 / CMath.hypot (H 1) (H 0))) 1 1 (H 0 / CMath.hypot (H 1) (H 0)) := by
    unfold spintox spintoc
    rw [if_pos rfl]
    exact if_pos hR'
  rw [e, hypot_comm (H 1) (H 0)]
  generalize (CMath.hypot (H 0) (H 1) : ℝ) = R
  ext i j
  fin_cases i <;> fin_cases j <;> simp [setEntry, Id_apply]

/-- The entries of `rspintox(H)` with `DIM = 2`, outside the degeneracy guard. -/
theorem rspintox_dim2 (H : hyperpoint 2 ℝ) (hR : (CMath.hypot (H 0) (H 1) : ℝ) ≥ 1e-12) :
    rspintox H = !![H 0 / CMath.hypot (H 0) (H 1), -H 1 / CMath.hypot (H 0) (H 1), 0;
      H 1 / CMath.hypot (H 0) (H 1), H 0 / CMath.hypot (H 0) (H 1), 0; 0, 0, 1] := by
  have hR' : (CMath.hypot (H 1) (H 0) : ℝ) ≥ 1e-12 := by rw [hypot_comm]; exact hR
  have e : rspintox H = setEntry (setEntry (setEntry (setEntry (Id : transmatrix 2 ℝ) 0 0
      (H 0 / CMath.hypot (H 1) (H 0))) 0 1 (-H 1 / CMath.hypot (H 1) (H 0))) 1 0
      (H 1 / CMath.hypot (H 1) (H 0))) 1 1 (H 0 / CMath.hypot (H 1) (H 0)) := by
    unfold rspintox rspintoc
    rw [if_pos rfl]
    exact if_pos hR'
  rw [e, hypot_comm (H 1) (H 0)]
  generalize (CMath.hypot (H 0) (H 1) : ℝ) = R
  ext i j
  fin_cases i <;> fin_cases j <;> simp [setEntry, Id_apply]

/-- Inside the degeneracy guard `spintox(H)` and `rspintox(H)` are `Id` (`DIM == 2`). -/
theorem spintox_dim2_guard (H : hyperpoint 2 ℝ) (hR : (CMath.hypot (H 0) (H 1) : ℝ) < 1e-12) :
    spintox H = Id ∧ rspintox H = Id := by
  have hR' : ¬ (CMath.hypot (H 1) (H 0) : ℝ) ≥ 1e-12 := by
    rw [hypot_comm]
    exact not_le.mpr hR
  constructor
  · unfold spintox spintoc
    rw [if_pos rfl]
    exact if_neg hR'
  · unfold rspintox rspintoc
    rw [if_pos rfl]
    exact if_neg hR'

theorem hypot_mul_self (x y : ℝ) :
    (CMath.hypot x y : ℝ) * CMath.hypot x y = x ^ 2 + y ^ 2 := by
  simp only [cmath_hypot]
  exact Real.mul_self_sqrt (by positivity)

theorem hypot_nonneg (x y : ℝ) : 0 ≤ (CMath.hypot x y : ℝ) := by
  simp only [cmath_hypot]
  exact Real.sqrt_nonneg _

/-- The entries of `cpush(c, alpha)` for an axis `c < DIM`. -/
theorem cpush_apply (g : Geometry) (c : Fin (D + 1)) (hc : c.val < D) (alpha : ℝ)
    (i j : Fin (D + 1)) :
    cpush g c alpha i j
      = if i = c then (if j = c then cos_auto g alpha
          else if j = Fin.last D then sin_auto g alpha else 0)
        else if i = Fin.last D then (if j = c then -(curvature g : ℝ) * sin_auto g alpha
          else if j = Fin.last D then cos_auto g alpha else 0)
        else if i = j then 1 else 0 := by
  have hcl : c ≠ Fin.last D := by
    intro h
    rw [h] at hc
    simp at hc
  have hlc : Fin.last D ≠ c := Ne.symm hcl
  simp only [cpush, setEntry, Id_apply]
  by_cases hia : i = c <;> by_cases hib : i = Fin.last D <;> by_cases hja : j = c <;>
    by_cases hjb : j = Fin.last D <;> simp_all <;> intro h <;> simp_all

/-- The product of two matrices acting in the same coordinate plane `(a, b)`. -/
theorem plane_mul (a b : Fin (D + 1)) (hab : a ≠ b) (P Q : transmatrix D ℝ)
    (p q r t p' q' r' t' : ℝ)
    (hP : ∀ i j, P i j = if i = a then (if j = a then p else if j = b then q else 0)
        else if i = b then (if j = a then r else if j = b then t else 0)
        else if i = j then 1 else 0)
    (hQ : ∀ i j, Q i j = if i = a then (if j = a then p' else if j = b then q' else 0)
        else if i = b then (if j = a then r' else if j = b then t' else 0)
        else if i = j then 1 else 0)
    (i j : Fin (D + 1)) :
    mulMatrix P Q i j
      = if i = a then (if j = a then p * p' + q * r' else if j = b then p * q' + q * t' else 0)
        else if i = b then
          (if j = a then r * p' + t * r' else if j = b then r * q' + t * t' else 0)
        else if i = j then 1 else 0 := by
  have hba : b ≠ a := Ne.symm hab
  have hrow : ∀ (x y : ℝ) (X : Fin (D + 1) → ℝ),
      ∑ k : Fin (D + 1), (if k = a then x else if k = b then y else 0) * X k
        = x * X a + y * X b := by
    intro x y X
    have e : ∀ k : Fin (D + 1), (if k = a then x else if k = b then y else 0) * X k
        = (if k = a then x * X k else 0) + (if k = b then y * X k else 0) := by
      intro k
      by_cases h1 : k = a
      · have h2 : ¬ k = b := fun h => hab (h1.symm.trans h)
        simp [h1, hab]
      · by_cases h2 : k = b <;> simp [h1, h2, hba]
    simp only [e, Finset.sum_add_distrib, Finset.sum_ite_eq', Finset.mem_univ, if_true]
  unfold mulMatrix
  by_cases hia : i = a
  · simp only [hP, hia, if_true, hrow, hQ, hba, if_false]
    by_cases hja : j = a
    · simp [hja, hab]
    · by_cases hjb : j = b <;> simp [hja, hjb, hba]
  · by_cases hib : i = b
    · simp only [hP, hib, hba, if_false, if_true, hrow, hQ]
      by_cases hja : j = a
      · simp [hja, hab]
      · by_cases hjb : j = b <;> simp [hja, hjb, hba]
    · simp only [hP, hia, hib, if_false, ite_mul, one_mul, zero_mul, Finset.sum_ite_eq,
        Finset.mem_univ, if_true, hQ]

/-- The addition formulas of the curvature-parametrized trigonometry. -/
theorem cos_sin_auto_add (g : Geometry) (a b : ℝ) :
    cos_auto g (a + b)
      = cos_auto g a * cos_auto g b - (curvature g : ℝ) * (sin_auto g a * sin_auto g b) ∧
    sin_auto g (a + b) = sin_auto g a * cos_auto g b + cos_auto g a * sin_auto g b := by
  rcases g with ⟨c, e⟩
  cases c
  · simp only [cos_auto, sin_auto, curvature, cmath_cosh, cmath_sinh, Real.cosh_add,
      Real.sinh_add]
    push_cast
    constructor <;> ring_nf
  · simp only [cos_auto, sin_auto, curvature]
    push_cast
    constructor <;> ring_nf
  · simp only [cos_auto, sin_auto, curvature, cmath_cos, cmath_sin, Real.cos_add, Real.sin_add]
    push_cast
    constructor <;> ring_nf

theorem cos_sin_auto_zero (g : Geometry) :
    cos_auto g (0 : ℝ) = 1 ∧ sin_auto g (0 : ℝ) = 0 := by
  rcases g with ⟨c, e⟩
  cases c <;> simp [cos_auto, sin_auto]

theorem sqhypot_d_two (H : hyperpoint 2 ℝ) : sqhypot_d H 2 = H 0 ^ 2 + H 1 ^ 2 := by
  rw [sqhypot_d_DIM, Fin.sum_univ_two]
  simp only [Fin.castSucc_zero, Fin.castSucc_one]
  ring

theorem hypot_eq_sqrt_sqhypot (H : hyperpoint 2 ℝ) :
    (CMath.hypot (H 0) (H 1) : ℝ) = Real.sqrt (sqhypot_d H 2) := by
  rw [sqhypot_d_two, cmath_hypot]

/-- Outside the guard of `ggpushxto0` the guard of `spintoc` is not taken either. -/
theorem hypot_ge_of_sqhypot_ge (H : hyperpoint 2 ℝ) (hs : (1e-12 : ℝ) ≤ H 0 ^ 2 + H 1 ^ 2) :
    (CMath.hypot (H 0) (H 1) : ℝ) ≥ 1e-12 := by
  rw [cmath_hypot, ge_iff_le, Real.le_sqrt' (by norm_num)]
  refine le_trans ?_ hs
  norm_num

theorem cos_sin_auto_neg (g : Geometry) (x : ℝ) :
    cos_auto g (-x) = cos_auto g x ∧ sin_auto g (-x) = -sin_auto g x := by
  rcases g with ⟨c, e⟩
  cases c <;> simp [cos_auto, sin_auto]

/-- The entries of `xpush(x)` with `DIM = 2`. -/
theorem xpush_dim2 (g : Geometry) (x : ℝ) :
    (xpush g x : transmatrix 2 ℝ)
      = !![cos_auto g x, 0, sin_auto g x; 0, 1, 0;
          -(curvature g : ℝ) * sin_auto g x, 0, cos_auto g x] := by
  ext i j
  rw [xpush, cpush_apply g 0 (by decide) x]
  fin_cases i <;> fin_cases j <;> simp [Fin.ext_iff]

/-- The entries of `ggpushxto0(H, co)` with `DIM = 2`, in a curved geometry, outside the
near-zero guard. -/
theorem ggpushxto0_dim2 (g : Geometry) (hg : euclid g = false) (H : hyperpoint 2 ℝ) (co : ℝ)
    (hs : (1e-12 : ℝ) ≤ H 0 ^ 2 + H 1 ^ 2) :
    ggpushxto0 g H co
      = !![1 + H 0 * H 0 * ((H 2 - 1) / (H 0 ^ 2 + H 1 ^ 2)),
            H 0 * H 1 * ((H 2 - 1) / (H 0 ^ 2 + H 1 ^ 2)), co * H 0;
          H 1 * H 0 * ((H 2 - 1) / (H 0 ^ 2 + H 1 ^ 2)),
            1 + H 1 * H 1 * ((H 2 - 1) / (H 0 ^ 2 + H 1 ^ 2)), co * H 1;
          -(curvature g : ℝ) * co * H 0, -(curvature g : ℝ) * co * H 1, H 2] := by
  have hs' : (1e-12 : ℝ) ≤ sqhypot_d H 2 := by rw [sqhypot_d_two]; exact hs
  obtain ⟨h1, h2, h3, h4⟩ := ggpushxto0_curved g H co hg hs'
  rw [sqhypot_d_two] at h1
  have e00 := h1 0 0
  have e01 := h1 0 1
  have e10 := h1 1 0
  have e11 := h1 1 1
  have e02 := h2 0
  have e12 := h2 1
  have e20 := h3 0
  have e21 := h3 1
  simp only [Fin.castSucc_zero, Fin.castSucc_one, if_true] at e00 e01 e10 e11 e02 e12 e20 e21
  have l2 : Fin.last 2 = (2 : Fin 3) := rfl
  rw [l2] at e00 e01 e10 e11 e02 e12 e20 e21 h4
  have z01 : ¬ (0 : Fin 2) = 1 := by decide
  have z10 : ¬ (1 : Fin 2) = 0 := by decide
  simp only [z01, z10, if_false, zero_add] at e01 e10
  ext i j
  fin_cases i <;> fin_cases j <;> simp [e00, e01, e10, e11, e02, e12, e20, e21, h4]

/-- On the manifold of a curved geometry (quotient mode off on the sphere), the distance
`d = hdist0(H)` has `cos_auto(d) = H[DIM]` and `sin_auto(d) = hypot(H[0], H[1])`. -/
theorem cos_sin_auto_hdist0 (g : Geometry)
    (hg : g.cgclass = eGeometryClass.gcHyperbolic ∨
      (g.cgclass = eGeometryClass.gcSphere ∧ g.elliptic = false))
    (H : hyperpoint 2 ℝ) (hH : OnManifold g H) :
    cos_auto g (hdist0 g H) = H 2 ∧ sin_auto g (hdist0 g H) = CMath.hypot (H 0) (H 1) := by
  have l2 : Fin.last 2 = (2 : Fin 3) := rfl
  rcases hg with hg | ⟨hg, he⟩
  · simp only [OnManifold, hg, sum_filter_lt, Fin.sum_univ_two, Fin.castSucc_zero,
      Fin.castSucc_one, l2] at hH
    obtain ⟨hq, hpos⟩ := hH
    have h1 : 1 ≤ H 2 := by nlinarith
    have hlt : ¬ H 2 < 1 := not_lt.mpr h1
    obtain ⟨hc, hsn⟩ := cosh_sinh_acosh (H 2) h1
    simp only [cos_auto, sin_auto, hdist0, hg, l2, hlt, if_false, cmath_cosh, cmath_sinh,
      cmath_hypot]
    refine ⟨hc, ?_⟩
    rw [hsn]
    congr 1
    linarith
  · simp only [OnManifold, hg] at hH
    rw [Fin.sum_univ_castSucc, Fin.sum_univ_two] at hH
    simp only [Fin.castSucc_zero, Fin.castSucc_one, l2] at hH
    have hle : H 2 ≤ 1 := by nlinarith [sq_nonneg (H 0), sq_nonneg (H 1)]
    have hge : -1 ≤ H 2 := by nlinarith [sq_nonneg (H 0), sq_nonneg (H 1)]
    have hres : hdist0 g H = Real.arccos (H 2) := by
      simp only [hdist0, hg, he, l2, Bool.false_and, Bool.false_eq_true, if_false, cmath_pi,
        cmath_acos, ge_iff_le]
      split_ifs with h1 h2
      · exact (Real.arccos_eq_zero.mpr h1).symm
      · exact (Real.arccos_of_le_neg_one h2).symm
      · rfl
    simp only [cos_auto, sin_auto, hg, hres, cmath_cos, cmath_sin, cmath_hypot]
    refine ⟨Real.cos_arccos hge hle, ?_⟩
    rw [Real.sin_arccos]
    congr 1
    linarith

/-- The product `rspintox * xpush * spintox` written out, with `R = hypot(a, b)`, `L` the
cosine and `S` the sine of the push. -/
theorem rotate_push_rotate (a b L R S κ : ℝ) (hR : R ≠ 0) :
    mulMatrix (mulMatrix (!![a / R, -b / R, 0; b / R, a / R, 0; 0, 0, 1] : transmatrix 2 ℝ)
        !![L, 0, S; 0, 1, 0; -κ * S, 0, L])
      !![a / R, b / R, 0; -b / R, a / R, 0; 0, 0, 1]
      = !![(a * a * L + b * b) / (R * R), (a * b * L - a * b) / (R * R), a * S / R;
          (a * b * L - a * b) / (R * R), (b * b * L + a * a) / (R * R), b * S / R;
          -κ * S * a / R, -κ * S * b / R, L] := by
  ext i j
  fin_cases i <;> fin_cases j <;>
    simp [mulMatrix, Fin.sum_univ_three, Matrix.vecHead, Matrix.vecTail] <;> field_simp <;> ring

/-- The closed form `ggpushxto0(H, co)` is the rotate-push-rotate product whose push has
cosine `H[2]` and sine `co * hypot(H[0], H[1])`. -/
theorem ggpushxto0_eq_product (g : Geometry) (hg : euclid g = false) (H : hyperpoint 2 ℝ)
    (co : ℝ) (hs : (1e-12 : ℝ) ≤ H 0 ^ 2 + H 1 ^ 2) :
    ggpushxto0 g H co
      = mulMatrix (mulMatrix (rspintox H)
          (!![H 2, 0, co * CMath.hypot (H 0) (H 1); 0, 1, 0;
            -(curvature g : ℝ) * (co * CMath.hypot (H 0) (H 1)), 0, H 2] : transmatrix 2 ℝ))
          (spintox H) := by
  have hR := hypot_ge_of_sqhypot_ge H hs
  have hpos : (0 : ℝ) < CMath.hypot (H 0) (H 1) := lt_of_lt_of_le (by norm_num) hR
  have hR2 := hypot_mul_self (H 0) (H 1)
  rw [rspintox_dim2 H hR, spintox_dim2 H hR, rotate_push_rotate _ _ _ _ _ _ hpos.ne',
    ggpushxto0_dim2 g hg H co hs, hR2]
  generalize (CMath.hypot (H 0) (H 1) : ℝ) = R at *
  have hne : H 0 ^ 2 + H 1 ^ 2 ≠ 0 := by
    rw [← hR2]
    exact mul_ne_zero hpos.ne' hpos.ne'
  ext i j
  fin_cases i <;> fin_cases j <;>
    simp [Matrix.vecHead, Matrix.vecTail] <;> field_simp <;> ring

end RealForms

/-! ## C1: the closed-form inverse (`DIM == 2`) -/

section InverseDim2

variable {K : Type} [LinearOrderedField K]

/-- The `DIM == 2` determinant written out: the six products of the cofactor expansion. -/
theorem det_dim2_expand (T : transmatrix 2 K) :
    det T = T 0 0 * T 1 1 * T 2 2 + T 0 1 * T 1 2 * T 2 0 + T 0 2 * T 1 0 * T 2 1
      - (T 0 0 * T 1 2 * T 2 1 + T 0 1 * T 1 0 * T 2 2 + T 0 2 * T 1 1 * T 2 0) := by
  simp [det, Fin.sum_univ_three]

/-- The `DIM == 2` determinant is the mathematical determinant. -/
theorem det_dim2_eq_det (T : transmatrix 2 K) : det T = Matrix.det T := by
  rw [det_dim2_expand, Matrix.det_fin_three]
  ring

/-- The entries of the `DIM == 2` inverse of a non-singular matrix. -/
theorem inverse_dim2_apply (T : transmatrix 2 K) (h : det T ≠ 0) (j i : Fin 3) :
    inverse T j i =
      (T (i + 1) (j + 1) * T (i + 2) (j + 2) - T (i + 1) (j + 2) * T (i + 2) (j + 1)) / det T := by
  simp [inverse, h]

/-- Left inverse, `DIM == 2`. -/
theorem inverse_mul_dim2 (T : transmatrix 2 K) (h : det T ≠ 0) :
    mulMatrix (inverse T) T = Id := by
  have hd := det_dim2_expand T
  have e1 : (1 : Fin 3) + 1 = 2 := rfl
  have e2 : (1 : Fin 3) + 2 = 0 := rfl
  have e3 : (2 : Fin 3) + 1 = 0 := rfl
  have e4 : (2 : Fin 3) + 2 = 1 := rfl
  ext i j
  fin_cases i <;> fin_cases j <;>
  simp [mulMatrix, inverse_dim2_apply T h, Id, Fin.sum_univ_three, e1, e2, e3, e4] <;>
  field_simp <;>
  first
    | ring1
    | (rw [hd]; ring1)

/-- Right inverse, `DIM == 2`. -/
theorem mul_inverse_dim2 (T : transmatrix 2 K) (h : det T ≠ 0) :
    mulMatrix T (inverse T) = Id := by
  have hd := det_dim2_expand T
  have e1 : (1 : Fin 3) + 1 = 2 := rfl
  have e2 : (1 : Fin 3) + 2 = 0 := rfl
  have e3 : (2 : Fin 3) + 1 = 0 := rfl
  have e4 : (2 : Fin 3) + 2 = 1 := rfl
  ext i j
  fin_cases i <;> fin_cases j <;>
  simp [mulMatrix, inverse_dim2_apply T h, Id, Fin.sum_univ_three, e1, e2, e3, e4] <;>
  field_simp <;>
  first
    | ring1
    | (rw [hd]; ring1)

/-- C1: with `DIM = 2`, for every matrix `T` whose determinant (as computed by `det`) is not
zero, `inverse(T) * T = Id` and `T * inverse(T) = Id`. Holds over every linearly ordered field,
in particular in exact real arithmetic. -/
theorem inverse_mul_cancel_dim2 (T : transmatrix 2 K) (h : det T ≠ 0) :
    mulMatrix (inverse T) T = Id ∧ mulMatrix T (inverse T) = Id :=
  ⟨inverse_mul_dim2 T h, mul_inverse_dim2 T h⟩

/-- C1 at a concrete non-singular real matrix. -/
theorem inverse_mul_cancel_dim2_witness :
    det (!![2, 1, 0; 0, 1, 0; 3, 0, 1] : transmatrix 2 ℝ) ≠ 0 ∧
    mulMatrix (inverse (!![2, 1, 0; 0, 1, 0; 3, 0, 1] : transmatrix 2 ℝ))
      !![2, 1, 0; 0, 1, 0; 3, 0, 1] = Id ∧
    mulMatrix (!![2, 1, 0; 0, 1, 0; 3, 0, 1] : transmatrix 2 ℝ)
      (inverse !![2, 1, 0; 0, 1, 0; 3, 0, 1]) = Id :=
  have h : det (!![2, 1, 0; 0, 1, 0; 3, 0, 1] : transmatrix 2 ℝ) ≠ 0 := by
    rw [det_dim2_expand]
    norm_num
  ⟨h, inverse_mul_cancel_dim2 _ h⟩

end InverseDim2

/-! ## C2: push / origin round trip -/

section PushRoundTrip

variable {D : ℕ} {K : Type} [LinearOrderedField K]

theorem ggpushxto0_guard (g : Geometry) (H : hyperpoint D K) (co : K) (hg : euclid g = false)
    (hs : sqhypot_d H D < (1e-12 : K)) : ggpushxto0 g H co = Id := by
  simp [ggpushxto0, hg, hs]

theorem mulPoint_Id (H : hyperpoint D K) : mulPoint (Id : transmatrix D K) H = H := by
  funext i
  simp [mulPoint, Id_apply]

theorem sqhypot_d_C0 : sqhypot_d (C0 : hyperpoint D K) D = 0 := by
  rw [sqhypot_d_DIM]
  simp [C0, (Fin.castSucc_lt_last _).ne]

theorem push_roundtrip_flat (g : Geometry) (H : hyperpoint D K) (hg : euclid g = true)
    (hH : H (Fin.last D) = 1) :
    mulPoint (gpushxto0 g H) H = C0 ∧ mulPoint (rgpushxto0 g H) C0 = H := by
  obtain ⟨h1, h2, h3⟩ := ggpushxto0_flat g H (-1) hg
  obtain ⟨k1, k2, k3⟩ := ggpushxto0_flat g H 1 hg
  constructor
  · funext i
    rw [mulPoint_apply]
    unfold gpushxto0
    refine Fin.lastCases ?_ (fun i' => ?_) i
    · simp [h1, h3, hH, C0, (Fin.castSucc_lt_last _).ne']
    · simp [h1, h2, hH, C0, (Fin.castSucc_lt_last _).ne]
  · funext i
    rw [mulPoint_apply]
    unfold rgpushxto0
    refine Fin.lastCases ?_ (fun i' => ?_) i
    · simp [k3, hH, C0, (Fin.castSucc_lt_last _).ne]
    · simp [k2, C0, (Fin.castSucc_lt_last _).ne]

theorem push_roundtrip_curved (g : Geometry) (H : hyperpoint D K) (hg : euclid g = false)
    (hH : OnManifold g H) (hs : (1e-12 : K) ≤ sqhypot_d H D) :
    mulPoint (gpushxto0 g H) H = C0 ∧ mulPoint (rgpushxto0 g H) C0 = H := by
  obtain ⟨h1, h2, h3, h4⟩ := ggpushxto0_curved g H (-1) hg hs
  obtain ⟨k1, k2, k3, k4⟩ := ggpushxto0_curved g H 1 hg hs
  have hM := onManifold_curved g H hg hH
  have hpos : (0 : K) < sqhypot_d H D := lt_of_lt_of_le (by norm_num) hs
  have hne : sqhypot_d H D ≠ 0 := hpos.ne'
  have hsum : ∑ j : Fin D, H j.castSucc * H j.castSucc = sqhypot_d H D := (sqhypot_d_DIM H).symm
  constructor
  · funext i
    rw [mulPoint_apply]
    unfold gpushxto0
    refine Fin.lastCases ?_ (fun i' => ?_) i
    · simp only [h3, h4]
      have : ∑ j : Fin D, -(curvature g : K) * -1 * H j.castSucc * H j.castSucc
          = (curvature g : K) * sqhypot_d H D := by
        rw [← hsum, Finset.mul_sum]
        exact Finset.sum_congr rfl (fun j _ => by ring)
      rw [this, hM]
      simp [C0]
      ring
    · simp only [h1, h2]
      have : ∑ j : Fin D, ((if i' = j then (1 : K) else 0) + H i'.castSucc * H j.castSucc
            * ((H (Fin.last D) - 1) / sqhypot_d H D)) * H j.castSucc
          = H i'.castSucc + H i'.castSucc * ((H (Fin.last D) - 1) / sqhypot_d H D)
              * sqhypot_d H D := by
        rw [← hsum, Finset.mul_sum]
        simp only [add_mul, Finset.sum_add_distrib, ite_mul, one_mul, zero_mul,
          Finset.sum_ite_eq, Finset.mem_univ, if_true]
        congr 1
        exact Finset.sum_congr rfl (fun j _ => by ring)
      rw [this]
      simp [C0, (Fin.castSucc_lt_last _).ne]
      field_simp
      ring
  · funext i
    rw [mulPoint_apply]
    unfold rgpushxto0
    refine Fin.lastCases ?_ (fun i' => ?_) i
    · simp [k4, C0, (Fin.castSucc_lt_last _).ne]
    · simp [k2, C0, (Fin.castSucc_lt_last _).ne]

/-- C2 (as amended): for every point `H` on the active manifold, in flat geometry, and in
hyperbolic or spherical geometry when `H[0]^2 + ... + H[DIM-1]^2 >= 1e-12` (the near-zero guard
of `ggpushxto0` is not taken) or `H` is the origin itself, `gpushxto0(H) * H = C0` and
`rgpushxto0(H) * C0 = H`. -/
theorem push_origin_roundtrip (g : Geometry) (H : hyperpoint D K) (hH : OnManifold g H)
    (hguard : euclid g = true ∨ (1e-12 : K) ≤ sqhypot_d H D ∨ H = C0) :
    mulPoint (gpushxto0 g H) H = C0 ∧ mulPoint (rgpushxto0 g H) C0 = H := by
  by_cases hg : euclid g = true
  · refine push_roundtrip_flat g H hg ?_
    rcases g with ⟨c, e⟩
    cases c <;> simp [euclid] at hg
    exact hH
  · have hg' : euclid g = false := by simpa using hg
    rcases hguard with h | h | h
    · exact absurd h hg
    · exact push_roundtrip_curved g H hg' hH h
    · subst h
      have h0 : sqhypot_d (C0 : hyperpoint D K) D < (1e-12 : K) := by
        rw [sqhypot_d_C0]
        norm_num
      simp [gpushxto0, rgpushxto0, ggpushxto0_guard g _ _ hg' h0, mulPoint_Id]

/-- C2 at a concrete hyperbolic point outside the guard. -/
theorem push_origin_roundtrip_witness :
    OnManifold hyperbolicGeometry (![3/4, 0, 5/4] : hyperpoint 2 ℝ) ∧
    (1e-12 : ℝ) ≤ sqhypot_d (![3/4, 0, 5/4] : hyperpoint 2 ℝ) 2 ∧
    mulPoint (gpushxto0 hyperbolicGeometry (![3/4, 0, 5/4] : hyperpoint 2 ℝ)) ![3/4, 0, 5/4] = C0 ∧
    mulPoint (rgpushxto0 hyperbolicGeometry (![3/4, 0, 5/4] : hyperpoint 2 ℝ)) C0
      = ![3/4, 0, 5/4] :=
  have hH : OnManifold hyperbolicGeometry (![3/4, 0, 5/4] : hyperpoint 2 ℝ) := by
    simp only [OnManifold, hyperbolicGeometry, sum_filter_lt, Fin.sum_univ_two, last_dim2]
    norm_num
  have hs : (1e-12 : ℝ) ≤ sqhypot_d (![3/4, 0, 5/4] : hyperpoint 2 ℝ) 2 := by
    rw [sqhypot_d_dim2]
    norm_num
  ⟨hH, hs, push_origin_roundtrip _ _ hH (Or.inr (Or.inl hs))⟩

/-- C2 fails as stated: a hyperbolic point within the near-zero guard is left where it is. -/
theorem push_origin_roundtrip_counterexample :
    OnManifold hyperbolicGeometry
      (![20000000/99999999999999, 0, 100000000000001/99999999999999] : hyperpoint 2 ℝ) ∧
    mulPoint (gpushxto0 hyperbolicGeometry
      (![20000000/99999999999999, 0, 100000000000001/99999999999999] : hyperpoint 2 ℝ))
      ![20000000/99999999999999, 0, 100000000000001/99999999999999] ≠ C0 := by
  constructor
  · simp only [OnManifold, hyperbolicGeometry, sum_filter_lt, Fin.sum_univ_two, last_dim2]
    norm_num
  · have hs : sqhypot_d (![20000000/99999999999999, 0, 100000000000001/99999999999999] :
        hyperpoint 2 ℝ) 2 < (1e-12 : ℝ) := by
      rw [sqhypot_d_dim2]
      norm_num
    rw [gpushxto0, ggpushxto0_guard _ _ _ (by rfl) hs, mulPoint_Id]
    intro h
    have := congrFun h 0
    simp [C0] at this

end PushRoundTrip

/-! ## C3: `ggpushxto0` is an isometry -/

section PushIsometry

variable {D : ℕ} {K : Type} [LinearOrderedField K]

theorem sig_last_curved (g : Geometry) (hg : euclid g = false) :
    ((sig D g (Fin.last D : Fin (D + 1)) : ℤ) : K) = (curvature g : K) := by
  rcases g with ⟨c, e⟩
  cases c <;> simp [sig, sphere, curvature, euclid] at hg ⊢

/-- Inner product of two columns of the shape `e_j + p * u`, `e_k + q * u`. -/
theorem sum_delta_add_mul (u : Fin D → K) (j k : Fin D) (p q : K) :
    ∑ z : Fin D, ((if z = j then 1 else 0) + u z * p) * ((if z = k then 1 else 0) + u z * q)
      = (if j = k then 1 else 0) + u j * q + u k * p + p * q * ∑ z : Fin D, u z * u z := by
  have e : ∀ z : Fin D,
      ((if z = j then 1 else 0) + u z * p) * ((if z = k then 1 else 0) + u z * q)
        = (if z = j then (if z = k then 1 else 0) else 0) + (if z = j then u z * q else 0)
          + (if z = k then u z * p else 0) + p * q * (u z * u z) := by
    intro z
    split_ifs <;> ring
  simp only [e, Finset.sum_add_distrib, Finset.sum_ite_eq', Finset.mem_univ, if_true,
    ← Finset.mul_sum]

/-- Inner product of a column of the shape `e_j + p * u` with a multiple of `u`. -/
theorem sum_delta_add_mul_right (u : Fin D → K) (j : Fin D) (p c : K) :
    ∑ z : Fin D, ((if z = j then 1 else 0) + u z * p) * (c * u z)
      = c * u j + p * c * ∑ z : Fin D, u z * u z := by
  have e : ∀ z : Fin D, ((if z = j then 1 else 0) + u z * p) * (c * u z)
      = (if z = j then c * u z else 0) + p * c * (u z * u z) := by
    intro z
    split_ifs <;> ring
  simp only [e, Finset.sum_add_distrib, Finset.sum_ite_eq', Finset.mem_univ, if_true,
    ← Finset.mul_sum]

theorem ggpushxto0_isometry_curved (g : Geometry) (H : hyperpoint D K) (co : K)
    (hg : euclid g = false) (hH : OnManifold g H) (hco : co * co = 1)
    (hs : (1e-12 : K) ≤ sqhypot_d H D) : IsIsometry g (ggpushxto0 g H co) := by
  obtain ⟨h1, h2, h3, h4⟩ := ggpushxto0_curved g H co hg hs
  have hM := onManifold_curved g H hg hH
  have hk := curvature_sq (K := K) g hg
  have hpos : (0 : K) < sqhypot_d H D := lt_of_lt_of_le (by norm_num) hs
  have hne : sqhypot_d H D ≠ 0 := hpos.ne'
  have hsum : ∑ j : Fin D, H j.castSucc * H j.castSucc = sqhypot_d H D := (sqhypot_d_DIM H).symm
  have hσ := sig_last_curved (D := D) (K := K) g hg
  rw [isIsometry_iff]
  intro j k
  rw [Fin.sum_univ_castSucc]
  simp only [sig_castSucc, hσ, Int.cast_one, mul_one]
  generalize hκ : (curvature g : K) = κ at *
  generalize hS : sqhypot_d H D = s at *
  generalize hL : H (Fin.last D) = L at *
  have hLs : L ^ 2 = 1 - κ * s := by linarith
  refine Fin.lastCases ?_ (fun j' => ?_) j <;> refine Fin.lastCases ?_ (fun k' => ?_) k
  · simp only [h2, h4, if_true, hσ]
    have : ∑ z : Fin D, co * H z.castSucc * (co * H z.castSucc) = co * co * s := by
      rw [← hsum, Finset.mul_sum]
      exact Finset.sum_congr rfl (fun z _ => by ring)
    rw [this, hco]
    linear_combination κ * hLs - s * hk
  · simp only [h1, h2, h3, h4, (Fin.castSucc_lt_last k').ne', if_false]
    have : ∑ z : Fin D, co * H z.castSucc * ((if z = k' then 1 else 0)
          + H z.castSucc * H k'.castSucc * ((L - 1) / s))
        = co * H k'.castSucc + (H k'.castSucc * ((L - 1) / s)) * co * s := by
      rw [← hsum, ← sum_delta_add_mul_right (fun z => H z.castSucc)]
      exact Finset.sum_congr rfl (fun z _ => by ring)
    rw [this]
    field_simp
    linear_combination (-(co * H k'.castSucc * L)) * hk
  · simp only [h1, h2, h3, h4, (Fin.castSucc_lt_last j').ne, if_false]
    have : ∑ z : Fin D, ((if z = j' then 1 else 0)
          + H z.castSucc * H j'.castSucc * ((L - 1) / s)) * (co * H z.castSucc)
        = co * H j'.castSucc + (H j'.castSucc * ((L - 1) / s)) * co * s := by
      rw [← hsum, ← sum_delta_add_mul_right (fun z => H z.castSucc)]
      exact Finset.sum_congr rfl (fun z _ => by ring)
    rw [this]
    field_simp
    linear_combination (-(co * H j'.castSucc * L)) * hk
  · simp only [h1, h3, Fin.castSucc_inj, sig_castSucc, Int.cast_one]
    have : ∑ z : Fin D, ((if z = j' then 1 else 0)
          + H z.castSucc * H j'.castSucc * ((L - 1) / s))
          * ((if z = k' then 1 else 0) + H z.castSucc * H k'.castSucc * ((L - 1) / s))
        = (if j' = k' then 1 else 0) + H j'.castSucc * (H k'.castSucc * ((L - 1) / s))
          + H k'.castSucc * (H j'.castSucc * ((L - 1) / s))
          + (H j'.castSucc * ((L - 1) / s)) * (H k'.castSucc * ((L - 1) / s)) * s := by
      rw [← hsum, ← sum_delta_add_mul (fun z => H z.castSucc)]
      exact Finset.sum_congr rfl (fun z _ => by ring)
    rw [this]
    have hco' : -κ * co * H j'.castSucc * (-κ * co * H k'.castSucc) * κ
        = κ * H j'.castSucc * H k'.castSucc := by
      linear_combination (κ * H j'.castSucc * H k'.castSucc * (co * co)) * hk
        + (κ * H j'.castSucc * H k'.castSucc) * hco
    rw [hco']
    by_cases hjk : j' = k'
    · simp only [hjk, if_true]
      field_simp
      linear_combination (s ^ 2 * H k'.castSucc ^ 2) * hLs
    · simp only [hjk, if_false]
      field_simp
      linear_combination (H j'.castSucc * H k'.castSucc * s ^ 2) * hLs

/-- C3: in hyperbolic and in spherical geometry, for every point `H` on the manifold and
`co` in `{-1, +1}`, `T = ggpushxto0(H, co)` satisfies `Tᵗ G T = G` (the near-zero guard, which
returns `Id`, included). -/
theorem ggpushxto0_isometry (g : Geometry) (H : hyperpoint D K) (co : K)
    (hg : g.cgclass = eGeometryClass.gcHyperbolic ∨ g.cgclass = eGeometryClass.gcSphere)
    (hH : OnManifold g H) (hco : co = -1 ∨ co = 1) : IsIsometry g (ggpushxto0 g H co) := by
  have hg' : euclid g = false := by
    rcases hg with h | h <;> simp [euclid, h]
  have hco' : co * co = 1 := by
    rcases hco with h | h <;> rw [h] <;> norm_num
  by_cases hs : sqhypot_d H D < (1e-12 : K)
  · rw [ggpushxto0_guard g H co hg' hs]
    exact isIsometry_Id g
  · exact ggpushxto0_isometry_curved g H co hg' hH hco' (not_lt.mp hs)

/-- C3 at a concrete hyperbolic point, `co = -1`. -/
theorem ggpushxto0_isometry_witness :
    OnManifold hyperbolicGeometry (![3/4, 0, 5/4] : hyperpoint 2 ℝ) ∧
    IsIsometry hyperbolicGeometry
      (ggpushxto0 hyperbolicGeometry (![3/4, 0, 5/4] : hyperpoint 2 ℝ) (-1)) :=
  have hH : OnManifold hyperbolicGeometry (![3/4, 0, 5/4] : hyperpoint 2 ℝ) := by
    simp only [OnManifold, hyperbolicGeometry, sum_filter_lt, Fin.sum_univ_two, last_dim2]
    norm_num
  ⟨hH, ggpushxto0_isometry _ _ _ (Or.inl rfl) hH (Or.inl rfl)⟩

end PushIsometry

/-! ## C4: the elementary builders are isometries -/

section Builders

variable {D : ℕ}

/-- A rotation in a plane of two axes below `DIM` is an isometry. -/
theorem isIsometry_rotation (g : Geometry) (a b : Fin (D + 1)) (hab : a ≠ b) (ha : a.val < D)
    (hb : b.val < D) (p q : ℝ) (h : p * p + q * q = 1) :
    IsIsometry g
      (setEntry (setEntry (setEntry (setEntry (Id : transmatrix D ℝ) a a p) a b q) b a (-q)) b b p)
      := by
  refine isIsometry_plane g a b hab p q (-q) p _ (setEntry_plane a b hab p q (-q) p) ?_ ?_ ?_ <;>
    simp only [sig_of_lt g _ ha, sig_of_lt g _ hb, Int.cast_one] <;> linarith

theorem cspin_isometry (g : Geometry) (a b : Fin (D + 1)) (hab : a ≠ b) (ha : a.val < D)
    (hb : b.val < D) (alpha : ℝ) : IsIsometry g (cspin a b alpha : transmatrix D ℝ) := by
  unfold cspin
  refine isIsometry_rotation g a b hab ha hb _ _ ?_
  simp only [cmath_cos, cmath_sin]
  linarith [Real.sin_sq_add_cos_sq alpha]

theorem cpush_isometry (g : Geometry) (hg : euclid g = false) (c : Fin (D + 1))
    (hc : c.val < D) (alpha : ℝ) : IsIsometry g (cpush g c alpha : transmatrix D ℝ) := by
  have hcl : c ≠ Fin.last D := by
    intro h
    rw [h] at hc
    simp at hc
  have hlc : Fin.last D ≠ c := Ne.symm hcl
  have hk := curvature_sq (K := ℝ) g hg
  have hcs := cos_auto_sq_add g hg alpha
  refine isIsometry_plane g c (Fin.last D) hcl (cos_auto g alpha) (sin_auto g alpha)
    (-(curvature g : ℝ) * sin_auto g alpha) (cos_auto g alpha) _ ?_ ?_ ?_ ?_
  · intro i j
    simp only [cpush, setEntry, Id_apply]
    by_cases hia : i = c <;> by_cases hib : i = Fin.last D <;> by_cases hja : j = c <;>
      by_cases hjb : j = Fin.last D <;> simp_all <;> intro h <;> simp_all
  · rw [sig_of_lt g _ hc, sig_last_curved g hg]
    push_cast
    linear_combination hcs + (curvature g : ℝ) * sin_auto g alpha * sin_auto g alpha * hk
  · rw [sig_of_lt g _ hc, sig_last_curved g hg]
    push_cast
    linear_combination (curvature g : ℝ) * hcs - sin_auto g alpha * sin_auto g alpha * hk
  · rw [sig_of_lt g _ hc, sig_last_curved g hg]
    push_cast
    linear_combination (-(cos_auto g alpha * sin_auto g alpha)) * hk

theorem hypot_ge_pos {x y : ℝ} (h : Real.sqrt (x ^ 2 + y ^ 2) ≥ 1e-12) :
    Real.sqrt (x ^ 2 + y ^ 2) ≠ 0 ∧ Real.sqrt (x ^ 2 + y ^ 2) * Real.sqrt (x ^ 2 + y ^ 2)
      = x ^ 2 + y ^ 2 := by
  have hpos : (0 : ℝ) < Real.sqrt (x ^ 2 + y ^ 2) := lt_of_lt_of_le (by norm_num) h
  exact ⟨hpos.ne', Real.mul_self_sqrt (by positivity)⟩

theorem spintoc_isometry (g : Geometry) (H : hyperpoint D ℝ) (t f : Fin (D + 1)) (htf : t ≠ f)
    (ht : t.val < D) (hf : f.val < D) : IsIsometry g (spintoc H t f) := by
  unfold spintoc
  simp only [cmath_hypot]
  split_ifs with hR
  · obtain ⟨hne, hsq⟩ := hypot_ge_pos hR
    have e : -H f / Real.sqrt (H f ^ 2 + H t ^ 2) = -(H f / Real.sqrt (H f ^ 2 + H t ^ 2)) :=
      neg_div _ _
    rw [e]
    refine isIsometry_rotation g t f htf ht hf _ _ ?_
    generalize Real.sqrt (H f ^ 2 + H t ^ 2) = R at *
    field_simp
    linarith
  · exact isIsometry_Id g

theorem rspintoc_isometry (g : Geometry) (H : hyperpoint D ℝ) (t f : Fin (D + 1)) (htf : t ≠ f)
    (ht : t.val < D) (hf : f.val < D) : IsIsometry g (rspintoc H t f) := by
  unfold rspintoc
  simp only [cmath_hypot]
  split_ifs with hR
  · obtain ⟨hne, hsq⟩ := hypot_ge_pos hR
    have e : H f / Real.sqrt (H f ^ 2 + H t ^ 2) = -(-H f / Real.sqrt (H f ^ 2 + H t ^ 2)) := by
      rw [neg_div, neg_neg]
    rw [e]
    refine isIsometry_rotation g t f htf ht hf _ _ ?_
    generalize Real.sqrt (H f ^ 2 + H t ^ 2) = R at *
    field_simp
    linarith
  · exact isIsometry_Id g

theorem axes_of_two_le (hD : 2 ≤ D) :
    (0 : Fin (D + 1)) ≠ 1 ∧ (0 : Fin (D + 1)).val < D ∧ (1 : Fin (D + 1)).val < D ∧
    (D ≠ 2 → (0 : Fin (D + 1)) ≠ 2 ∧ (2 : Fin (D + 1)).val < D) := by
  obtain ⟨n, rfl⟩ : ∃ n, D = n + 2 := ⟨D - 2, by omega⟩
  refine ⟨by simp [Fin.ext_iff], by simp, by simp [Fin.val_one], fun h => ⟨?_, ?_⟩⟩
  · simp [Fin.ext_iff, Fin.val_two]
  · rw [Fin.val_two]
    omega

/-- C4: in hyperbolic and in spherical geometry, with `DIM >= 2` (the supported dimensions are
2 and 3), for every real `alpha`, every axis `c < DIM` and every vector `H`, each of
`spin(alpha)`, `cpush(c, alpha)`, `spintox(H)` and `rspintox(H)` satisfies `Tᵗ G T = G`. -/
theorem builders_isometry (g : Geometry)
    (hg : g.cgclass = eGeometryClass.gcHyperbolic ∨ g.cgclass = eGeometryClass.gcSphere)
    (hD : 2 ≤ D) (alpha : ℝ) (c : Fin (D + 1)) (hc : c.val < D) (H : hyperpoint D ℝ) :
    IsIsometry g (spin alpha : transmatrix D ℝ) ∧ IsIsometry g (cpush g c alpha) ∧
    IsIsometry g (spintox H) ∧ IsIsometry g (rspintox H) := by
  have hg' : euclid g = false := by
    rcases hg with h | h <;> simp [euclid, h]
  obtain ⟨h01, h0, h1, h2⟩ := axes_of_two_le hD
  refine ⟨cspin_isometry g 0 1 h01 h0 h1 alpha, cpush_isometry g hg' c hc alpha, ?_, ?_⟩
  · unfold spintox
    split_ifs with hD2
    · exact spintoc_isometry g H 0 1 h01 h0 h1
    · exact (spintoc_isometry g _ 0 2 (h2 hD2).1 h0 (h2 hD2).2).mul
        (spintoc_isometry g H 0 1 h01 h0 h1)
  · unfold rspintox
    split_ifs with hD2
    · exact rspintoc_isometry g H 0 1 h01 h0 h1
    · exact (rspintoc_isometry g H 0 1 h01 h0 h1).mul
        (rspintoc_isometry g _ 0 2 (h2 hD2).1 h0 (h2 hD2).2)

/-- C4 at concrete inputs: hyperbolic geometry, `DIM = 3`, `alpha = 1`, axis `2`. -/
theorem builders_isometry_witness :
    IsIsometry hyperbolicGeometry (spin 1 : transmatrix 3 ℝ) ∧
    IsIsometry hyperbolicGeometry (cpush hyperbolicGeometry 2 1 : transmatrix 3 ℝ) ∧
    IsIsometry hyperbolicGeometry (spintox (![1, 2, 2, 3] : hyperpoint 3 ℝ)) ∧
    IsIsometry hyperbolicGeometry (rspintox (![1, 2, 2, 3] : hyperpoint 3 ℝ)) :=
  builders_isometry hyperbolicGeometry (Or.inl rfl) (by decide) 1 2 (by decide) _

end Builders

/-! ## C5: `fixmatrix` re-orthonormalizes the columns -/

section Fixmatrix

variable {D : ℕ}

theorem colProduct_comm (g : Geometry) (S : transmatrix D ℝ) (j k : Fin (D + 1)) :
    colProduct g S j k = colProduct g S k j :=
  Finset.sum_congr rfl (fun z _ => by ring)

/-- The coefficient `dp` used by the update of iteration `(x, y)`. -/
theorem fixmatrix_step_apply (g : Geometry) (x y : Fin (D + 1)) (S : transmatrix D ℝ)
    (z c : Fin (D + 1)) :
    fixmatrix_step g x y S z c
      = if c = x then
          S z x - (if y = x then 1 - Real.sqrt ((sig D g x : ℝ) / colProduct g S x y)
            else colProduct g S x y) * S z y
        else S z c := rfl

/-- Inner products of the columns after column `x` has been replaced by
`column x - d * column y`. -/
theorem colProduct_update (g : Geometry) (S S' : transmatrix D ℝ) (x y : Fin (D + 1)) (d : ℝ)
    (hS' : ∀ z c, S' z c = if c = x then S z x - d * S z y else S z c) :
    (∀ j k, j ≠ x → k ≠ x → colProduct g S' j k = colProduct g S j k) ∧
    (∀ k, k ≠ x → colProduct g S' x k = colProduct g S x k - d * colProduct g S y k) ∧
    colProduct g S' x x
      = colProduct g S x x - 2 * d * colProduct g S x y + d * d * colProduct g S y y := by
  refine ⟨fun j k hj hk => ?_, fun k hk => ?_, ?_⟩
  · simp only [colProduct, hS', if_neg hj, if_neg hk]
  · simp only [colProduct, hS', if_neg hk, if_true, Finset.mul_sum]
    rw [← Finset.sum_sub_distrib]
    exact Finset.sum_congr rfl (fun z _ => by ring)
  · simp only [colProduct, hS', if_true, Finset.mul_sum]
    rw [← Finset.sum_sub_distrib, ← Finset.sum_add_distrib]
    exact Finset.sum_congr rfl (fun z _ => by ring)

/-- The first `n` columns are orthonormal for the signature-weighted inner product. -/
theorem orth_step_below (g : Geometry) (x y : Fin (D + 1)) (S : transmatrix D ℝ) (n : ℕ)
    (hx : n ≤ x.val)
    (hS : ∀ j k : Fin (D + 1), j.val < n → k.val < n →
      colProduct g S j k = if j = k then (sig D g j : ℝ) else 0) :
    ∀ j k : Fin (D + 1), j.val < n → k.val < n →
      colProduct g (fixmatrix_step g x y S) j k = if j = k then (sig D g j : ℝ) else 0 := by
  intro j k hj hk
  have hjx : j ≠ x := fun h => by rw [h] at hj; omega
  have hkx : k ≠ x := fun h => by rw [h] at hk; omega
  rw [(colProduct_update g S _ x y _ (fixmatrix_step_apply g x y S)).1 j k hjx hkx]
  exact hS j k hj hk

/-- The iterations `y < x` of column `x`: afterwards column `x` is orthogonal to the columns
before it, which are untouched. -/
theorem fixmatrix_inner_orth (g : Geometry) (x : Fin (D + 1)) (S0 : transmatrix D ℝ)
    (hS0 : ∀ j k : Fin (D + 1), j.val < x.val → k.val < x.val →
      colProduct g S0 j k = if j = k then (sig D g j : ℝ) else 0) :
    (∀ j k : Fin (D + 1), j.val < x.val → k.val < x.val →
      colProduct g (forRange D 0 x.val (fun y T => fixmatrix_step g x y T) S0) j k
        = if j = k then (sig D g j : ℝ) else 0) ∧
    (∀ y : Fin (D + 1), y.val < x.val →
      colProduct g (forRange D 0 x.val (fun y T => fixmatrix_step g x y T) S0) x y = 0) := by
  have key := forRange_induction
    (fun (m : ℕ) (S : transmatrix D ℝ) =>
      (∀ j k : Fin (D + 1), j.val < x.val → k.val < x.val →
        colProduct g S j k = if j = k then (sig D g j : ℝ) else 0) ∧
      (∀ y : Fin (D + 1), y.val < m → colProduct g S x y = 0))
    0 x.val (fun y T => fixmatrix_step g x y T) S0 (Nat.zero_le _) (by omega)
    ⟨hS0, fun y hy => absurd hy (Nat.not_lt_zero _)⟩
    (fun m hm _ hmx S hS => ?_)
  · exact key
  · obtain ⟨hO, hZ⟩ := hS
    refine ⟨orth_step_below g x ⟨m, hm⟩ S x.val (le_refl _) hO, fun y' hy' => ?_⟩
    have hyx : (⟨m, hm⟩ : Fin (D + 1)) ≠ x := fun h => by rw [← h] at hmx; simp at hmx
    have hy'x : y' ≠ x := fun h => by rw [h] at hy'; omega
    have hupd := (colProduct_update g S _ x ⟨m, hm⟩ _ (fixmatrix_step_apply g x ⟨m, hm⟩ S)).2.1
      y' hy'x
    rw [hupd]
    simp only [hyx, if_false]
    by_cases hym : y' = ⟨m, hm⟩
    · subst hym
      have hself := hO ⟨m, hm⟩ ⟨m, hm⟩ hmx hmx
      simp only [if_true] at hself
      rw [hself, sig_of_lt g m (by omega)]
      simp
    · have hlt : y'.val < m := by
        have : y'.val ≠ m := fun h => hym (Fin.ext h)
        omega
      have hne : (⟨m, hm⟩ : Fin (D + 1)) ≠ y' := fun h => hym h.symm
      have hcross := hO ⟨m, hm⟩ y' hmx (by omega)
      simp only [hne, if_false] at hcross
      rw [hZ y' hlt, hcross]
      simp

/-- The diagonal iteration of column `x` rescales the column to squared length `sig(x)`. -/
theorem fixmatrix_diag_orth (g : Geometry) (x : Fin (D + 1)) (B : transmatrix D ℝ)
    (hB : ∀ j k : Fin (D + 1), j.val < x.val → k.val < x.val →
      colProduct g B j k = if j = k then (sig D g j : ℝ) else 0)
    (hZ : ∀ y : Fin (D + 1), y.val < x.val → colProduct g B x y = 0)
    (hq : 0 < (sig D g x : ℝ) * colProduct g B x x) :
    ∀ j k : Fin (D + 1), j.val < x.val + 1 → k.val < x.val + 1 →
      colProduct g (fixmatrix_step g x x B) j k = if j = k then (sig D g j : ℝ) else 0 := by
  have hσ : (sig D g x : ℝ) * (sig D g x : ℝ) = 1 := by
    exact_mod_cast sig_mul_self g x.val
  have hqne : colProduct g B x x ≠ 0 := fun h => by rw [h] at hq; simp at hq
  have hpos : 0 < (sig D g x : ℝ) / colProduct g B x x := by
    have : (sig D g x : ℝ) / colProduct g B x x
        = (sig D g x : ℝ) * colProduct g B x x / (colProduct g B x x * colProduct g B x x) := by
      field_simp
      ring
    rw [this]
    exact div_pos hq (mul_self_pos.mpr hqne)
  have hr := Real.mul_self_sqrt hpos.le
  obtain ⟨u1, u2, u3⟩ := colProduct_update g B _ x x _ (fixmatrix_step_apply g x x B)
  simp only [if_true] at u2 u3
  intro j k hj hk
  by_cases hjx : j = x <;> by_cases hkx : k = x
  · rw [hjx, hkx, u3]
    simp only [if_true]
    generalize Real.sqrt ((sig D g x : ℝ) / colProduct g B x x) = r at hr ⊢
    have hrq : colProduct g B x x * (r * r) = (sig D g x : ℝ) := by
      rw [hr]
      field_simp
    linear_combination hrq
  · have hklt : k.val < x.val := by
      have : k.val ≠ x.val := fun h => hkx (Fin.ext h)
      omega
    rw [hjx, u2 k hkx, hZ k hklt]
    simp [Ne.symm hkx]
  · have hjlt : j.val < x.val := by
      have : j.val ≠ x.val := fun h => hjx (Fin.ext h)
      omega
    rw [hkx, colProduct_comm, u2 j hjx, hZ j hjlt]
    simp [hjx]
  · have hjlt : j.val < x.val := by
      have : j.val ≠ x.val := fun h => hjx (Fin.ext h)
      omega
    have hklt : k.val < x.val := by
      have : k.val ≠ x.val := fun h => hkx (Fin.ext h)
      omega
    rw [u1 j k hjx hkx]
    exact hB j k hjlt hklt

/-- C5: in hyperbolic and in spherical geometry, for every matrix `T` on which `fixmatrix`
never takes the square root of a non-positive quantity (at each diagonal iteration the weighted
self-product `dp` of the current column `x` is non-zero and has the sign of `sig(x)`), the
matrix left by `fixmatrix(T)` satisfies `Tᵗ G T = G`. -/
theorem fixmatrix_isometry (g : Geometry)
    (hg : g.cgclass = eGeometryClass.gcHyperbolic ∨ g.cgclass = eGeometryClass.gcSphere)
    (T : transmatrix D ℝ) (h : FixmatrixSqrtDefined g T) : IsIsometry g (fixmatrix g T) := by
  have hg' : euclid g = false := by
    rcases hg with h | h <;> simp [euclid, h]
  have key := forRange_induction_state
    (fun (n : ℕ) (S : transmatrix D ℝ) =>
      ∀ j k : Fin (D + 1), j.val < n → k.val < n →
        colProduct g S j k = if j = k then (sig D g j : ℝ) else 0)
    0 (D + 1)
    (fun x T => forRange D 0 (x.val + 1) (fun y T => fixmatrix_step g x y T) T) T
    (Nat.zero_le _) (le_refl _) (fun j _ hj => absurd hj (Nat.not_lt_zero _))
    (fun n hn _ _ hS => ?_)
  · rw [isIsometry_iff]
    intro j k
    have := key j k j.isLt k.isLt
    simp only [fixmatrix, hg', Bool.false_eq_true, if_false]
    exact this
  · intro j k hj hk
    obtain ⟨hB, hZ⟩ := fixmatrix_inner_orth g ⟨n, hn⟩ _ hS
    have hd := fixmatrix_diag_orth g ⟨n, hn⟩ _ hB hZ (h ⟨n, hn⟩) j k hj hk
    have e := forRange_succ_of_lt 0 n (fun y T => fixmatrix_step g ⟨n, hn⟩ y T)
      (forRange D 0 n
        (fun x T => forRange D 0 (x.val + 1) (fun y T => fixmatrix_step g x y T) T) T)
      (Nat.zero_le _) hn
    show colProduct g (forRange D 0 (n + 1) (fun y T => fixmatrix_step g ⟨n, hn⟩ y T)
      (forRange D 0 n
        (fun x T => forRange D 0 (x.val + 1) (fun y T => fixmatrix_step g x y T) T) T)) j k = _
    rw [e]
    exact hd

/-- On a matrix that already is an isometry every iteration of `fixmatrix` is the identity. -/
theorem fixmatrix_step_fixed (g : Geometry) (S : transmatrix D ℝ) (hS : IsIsometry g S)
    (x y : Fin (D + 1)) : fixmatrix_step g x y S = S := by
  have hcp : ∀ j k : Fin (D + 1), colProduct g S j k = if j = k then (sig D g j : ℝ) else 0 :=
    (isIsometry_iff g S).mp hS
  have hσ : (sig D g x : ℝ) ≠ 0 := by
    have h1 : (sig D g x : ℝ) * (sig D g x : ℝ) = 1 := by exact_mod_cast sig_mul_self g x.val
    intro h0
    rw [h0] at h1
    simp at h1
  funext z c
  rw [fixmatrix_step_apply]
  by_cases hc : c = x
  · by_cases hy : y = x
    · simp [hc, hy, hcp, div_self hσ]
    · simp [hc, hy, hcp, Ne.symm hy]
  · simp [hc]

theorem fixmatrix_inner_fixed (g : Geometry) (S : transmatrix D ℝ) (hS : IsIsometry g S)
    (x : Fin (D + 1)) (lo hi : ℕ) :
    forRange D lo hi (fun y T => fixmatrix_step g x y T) S = S :=
  forRange_preserves (fun T => T = S) lo hi _ S rfl
    (fun y T hT => by rw [hT]; exact fixmatrix_step_fixed g S hS x y)

theorem fixmatrix_outer_fixed (g : Geometry) (S : transmatrix D ℝ) (hS : IsIsometry g S)
    (lo hi : ℕ) :
    forRange D lo hi
      (fun x T => forRange D 0 (x.val + 1) (fun y T => fixmatrix_step g x y T) T) S = S :=
  forRange_preserves (fun T => T = S) lo hi _ S rfl
    (fun x T hT => by rw [hT]; exact fixmatrix_inner_fixed g S hS x 0 _)

/-- Every isometry satisfies the hypothesis of C5. -/
theorem fixmatrixSqrtDefined_of_isometry (g : Geometry) (S : transmatrix D ℝ)
    (hS : IsIsometry g S) : FixmatrixSqrtDefined g S := by
  intro x
  unfold fixmatrix_before_diag
  have hcp : ∀ j k : Fin (D + 1), colProduct g S j k = if j = k then (sig D g j : ℝ) else 0 :=
    (isIsometry_iff g S).mp hS
  rw [fixmatrix_outer_fixed g S hS, fixmatrix_inner_fixed g S hS, hcp x x]
  simp only [if_true]
  have h1 : (sig D g x : ℝ) * (sig D g x : ℝ) = 1 := by exact_mod_cast sig_mul_self g x.val
  rw [h1]
  exact one_pos

/-- The first diagonal iteration of `fixmatrix` on `diag(2, 1, 1)` in spherical geometry
halves the first column and so yields `Id`. -/
theorem fixmatrix_step_diag211 :
    fixmatrix_step sphericalGeometry 0 0 (!![2, 0, 0; 0, 1, 0; 0, 0, 1] : transmatrix 2 ℝ)
      = Id := by
  have hs : Real.sqrt (1 / 4) = 1 / 2 := by
    rw [show (1 / 4 : ℝ) = (1 / 2) ^ 2 by norm_num]
    exact Real.sqrt_sq (by norm_num)
  have hcp : colProduct sphericalGeometry (!![2, 0, 0; 0, 1, 0; 0, 0, 1] : transmatrix 2 ℝ) 0 0
      = 4 := by
    simp [colProduct, Fin.sum_univ_three, sig, sphere, sphericalGeometry, Matrix.vecHead,
      Matrix.vecTail]
    norm_num
  have hsig : ((sig 2 sphericalGeometry ((0 : Fin 3) : ℕ) : ℤ) : ℝ) = 1 := by
    simp [sig, sphere, sphericalGeometry]
  funext z c
  rw [fixmatrix_step_apply, hcp, hsig, hs]
  fin_cases z <;> fin_cases c <;> simp [Id_apply, Matrix.vecHead, Matrix.vecTail] <;> norm_num

/-- C5 at a concrete matrix that is not an isometry: `diag(2, 1, 1)` in spherical geometry. -/
theorem fixmatrix_isometry_witness :
    FixmatrixSqrtDefined sphericalGeometry (!![2, 0, 0; 0, 1, 0; 0, 0, 1] : transmatrix 2 ℝ) ∧
    IsIsometry sphericalGeometry
      (fixmatrix sphericalGeometry (!![2, 0, 0; 0, 1, 0; 0, 0, 1] : transmatrix 2 ℝ)) :=
  have hId : IsIsometry sphericalGeometry (Id : transmatrix 2 ℝ) := isIsometry_Id _
  have h1 : forRange 2 0 1
      (fun x T => forRange 2 0 (x.val + 1) (fun y T => fixmatrix_step sphericalGeometry x y T) T)
      (!![2, 0, 0; 0, 1, 0; 0, 0, 1] : transmatrix 2 ℝ) = Id := by
    rw [forRange_succ_of_lt 0 0 _ _ (le_refl _) (by decide), forRange_zero]
    show forRange 2 0 1 (fun y T => fixmatrix_step sphericalGeometry 0 y T) _ = Id
    rw [forRange_succ_of_lt 0 0 _ _ (le_refl _) (by decide), forRange_zero]
    exact fixmatrix_step_diag211
  have h2 : forRange 2 0 2
      (fun x T => forRange 2 0 (x.val + 1) (fun y T => fixmatrix_step sphericalGeometry x y T) T)
      (!![2, 0, 0; 0, 1, 0; 0, 0, 1] : transmatrix 2 ℝ) = Id := by
    rw [forRange_succ_of_lt 0 1 _ _ (by decide) (by decide), h1]
    exact fixmatrix_inner_fixed _ _ hId _ _ _
  have hcpId : ∀ x : Fin 3, colProduct sphericalGeometry (Id : transmatrix 2 ℝ) x x = 1 := by
    intro x
    have hcp : ∀ j k : Fin 3, colProduct sphericalGeometry (Id : transmatrix 2 ℝ) j k
        = if j = k then ((sig 2 sphericalGeometry j : ℤ) : ℝ) else 0 :=
      (isIsometry_iff _ _).mp hId
    rw [hcp x x]
    simp [sig, sphere, sphericalGeometry]
  have hsig : ∀ x : Fin 3, ((sig 2 sphericalGeometry (x : ℕ) : ℤ) : ℝ) = 1 := by
    intro x
    simp [sig, sphere, sphericalGeometry]
  have hdef : FixmatrixSqrtDefined sphericalGeometry
      (!![2, 0, 0; 0, 1, 0; 0, 0, 1] : transmatrix 2 ℝ) := by
    intro x
    rw [hsig x, one_mul]
    fin_cases x
    · show 0 < colProduct sphericalGeometry
        (!![2, 0, 0; 0, 1, 0; 0, 0, 1] : transmatrix 2 ℝ) 0 0
      simp [colProduct, Fin.sum_univ_three, sig, sphere, sphericalGeometry, Matrix.vecHead,
        Matrix.vecTail]
    · show 0 < colProduct sphericalGeometry
        (forRange 2 0 1 (fun y T => fixmatrix_step sphericalGeometry 1 y T)
          (forRange 2 0 1 (fun x T => forRange 2 0 (x.val + 1)
            (fun y T => fixmatrix_step sphericalGeometry x y T) T)
            (!![2, 0, 0; 0, 1, 0; 0, 0, 1] : transmatrix 2 ℝ))) 1 1
      rw [h1, fixmatrix_inner_fixed _ _ hId, hcpId]
      exact one_pos
    · show 0 < colProduct sphericalGeometry
        (forRange 2 0 2 (fun y T => fixmatrix_step sphericalGeometry 2 y T)
          (forRange 2 0 2 (fun x T => forRange 2 0 (x.val + 1)
            (fun y T => fixmatrix_step sphericalGeometry x y T) T)
            (!![2, 0, 0; 0, 1, 0; 0, 0, 1] : transmatrix 2 ℝ))) 2 2
      rw [h2, fixmatrix_inner_fixed _ _ hId, hcpId]
      exact one_pos
  ⟨hdef, fixmatrix_isometry sphericalGeometry (Or.inr rfl) _ hdef⟩

end Fixmatrix

/-! ## C6: `inverse` degrades to `Id` on singular input -/

section InverseSingular

variable {D : ℕ} {K : Type} [LinearOrderedField K]

/-- Outside `DIM == 2`, `inverse` returns `Id` exactly through the zero-pivot exit of the
elimination, which singular matrices take. -/
theorem inverse_of_det_eq_zero (hD : D ≠ 2) (T : transmatrix D K) (h : Matrix.det T = 0) :
    inverse T = Id := by
  have hf : inverse_forward T = none := (inverse_forward_eq_none_iff T).mpr h
  simp [inverse, hD, hf]

/-- C6: `inverse` returns `Id` on every matrix whose determinant is zero. With `DIM = 2` the
cofactor expression `det(T)` is the determinant and the test `det(T) == 0` returns `Id`. With
`DIM = 3` the forward elimination takes its zero-pivot exit exactly when the determinant of `T`
is zero, and `inverse` then returns `Id`. -/
theorem inverse_singular_degrades :
    (∀ T : transmatrix 2 K, det T = Matrix.det T ∧ (det T = 0 → inverse T = Id)) ∧
    (∀ T : transmatrix 3 K, (Matrix.det T = 0 ↔ inverse_forward T = none) ∧
      (Matrix.det T = 0 → inverse T = Id)) := by
  refine ⟨fun T => ⟨det_dim2_eq_det T, fun h => ?_⟩, fun T => ⟨?_, ?_⟩⟩
  · simp [inverse, h]
  · exact (inverse_forward_eq_none_iff T).symm
  · exact inverse_of_det_eq_zero (by decide) T

end InverseSingular

/-! ## C7: `normalize` and `cpush0` land on the manifold -/

section Membership

variable {D : ℕ}

/-- The value `intval(H, Hypc)` is the quadratic form `Q(H)`, in either quotient mode. -/
theorem intval_Hypc (g : Geometry) (H : hyperpoint D ℝ) :
    intval g H Hypc = ∑ i : Fin (D + 1), H i * H i * (sig D g i : ℝ) := by
  unfold intval
  simp only [Hypc, sub_zero, add_zero, squar]
  split_ifs
  · exact min_self _
  · rfl

theorem intval_div (g : Geometry) (H : hyperpoint D ℝ) (Z : ℝ) :
    intval g (fun c => H c / Z) Hypc = intval g H Hypc / (Z * Z) := by
  rw [intval_Hypc, intval_Hypc, Finset.sum_div]
  refine Finset.sum_congr rfl (fun i _ => ?_)
  by_cases hZ : Z = 0
  · simp [hZ]
  · field_simp

theorem intval_cpush0 (g : Geometry) (c : Fin (D + 1)) (hc : c.val < D) (x : ℝ) :
    intval g (cpush0 g c x) Hypc
      = sin_auto g x * sin_auto g x + cos_auto g x * cos_auto g x * (sig D g (Fin.last D) : ℝ) := by
  rw [intval_Hypc, Fin.sum_univ_castSucc]
  have hcl : c ≠ Fin.last D := by
    intro h
    rw [h] at hc
    simp at hc
  obtain ⟨c', rfl⟩ : ∃ c' : Fin D, c = c'.castSucc := ⟨c.castLT hc, by simp⟩
  simp only [cpush0, setCoord, Hypc, sig_castSucc, Int.cast_one, mul_one, Fin.castSucc_inj,
    hcl.symm, if_false, if_true]
  congr 1
  have e : ∀ i : Fin D,
      ((if i = c' then sin_auto g x else if i.castSucc = Fin.last D then cos_auto g x else 0)
        * if i = c' then sin_auto g x else if i.castSucc = Fin.last D then cos_auto g x else 0)
      = if i = c' then sin_auto g x * sin_auto g x else 0 := by
    intro i
    by_cases h : i = c'
    · simp [h]
    · simp [h, (Fin.castSucc_lt_last i).ne]
  simp only [e, Finset.sum_ite_eq', Finset.mem_univ, if_true]

theorem cpush0_last (g : Geometry) (c : Fin (D + 1)) (hc : c.val < D) (x : ℝ) :
    cpush0 g c x (Fin.last D) = cos_auto g x := by
  have hcl : Fin.last D ≠ c := by
    intro h
    rw [← h] at hc
    simp at hc
  simp [cpush0, setCoord, hcl]

theorem normalize_hyperbolic (g : Geometry) (hg : g.cgclass = eGeometryClass.gcHyperbolic)
    (H : hyperpoint D ℝ) (hQ : intval g H Hypc < 0) :
    intval g (normalize g H) Hypc = -1 ∧ 0 < normalize g H (Fin.last D) := by
  have he : euclid g = false := by simp [euclid, hg]
  have hsph : sphere g = false := by simp [sphere, hg]
  have hpos : 0 < Real.sqrt (-intval g H Hypc) := Real.sqrt_pos.mpr (by linarith)
  have hsq : Real.sqrt (-intval g H Hypc) * Real.sqrt (-intval g H Hypc) = -intval g H Hypc :=
    Real.mul_self_sqrt (by linarith)
  have hZ : zlevel g H * zlevel g H = -intval g H Hypc := by
    simp only [zlevel, he, hsph, cmath_sqrt, Bool.false_eq_true, if_false]
    split_ifs <;> nlinarith
  have hlast : H (Fin.last D) ≠ 0 := by
    intro h0
    rw [intval_Hypc, Fin.sum_univ_castSucc, h0] at hQ
    simp only [sig_castSucc, Int.cast_one, mul_one, mul_zero, zero_mul, add_zero] at hQ
    exact absurd hQ (not_lt.mpr (Finset.sum_nonneg (fun i _ => mul_self_nonneg _)))
  constructor
  · unfold normalize
    rw [intval_div, hZ, div_neg, div_self hQ.ne]
  · unfold normalize
    simp only [zlevel, he, hsph, cmath_sqrt, Bool.false_eq_true, if_false]
    by_cases hneg : H (Fin.last D) < 0
    · simp only [hneg, if_true]
      exact div_pos_of_neg_of_neg hneg (by linarith)
    · simp only [hneg, if_false, one_mul]
      exact div_pos (lt_of_le_of_ne (not_lt.mp hneg) (Ne.symm hlast)) hpos

theorem normalize_sphere (g : Geometry) (hg : g.cgclass = eGeometryClass.gcSphere)
    (H : hyperpoint D ℝ) (hH : H ≠ 0) : intval g (normalize g H) Hypc = 1 := by
  have he : euclid g = false := by simp [euclid, hg]
  have hsph : sphere g = true := by simp [sphere, hg]
  have hQ : 0 < intval g H Hypc := by
    rw [intval_Hypc]
    obtain ⟨i, hi⟩ : ∃ i, H i ≠ 0 := by
      by_contra hall
      push_neg at hall
      exact hH (funext hall)
    have hsig : ∀ j : Fin (D + 1), (sig D g j : ℝ) = 1 := by
      intro j
      simp [sig, hsph]
    simp only [hsig, mul_one]
    exact Finset.sum_pos' (fun j _ => mul_self_nonneg _)
      ⟨i, Finset.mem_univ i, mul_self_pos.mpr hi⟩
  unfold normalize
  rw [intval_div]
  simp only [zlevel, he, hsph, cmath_sqrt, Bool.false_eq_true, if_false, if_true]
  rw [Real.mul_self_sqrt hQ.le]
  exact div_self hQ.ne'

/-- C7: every point produced by `normalize` or `cpush0` lies on the active manifold, with
`Q(P) = intval(P, Hypc)`. Hyperbolic: `Q(H) < 0` gives `Q(normalize(H)) = -1` with positive last
coordinate, and `Q(cpush0(c, x)) = -1` for every axis `c < DIM`. Spherical: `H != 0` gives
`Q(normalize(H)) = 1`, and `Q(cpush0(c, x)) = 1`. Flat: `H[DIM] != 0` gives
`normalize(H)[DIM] = 1`, and `cpush0(c, x)[DIM] = 1`. -/
theorem manifold_membership (D : ℕ) (g : Geometry) :
    (g.cgclass = eGeometryClass.gcHyperbolic →
      (∀ H : hyperpoint D ℝ, intval g H Hypc < 0 →
        intval g (normalize g H) Hypc = -1 ∧ 0 < normalize g H (Fin.last D)) ∧
      (∀ (c : Fin (D + 1)) (x : ℝ), c.val < D → intval g (cpush0 g c x) Hypc = -1)) ∧
    (g.cgclass = eGeometryClass.gcSphere →
      (∀ H : hyperpoint D ℝ, H ≠ 0 → intval g (normalize g H) Hypc = 1) ∧
      (∀ (c : Fin (D + 1)) (x : ℝ), c.val < D → intval g (cpush0 g c x) Hypc = 1)) ∧
    (g.cgclass = eGeometryClass.gcEuclid →
      (∀ H : hyperpoint D ℝ, H (Fin.last D) ≠ 0 → normalize g H (Fin.last D) = 1) ∧
      (∀ (c : Fin (D + 1)) (x : ℝ), c.val < D → cpush0 g c x (Fin.last D) = 1)) := by
  refine ⟨fun hg => ⟨normalize_hyperbolic g hg, fun c x hc => ?_⟩,
    fun hg => ⟨normalize_sphere g hg, fun c x hc => ?_⟩,
    fun hg => ⟨fun H hH => ?_, fun c x hc => ?_⟩⟩
  · have he : euclid g = false := by simp [euclid, hg]
    rw [intval_cpush0 g c hc, sig_last_curved g he]
    have h := cos_auto_sq_add g he x
    have hk : (curvature g : ℝ) = -1 := by simp [curvature, hg]
    rw [hk] at h ⊢
    linarith
  · have he : euclid g = false := by simp [euclid, hg]
    rw [intval_cpush0 g c hc, sig_last_curved g he]
    have h := cos_auto_sq_add g he x
    have hk : (curvature g : ℝ) = 1 := by simp [curvature, hg]
    rw [hk] at h ⊢
    linarith
  · have he : euclid g = true := by simp [euclid, hg]
    simp only [normalize, zlevel, he, if_true]
    exact div_self hH
  · rw [cpush0_last g c hc]
    simp [cos_auto, hg]

end Membership

/-! ## C8: symmetry of `hdist` -/

section Distance

variable {D : ℕ} {K : Type} [LinearOrderedField K]

/-- Outside the guard, the last coordinate of `gpushxto0(a) * b` is the bilinear form
`curvature * (a[0]*b[0] + ... ) + a[DIM]*b[DIM]`. -/
theorem gpushxto0_mul_last (g : Geometry) (hg : euclid g = false) (a b : hyperpoint D K)
    (ha : (1e-12 : K) ≤ sqhypot_d a D) :
    mulPoint (gpushxto0 g a) b (Fin.last D)
      = (curvature g : K) * (∑ j : Fin D, a j.castSucc * b j.castSucc)
        + a (Fin.last D) * b (Fin.last D) := by
  obtain ⟨-, -, h3, h4⟩ := ggpushxto0_curved g a (-1) hg ha
  rw [mulPoint_apply]
  unfold gpushxto0
  simp only [h3, h4, Finset.mul_sum]
  congr 1
  exact Finset.sum_congr rfl (fun j _ => by ring)

variable [CMath K]

/-- In a curved geometry `hdist0` reads the last coordinate only. -/
theorem hdist0_congr_last (g : Geometry) (hg : euclid g = false) (p q : hyperpoint D K)
    (h : p (Fin.last D) = q (Fin.last D)) : hdist0 g p = hdist0 g q := by
  rcases g with ⟨c, e⟩
  cases c
  · simp only [hdist0, h]
  · simp [euclid] at hg
  · simp only [hdist0, h]

theorem hdist_symm_flat (g : Geometry) (hg : euclid g = true) (a b : hyperpoint D K)
    (ha : a (Fin.last D) = 1) (hb : b (Fin.last D) = 1) : hdist g a b = hdist g b a := by
  have hc : g.cgclass = eGeometryClass.gcEuclid := by
    rcases g with ⟨c, e⟩
    cases c <;> simp [euclid] at hg
    rfl
  obtain ⟨h1, h2, -⟩ := ggpushxto0_flat g a (-1) hg
  obtain ⟨k1, k2, -⟩ := ggpushxto0_flat g b (-1) hg
  simp only [hdist, hdist0, hc]
  rw [sqhypot_d_DIM, sqhypot_d_DIM]
  refine Finset.sum_congr rfl (fun i _ => ?_)
  have e1 : mulPoint (gpushxto0 g a) b i.castSucc = b i.castSucc - a i.castSucc := by
    rw [mulPoint_apply]
    unfold gpushxto0
    simp [h1, h2, hb]
    ring
  have e2 : mulPoint (gpushxto0 g b) a i.castSucc = a i.castSucc - b i.castSucc := by
    rw [mulPoint_apply]
    unfold gpushxto0
    simp [k1, k2, ha]
    ring
  rw [e1, e2]
  ring

/-- In a curved geometry the origin `C0` takes the guard, `gpushxto0(C0) = Id`, and a push of
a point `b` outside the guard keeps the last coordinate of `C0` at `b[DIM]`: the distance
between `C0` and `b` is `hdist0(b)` in both orders. -/
theorem hdist_C0_symm (g : Geometry) (hg : euclid g = false) (b : hyperpoint D K)
    (hb : (1e-12 : K) ≤ sqhypot_d b D) : hdist g C0 b = hdist g b C0 := by
  have h0 : sqhypot_d (C0 : hyperpoint D K) D < (1e-12 : K) := by
    rw [sqhypot_d_C0]
    norm_num
  unfold hdist
  rw [gpushxto0, ggpushxto0_guard g _ _ hg h0, mulPoint_Id]
  refine hdist0_congr_last g hg _ _ ?_
  rw [gpushxto0_mul_last g hg b C0 hb]
  simp [C0, (Fin.castSucc_lt_last _).ne]

/-- C8 (as amended): `hdist(a, b) = hdist(b, a)` for all points `a`, `b` on the active
manifold, in flat geometry, and in hyperbolic or spherical geometry when each of `a` and `b`
either does not take the near-zero guard of `ggpushxto0` (`a[0]^2 + ... + a[DIM-1]^2 >= 1e-12`,
and the same for `b`) or is the origin `C0` itself. -/
theorem hdist_symm (g : Geometry) (a b : hyperpoint D K) (ha : OnManifold g a)
    (hb : OnManifold g b)
    (hguard : euclid g = true ∨
      (((1e-12 : K) ≤ sqhypot_d a D ∨ a = C0) ∧ ((1e-12 : K) ≤ sqhypot_d b D ∨ b = C0))) :
    hdist g a b = hdist g b a := by
  by_cases hg : euclid g = true
  · have hc : g.cgclass = eGeometryClass.gcEuclid := by
      rcases g with ⟨c, e⟩
      cases c <;> simp [euclid] at hg
      rfl
    simp only [OnManifold, hc] at ha hb
    exact hdist_symm_flat g hg a b ha hb
  · have hg' : euclid g = false := by simpa using hg
    rcases hguard with h | ⟨h1 | h1, h2 | h2⟩
    · exact absurd h hg
    · unfold hdist
      refine hdist0_congr_last g hg' _ _ ?_
      rw [gpushxto0_mul_last g hg' a b h1, gpushxto0_mul_last g hg' b a h2]
      congr 1
      · congr 1
        exact Finset.sum_congr rfl (fun j _ => by ring)
      · ring
    · rw [h2]
      exact (hdist_C0_symm g hg' a h1).symm
    · rw [h1]
      exact hdist_C0_symm g hg' b h2
    · rw [h1, h2]

end Distance

section DistanceReal

/-- C8 at the origin and a concrete hyperbolic point outside the guard. -/
theorem hdist_symm_witness :
    OnManifold hyperbolicGeometry (C0 : hyperpoint 2 ℝ) ∧
    OnManifold hyperbolicGeometry (![0, 4/3, 5/3] : hyperpoint 2 ℝ) ∧
    hdist hyperbolicGeometry (C0 : hyperpoint 2 ℝ) ![0, 4/3, 5/3]
      = hdist hyperbolicGeometry (![0, 4/3, 5/3] : hyperpoint 2 ℝ) C0 :=
  have ha : OnManifold hyperbolicGeometry (C0 : hyperpoint 2 ℝ) := by
    simp only [OnManifold, hyperbolicGeometry, sum_filter_lt, Fin.sum_univ_two, last_dim2]
    simp [C0, Fin.ext_iff, Fin.last]
  have hb : OnManifold hyperbolicGeometry (![0, 4/3, 5/3] : hyperpoint 2 ℝ) := by
    simp only [OnManifold, hyperbolicGeometry, sum_filter_lt, Fin.sum_univ_two, last_dim2]
    norm_num
  ⟨ha, hb, hdist_symm _ _ _ ha hb (Or.inr ⟨Or.inr rfl,
    Or.inl (by rw [sqhypot_d_dim2]; norm_num)⟩)⟩

/-- C8 fails as stated: the hyperbolic point `a = (x, 0, z)` with `x = 2e7 / (1e14 - 1)` and
`z = (1e14 + 1) / (1e14 - 1)` takes the near-zero guard, so `hdist(a, b) = hdist0(b)
= acosh(5/4)` for `b = (3/4, 0, 5/4)`, while `hdist(b, a) = acosh(5/4 * z - 3/4 * x)`. -/
theorem hdist_symm_counterexample :
    OnManifold hyperbolicGeometry
      (![20000000/99999999999999, 0, 100000000000001/99999999999999] : hyperpoint 2 ℝ) ∧
    OnManifold hyperbolicGeometry (![3/4, 0, 5/4] : hyperpoint 2 ℝ) ∧
    hdist hyperbolicGeometry
        (![20000000/99999999999999, 0, 100000000000001/99999999999999] : hyperpoint 2 ℝ)
        ![3/4, 0, 5/4]
      ≠ hdist hyperbolicGeometry (![3/4, 0, 5/4] : hyperpoint 2 ℝ)
        ![20000000/99999999999999, 0, 100000000000001/99999999999999] := by
  refine ⟨?_, ?_, ?_⟩
  · simp only [OnManifold, hyperbolicGeometry, sum_filter_lt, Fin.sum_univ_two, last_dim2]
    norm_num
  · simp only [OnManifold, hyperbolicGeometry, sum_filter_lt, Fin.sum_univ_two, last_dim2]
    norm_num
  · have hs : sqhypot_d (![20000000/99999999999999, 0, 100000000000001/99999999999999] :
        hyperpoint 2 ℝ) 2 < (1e-12 : ℝ) := by
      rw [sqhypot_d_dim2]
      norm_num
    have hb : (1e-12 : ℝ) ≤ sqhypot_d (![3/4, 0, 5/4] : hyperpoint 2 ℝ) 2 := by
      rw [sqhypot_d_dim2]
      norm_num
    have h1 : hdist hyperbolicGeometry
        (![20000000/99999999999999, 0, 100000000000001/99999999999999] : hyperpoint 2 ℝ)
        ![3/4, 0, 5/4] = CMath.acosh (5/4 : ℝ) := by
      unfold hdist
      rw [gpushxto0, ggpushxto0_guard _ _ _ (by rfl) hs, mulPoint_Id]
      simp only [hdist0, hyperbolicGeometry, last_dim2]
      norm_num
    have h2 : hdist hyperbolicGeometry (![3/4, 0, 5/4] : hyperpoint 2 ℝ)
        ![20000000/99999999999999, 0, 100000000000001/99999999999999]
        = CMath.acosh (499999940000005/399999999999996 : ℝ) := by
      unfold hdist
      have hl := gpushxto0_mul_last hyperbolicGeometry (by rfl) (![3/4, 0, 5/4] : hyperpoint 2 ℝ)
        ![20000000/99999999999999, 0, 100000000000001/99999999999999] hb
      simp only [Fin.sum_univ_two, last_dim2] at hl
      have hl' : mulPoint (gpushxto0 hyperbolicGeometry (![3/4, 0, 5/4] : hyperpoint 2 ℝ))
          ![20000000/99999999999999, 0, 100000000000001/99999999999999] (Fin.last 2)
          = 499999940000005/399999999999996 := by
        rw [hl]
        simp [curvature, hyperbolicGeometry]
        norm_num
      rw [hdist0_congr_last hyperbolicGeometry (by rfl) _
        (![0, 0, 499999940000005/399999999999996] : hyperpoint 2 ℝ) (by rw [hl']; rfl)]
      simp only [hdist0, hyperbolicGeometry, last_dim2]
      norm_num
    rw [h1, h2]
    intro h
    have e1 := (cosh_sinh_acosh (5/4 : ℝ) (by norm_num)).1
    have e2 := (cosh_sinh_acosh (499999940000005/399999999999996 : ℝ) (by norm_num)).1
    rw [h, e2] at e1
    norm_num at e1

/-- The same guard is taken by the antipode `(0, 0, -1)` of the origin in spherical geometry
(quotient mode off), a point at distance `pi` from the origin: there
`hdist((0,0,-1), b) = acos(4/5)` while `hdist(b, (0,0,-1)) = acos(-4/5)` for `b = (3/5, 0, 4/5)`.
The amended statement of C8 says nothing about this point. -/
theorem hdist_antipode_not_symm :
    OnManifold sphericalGeometry (![0, 0, -1] : hyperpoint 2 ℝ) ∧
    OnManifold sphericalGeometry (![3/5, 0, 4/5] : hyperpoint 2 ℝ) ∧
    hdist sphericalGeometry (![0, 0, -1] : hyperpoint 2 ℝ) ![3/5, 0, 4/5]
      ≠ hdist sphericalGeometry (![3/5, 0, 4/5] : hyperpoint 2 ℝ) ![0, 0, -1] := by
  refine ⟨?_, ?_, ?_⟩
  · simp only [OnManifold, sphericalGeometry]
    rw [Fin.sum_univ_castSucc, Fin.sum_univ_two]
    simp only [last_dim2]
    norm_num
  · simp only [OnManifold, sphericalGeometry]
    rw [Fin.sum_univ_castSucc, Fin.sum_univ_two]
    simp only [last_dim2]
    norm_num
  · have hs : sqhypot_d (![0, 0, -1] : hyperpoint 2 ℝ) 2 < (1e-12 : ℝ) := by
      rw [sqhypot_d_dim2]
      norm_num
    have hb : (1e-12 : ℝ) ≤ sqhypot_d (![3/5, 0, 4/5] : hyperpoint 2 ℝ) 2 := by
      rw [sqhypot_d_dim2]
      norm_num
    have h1 : hdist sphericalGeometry (![0, 0, -1] : hyperpoint 2 ℝ) ![3/5, 0, 4/5]
        = Real.arccos (4/5) := by
      unfold hdist
      rw [gpushxto0, ggpushxto0_guard _ _ _ (by rfl) hs, mulPoint_Id]
      simp only [hdist0, sphericalGeometry, last_dim2]
      norm_num
    have h2 : hdist sphericalGeometry (![3/5, 0, 4/5] : hyperpoint 2 ℝ) ![0, 0, -1]
        = Real.arccos (-(4/5)) := by
      unfold hdist
      have hl := gpushxto0_mul_last sphericalGeometry (by rfl) (![3/5, 0, 4/5] : hyperpoint 2 ℝ)
        ![0, 0, -1] hb
      simp only [Fin.sum_univ_two, last_dim2] at hl
      have hl' : mulPoint (gpushxto0 sphericalGeometry (![3/5, 0, 4/5] : hyperpoint 2 ℝ))
          ![0, 0, -1] (Fin.last 2) = -(4/5) := by
        rw [hl]
        simp
      rw [hdist0_congr_last sphericalGeometry (by rfl) _ (![0, 0, -(4/5)] : hyperpoint 2 ℝ)
        (by rw [hl']; rfl)]
      simp only [hdist0, sphericalGeometry, last_dim2]
      norm_num
    rw [h1, h2, Real.arccos_neg]
    intro h
    have hlt : Real.arccos (4/5) < Real.pi / 2 := by
      rw [Real.arccos_lt_pi_div_two]
      norm_num
    linarith

/-- In spherical geometry (quotient mode off) the antipode of the origin is returned at
distance `pi` from itself: the guard leaves it in place and `hdist0` reads `acos(-1)`. -/
theorem hdist_antipode_self :
    hdist sphericalGeometry (![0, 0, -1] : hyperpoint 2 ℝ) ![0, 0, -1] = Real.pi := by
  have hs : sqhypot_d (![0, 0, -1] : hyperpoint 2 ℝ) 2 < (1e-12 : ℝ) := by
    rw [sqhypot_d_dim2]
    norm_num
  unfold hdist
  rw [gpushxto0, ggpushxto0_guard _ _ _ (by rfl) hs, mulPoint_Id]
  simp only [hdist0, sphericalGeometry, last_dim2]
  norm_num

end DistanceReal

/-! ## C9: the signature -/

/-- C9 (as amended): `sig(i) = -1` exactly when the geometry is not spherical and `i` is not
below `DIM`; hence in spherical geometry every index has weight `+1`, while in hyperbolic and
in flat geometry the indices below `DIM` have weight `+1` and the index `DIM` has weight `-1`. -/
theorem sig_eq_neg_one_iff (D : ℕ) (g : Geometry) (i : ℕ) :
    (sig D g i = -1 ↔ (sphere g = false ∧ D ≤ i)) ∧
    (sig D g i = 1 ↔ (sphere g = true ∨ i < D)) := by
  unfold sig
  by_cases hs : sphere g = true <;> by_cases hi : i < D <;> simp [hs, hi] <;> omega

/-- C9 fails as stated: in flat geometry with `DIM = 2` the last index has weight `-1`. -/
theorem sig_flat_last_counterexample :
    ¬ (∀ i : ℕ, i ≤ 2 → sig 2 flatGeometry i = 1) := by
  intro h
  have := h 2 (le_refl 2)
  revert this
  decide

/-! ## C10: the affine row after the flat branch of `fixmatrix` -/

section FixmatrixFlat

/-- With `DIM = 2` the flat branch of `fixmatrix` leaves the affine row `(0, 0, 1)`. -/
theorem fixmatrix_flat_dim2_affine_row (T : transmatrix 2 ℝ) :
    fixmatrix flatGeometry T 2 = ![0, 0, 1] := by
  unfold fixmatrix
  simp only [euclid, flatGeometry, decide_True, if_true]
  generalize forRange 2 0 2
    (fun x T => forRange 2 0 (x.val + 1) (fun y T => fixmatrix_euclid_step x y T) T) T = T'
  funext j
  fin_cases j <;> simp [forRange, setEntry]

/-- With `DIM = 3` the flat branch of `fixmatrix` never writes to the affine row (row `3`):
its loops run over the rows below `DIM`, and the final assignments address row `2`. -/
theorem fixmatrix_flat_dim3_affine_row (T : transmatrix 3 ℝ) (j : Fin 4) :
    fixmatrix flatGeometry T 3 j = T 3 j := by
  unfold fixmatrix
  simp only [euclid, flatGeometry, decide_True, if_true]
  have h1 : ∀ j, forRange 3 0 3
      (fun x T => forRange 3 0 (x.val + 1) (fun y T => fixmatrix_euclid_step x y T) T) T 3 j
        = T 3 j := by
    refine forRange_preserves (fun T' : transmatrix 3 ℝ => ∀ j, T' 3 j = T 3 j) 0 3 _ T
      (fun _ => rfl) (fun x S hS => ?_)
    refine forRange_preserves (fun T' : transmatrix 3 ℝ => ∀ j, T' 3 j = T 3 j) 0 _ _ S hS
      (fun y S' hS' j => ?_)
    rw [← hS' j]
    have h33 : ¬ ((3 : Fin (3 + 1)).val < 3) := by decide
    simp only [fixmatrix_euclid_step, h33, false_and, if_false]
  have h2 : ∀ j, forRange 3 0 3 (fun x T => setEntry T 2 x 0)
      (forRange 3 0 3
        (fun x T => forRange 3 0 (x.val + 1) (fun y T => fixmatrix_euclid_step x y T) T) T) 3 j
        = T 3 j := by
    refine forRange_preserves (fun T' : transmatrix 3 ℝ => ∀ j, T' 3 j = T 3 j) 0 3 _ _ h1
      (fun x S hS j => ?_)
    rw [← hS j]
    have h32 : ¬ (3 : Fin 4) = 2 := by decide
    simp [setEntry, h32]
  have h32 : ¬ (3 : Fin 4) = 2 := by decide
  simp only [setEntry, h32, false_and, if_false]
  exact h2 j

/-- C10 fails with `DIM = 3`: on a matrix whose affine row has drifted to `(1/1000, 0, 0, 1)`,
`fixmatrix` in flat geometry returns a matrix with the same affine row, not `(0, 0, 0, 1)`. -/
theorem fixmatrix_flat_dim3_affine_row_drift :
    fixmatrix flatGeometry
        (!![1, 0, 0, 0; 0, 1, 0, 0; 0, 0, 1, 0; 1/1000, 0, 0, 1] : transmatrix 3 ℝ) 3
      = ![1/1000, 0, 0, 1] ∧
    fixmatrix flatGeometry
        (!![1, 0, 0, 0; 0, 1, 0, 0; 0, 0, 1, 0; 1/1000, 0, 0, 1] : transmatrix 3 ℝ) 3
      ≠ ![0, 0, 0, 1] := by
  have h : fixmatrix flatGeometry
        (!![1, 0, 0, 0; 0, 1, 0, 0; 0, 0, 1, 0; 1/1000, 0, 0, 1] : transmatrix 3 ℝ) 3
      = ![1/1000, 0, 0, 1] := by
    funext j
    rw [fixmatrix_flat_dim3_affine_row]
    fin_cases j <;> rfl
  refine ⟨h, ?_⟩
  rw [h]
  intro hEq
  have := congrFun hEq 0
  norm_num at this

end FixmatrixFlat

/-! ## C11: the closed form agrees with rotate-push-rotate (`DIM == 2`) -/

section ClosedForm

/-- C11: with `DIM = 2`, in hyperbolic geometry and in spherical geometry with the quotient
mode off, for every point `H` of the manifold with `H[0]^2 + H[1]^2 >= 1e-12`,
`rgpushxto0(H) = rspintox(H) * xpush(hdist0(H)) * spintox(H)` and
`gpushxto0(H) = rspintox(H) * xpush(-hdist0(H)) * spintox(H)`. -/
theorem closed_form_eq_composition (g : Geometry)
    (hg : g.cgclass = eGeometryClass.gcHyperbolic ∨
      (g.cgclass = eGeometryClass.gcSphere ∧ g.elliptic = false))
    (H : hyperpoint 2 ℝ) (hH : OnManifold g H) (hs : (1e-12 : ℝ) ≤ H 0 ^ 2 + H 1 ^ 2) :
    rgpushxto0 g H = mulMatrix (mulMatrix (rspintox H) (xpush g (hdist0 g H))) (spintox H) ∧
    gpushxto0 g H = mulMatrix (mulMatrix (rspintox H) (xpush g (-hdist0 g H))) (spintox H) := by
  have hg' : euclid g = false := by
    rcases hg with h | ⟨h, -⟩ <;> simp [euclid, h]
  obtain ⟨hc, hsn⟩ := cos_sin_auto_hdist0 g hg H hH
  obtain ⟨hcn, hsnn⟩ := cos_sin_auto_neg g (hdist0 g H)
  constructor
  · rw [rgpushxto0, ggpushxto0_eq_product g hg' H 1 hs, xpush_dim2, hc, hsn]
    simp only [one_mul]
  · rw [gpushxto0, ggpushxto0_eq_product g hg' H (-1) hs, xpush_dim2, hcn, hsnn, hc, hsn]
    simp only [neg_one_mul]

/-- C11 at the hyperbolic point `(3/4, 0, 5/4)`. -/
theorem closed_form_eq_composition_witness :
    OnManifold hyperbolicGeometry (![3/4, 0, 5/4] : hyperpoint 2 ℝ) ∧
    rgpushxto0 hyperbolicGeometry (![3/4, 0, 5/4] : hyperpoint 2 ℝ)
      = mulMatrix (mulMatrix (rspintox ![3/4, 0, 5/4])
          (xpush hyperbolicGeometry (hdist0 hyperbolicGeometry ![3/4, 0, 5/4])))
          (spintox ![3/4, 0, 5/4]) ∧
    gpushxto0 hyperbolicGeometry (![3/4, 0, 5/4] : hyperpoint 2 ℝ)
      = mulMatrix (mulMatrix (rspintox ![3/4, 0, 5/4])
          (xpush hyperbolicGeometry (-hdist0 hyperbolicGeometry ![3/4, 0, 5/4])))
          (spintox ![3/4, 0, 5/4]) :=
  have hH : OnManifold hyperbolicGeometry (![3/4, 0, 5/4] : hyperpoint 2 ℝ) := by
    simp only [OnManifold, hyperbolicGeometry, sum_filter_lt, Fin.sum_univ_two, last_dim2]
    norm_num
  ⟨hH, closed_form_eq_composition hyperbolicGeometry (Or.inl rfl) _ hH (by norm_num)⟩

end ClosedForm

/-! ## C12: a quarter rotation in flat geometry -/

section QuarterRotation

/-- The entries of `spin(alpha)` with `DIM = 2`. -/
theorem spin_dim2 (alpha : ℝ) :
    (spin alpha : transmatrix 2 ℝ)
      = !![Real.cos alpha, Real.sin alpha, 0; -Real.sin alpha, Real.cos alpha, 0; 0, 0, 1] := by
  ext i j
  fin_cases i <;> fin_cases j <;> simp [spin, cspin, setEntry, Id_apply]

/-- C12 (as amended): in flat geometry with `DIM = 2`, `spin(pi/2) * (1, 0, 1) = (0, -1, 1)`:
`cspin` puts `+sin` above the diagonal, so a positive angle turns the first axis towards the
negative second axis. -/
theorem spin_quarter_turn :
    mulPoint (spin (Real.pi / 2) : transmatrix 2 ℝ) ![1, 0, 1] = ![0, -1, 1] := by
  rw [spin_dim2]
  funext i
  fin_cases i <;> simp [mulPoint, Fin.sum_univ_three]

/-- C12 fails as stated: `spin(pi/2) * (1, 0, 1)` is not `(0, 1, 1)`. -/
theorem spin_quarter_turn_counterexample :
    mulPoint (spin (Real.pi / 2) : transmatrix 2 ℝ) ![1, 0, 1] ≠ ![0, 1, 1] := by
  rw [spin_dim2]
  intro h
  have h1 := congrFun h 1
  simp [mulPoint, Fin.sum_univ_three] at h1
  norm_num at h1

end QuarterRotation

/-! ## C13: a push of `x` units lands at distance `x` (hyperbolic) -/

section PushDistance

variable {D : ℕ}

/-- C13: in hyperbolic geometry, for every axis `c < DIM` and every real `x >= 0`,
`hdist0(cpush0(c, x)) = x`. -/
theorem hdist0_cpush0 (g : Geometry) (hg : g.cgclass = eGeometryClass.gcHyperbolic)
    (c : Fin (D + 1)) (hc : c.val < D) (x : ℝ) (hx : 0 ≤ x) :
    hdist0 g (cpush0 g c x) = x := by
  have hlast : cpush0 g c x (Fin.last D) = Real.cosh x := by
    rw [cpush0_last g c hc]
    simp [cos_auto, hg]
  have hge : ¬ Real.cosh x < 1 := not_lt.mpr (Real.one_le_cosh x)
  simp only [hdist0, hg, hlast, hge, if_false]
  exact acosh_cosh x hx

/-- C13 at the unit push along axis `0` with `DIM = 2`: `hdist0(cpush0(0, 1)) = 1`. -/
theorem hdist0_cpush0_witness :
    hdist0 hyperbolicGeometry (cpush0 hyperbolicGeometry (0 : Fin 3) (1 : ℝ)) = 1 :=
  hdist0_cpush0 hyperbolicGeometry rfl 0 (by decide) 1 (by norm_num)

end PushDistance

/-! ## C14: antipodal points in the quotient mode -/

section Antipodal

variable {D : ℕ} {K : Type} [LinearOrderedField K]

/-- C14: in spherical geometry with the quotient (elliptic) mode on, for every point `p` of the
sphere (`p[0]^2 + ... + p[DIM]^2 = 1`), `intval(p, -p) = intval(p, p) = 0`. -/
theorem intval_antipodal (g : Geometry) (hg : g.cgclass = eGeometryClass.gcSphere)
    (he : g.elliptic = true) (p : hyperpoint D K) (hp : ∑ i : Fin (D + 1), p i ^ 2 = 1) :
    intval g p (negPoint p) = 0 ∧ intval g p p = 0 := by
  have hsig : ∀ i : Fin (D + 1), ((sig D g i : ℤ) : K) = 1 := by
    intro i
    simp [sig, sphere, hg]
  have hfour : ∑ i : Fin (D + 1), (p i + p i) * (p i + p i) = 4 := by
    have : ∑ i : Fin (D + 1), (p i + p i) * (p i + p i) = 4 * ∑ i : Fin (D + 1), p i ^ 2 := by
      rw [Finset.mul_sum]
      exact Finset.sum_congr rfl (fun i _ => by ring)
    rw [this, hp, mul_one]
  constructor
  · simp only [intval, he, if_true, negPoint, squar, hsig, mul_one, sub_neg_eq_add,
      add_neg_cancel, mul_zero, Finset.sum_const_zero, hfour]
    exact min_eq_right (by norm_num)
  · simp only [intval, he, if_true, squar, hsig, mul_one, sub_self, mul_zero,
      Finset.sum_const_zero, hfour]
    exact min_eq_left (by norm_num)

/-- C14 at the point `(3/5, 0, 4/5)` of the sphere. -/
theorem intval_antipodal_witness :
    ∑ i : Fin (2 + 1), (![3/5, 0, 4/5] : hyperpoint 2 ℝ) i ^ 2 = 1 ∧
    intval ⟨eGeometryClass.gcSphere, true⟩ (![3/5, 0, 4/5] : hyperpoint 2 ℝ)
      (negPoint ![3/5, 0, 4/5]) = 0 ∧
    intval ⟨eGeometryClass.gcSphere, true⟩ (![3/5, 0, 4/5] : hyperpoint 2 ℝ) ![3/5, 0, 4/5] = 0 :=
  have hp : ∑ i : Fin (2 + 1), (![3/5, 0, 4/5] : hyperpoint 2 ℝ) i ^ 2 = 1 := by
    rw [Fin.sum_univ_castSucc, Fin.sum_univ_two]
    simp only [last_dim2]
    norm_num
  ⟨hp, intval_antipodal ⟨eGeometryClass.gcSphere, true⟩ rfl rfl _ hp⟩

end Antipodal

/-! ## C15: `spintox` rotates a point onto the first axis (`DIM == 2`) -/

section Spintox

/-- C15: with `DIM = 2`, for every `H` with `hypot(H[0], H[1]) >= 1e-12` the point
`P = spintox(H) * H` has `P[1] = 0`, `P[0] = hypot(H[0], H[1]) >= 0` and `P[2] = H[2]`; and for
every `H` with `hypot(H[0], H[1]) < 1e-12`, `spintox(H) = Id`. -/
theorem spintox_onto_first_axis (H : hyperpoint 2 ℝ) :
    ((CMath.hypot (H 0) (H 1) : ℝ) ≥ 1e-12 →
      mulPoint (spintox H) H 1 = 0 ∧
      mulPoint (spintox H) H 0 = CMath.hypot (H 0) (H 1) ∧
      0 ≤ (CMath.hypot (H 0) (H 1) : ℝ) ∧
      mulPoint (spintox H) H 2 = H 2) ∧
    ((CMath.hypot (H 0) (H 1) : ℝ) < 1e-12 → spintox H = Id) := by
  refine ⟨fun hR => ?_, fun hR => (spintox_dim2_guard H hR).1⟩
  have hsq := hypot_mul_self (H 0) (H 1)
  have hpos : (0 : ℝ) < CMath.hypot (H 0) (H 1) := lt_of_lt_of_le (by norm_num) hR
  have hne : (CMath.hypot (H 0) (H 1) : ℝ) ≠ 0 := hpos.ne'
  rw [spintox_dim2 H hR]
  generalize (CMath.hypot (H 0) (H 1) : ℝ) = R at *
  refine ⟨?_, ?_, hpos.le, ?_⟩
  · simp [mulPoint, Fin.sum_univ_three]
    field_simp
    ring
  · simp [mulPoint, Fin.sum_univ_three]
    field_simp
    linarith
  · simp [mulPoint, Fin.sum_univ_three]

end Spintox

/-! ## C16: `inverse` by elimination is a two-sided inverse (`DIM == 3`) -/

section InverseDim3

variable {K : Type} [LinearOrderedField K]

/-- C16: with `DIM = 3`, for every 4 × 4 matrix `T` with non-zero determinant over a linearly
ordered field (in particular over the reals), `inverse(T)`, computed by the elimination with
row exchanges, the back-substitution and the row scaling, satisfies `inverse(T) * T = Id` and
`T * inverse(T) = Id`. -/
theorem inverse_dim3_two_sided (T : transmatrix 3 K) (hT : Matrix.det T ≠ 0) :
    mulMatrix (inverse T) T = Id ∧ mulMatrix T (inverse T) = Id :=
  inverse_two_sided_of_ne_two (by decide) T hT

theorem inverse_dim3_two_sided_witness :
    Matrix.det (!![0, 2, 1, 0; 1, 0, 0, 3; 0, 0, 0, 1; 2, 1, 1, 1] : transmatrix 3 ℝ) ≠ 0 ∧
    mulMatrix (inverse (!![0, 2, 1, 0; 1, 0, 0, 3; 0, 0, 0, 1; 2, 1, 1, 1] : transmatrix 3 ℝ))
        (!![0, 2, 1, 0; 1, 0, 0, 3; 0, 0, 0, 1; 2, 1, 1, 1] : transmatrix 3 ℝ) = Id ∧
      mulMatrix (!![0, 2, 1, 0; 1, 0, 0, 3; 0, 0, 0, 1; 2, 1, 1, 1] : transmatrix 3 ℝ)
        (inverse (!![0, 2, 1, 0; 1, 0, 0, 3; 0, 0, 0, 1; 2, 1, 1, 1] : transmatrix 3 ℝ)) = Id :=
  have h : Matrix.det (!![0, 2, 1, 0; 1, 0, 0, 3; 0, 0, 0, 1; 2, 1, 1, 1] : transmatrix 3 ℝ)
      ≠ 0 := by
    simp [Matrix.det_succ_row_zero, Fin.sum_univ_succ, Matrix.det_fin_three, Fin.succAbove]
    norm_num
  ⟨h, inverse_dim3_two_sided _ h⟩

end InverseDim3

/-! ## C17: `det` by elimination is the determinant (`DIM == 3`) -/

section DetDim3

variable {K : Type} [LinearOrderedField K]

/-- C17: with `DIM = 3`, `det(T)` computed by elimination equals the determinant of `T`, for
every 4 × 4 matrix `T` over a linearly ordered field (in particular over the reals). -/
theorem det_dim3_eq_det (T : transmatrix 3 K) : det T = Matrix.det T :=
  det_eq_det_of_ne_two (by decide) T

end DetDim3

/-! ## C18: `mid_at_actual` between the origin and a point (`DIM == 2`) -/

section MidAtActual

/-- The coordinates of `xpush0(x)` with `DIM = 2`. -/
theorem xpush0_dim2 (g : Geometry) (x : ℝ) :
    (xpush0 g x : hyperpoint 2 ℝ) = ![sin_auto g x, 0, cos_auto g x] := by
  funext i
  have l2 : Fin.last 2 = (2 : Fin 3) := rfl
  fin_cases i <;> simp [xpush0, cpush0, setCoord, Hypc, l2, Fin.ext_iff]

/-- The coordinates of `mid_at_actual(H, v)` outside the guard of `rspintoc`, with
`d = hdist0(H) * v` and `R = hypot(H[0], H[1])`. -/
theorem mid_at_actual_dim2 (g : Geometry) (H : hyperpoint 2 ℝ) (v : ℝ)
    (hR : (CMath.hypot (H 0) (H 1) : ℝ) ≥ 1e-12) :
    mid_at_actual g H v
      = ![H 0 / CMath.hypot (H 0) (H 1) * sin_auto g (hdist0 g H * v),
          H 1 / CMath.hypot (H 0) (H 1) * sin_auto g (hdist0 g H * v),
          cos_auto g (hdist0 g H * v)] := by
  rw [mid_at_actual, rspintox_dim2 H hR, xpush0_dim2]
  funext i
  fin_cases i <;> simp [mulPoint, Fin.sum_univ_three, Matrix.vecHead, Matrix.vecTail]

/-- At `v = 0`, `mid_at_actual` is the origin, in every geometry. -/
theorem mid_at_actual_zero (g : Geometry) (H : hyperpoint 2 ℝ)
    (hR : (CMath.hypot (H 0) (H 1) : ℝ) ≥ 1e-12) : mid_at_actual g H 0 = C0 := by
  obtain ⟨hc, hs⟩ := cos_sin_auto_zero g
  rw [mid_at_actual_dim2 g H 0 hR, mul_zero, hc, hs]
  funext i
  have l2 : Fin.last 2 = (2 : Fin 3) := rfl
  fin_cases i <;> simp [C0, l2, Fin.ext_iff]

/-- At `v = 1`, in hyperbolic geometry and in spherical geometry with the quotient mode off,
`mid_at_actual` is its argument. -/
theorem mid_at_actual_one_curved (g : Geometry)
    (hg : g.cgclass = eGeometryClass.gcHyperbolic ∨
      (g.cgclass = eGeometryClass.gcSphere ∧ g.elliptic = false))
    (H : hyperpoint 2 ℝ) (hH : OnManifold g H)
    (hR : (CMath.hypot (H 0) (H 1) : ℝ) ≥ 1e-12) : mid_at_actual g H 1 = H := by
  obtain ⟨hc, hs⟩ := cos_sin_auto_hdist0 g hg H hH
  have hpos : (0 : ℝ) < CMath.hypot (H 0) (H 1) := lt_of_lt_of_le (by norm_num) hR
  rw [mid_at_actual_dim2 g H 1 hR, mul_one, hc, hs]
  generalize (CMath.hypot (H 0) (H 1) : ℝ) = R at *
  funext i
  fin_cases i <;> simp [hpos.ne']

/-- At `v = 1` in flat geometry `hdist0` is the squared distance `R^2`, so `mid_at_actual`
returns `(H[0] * R, H[1] * R, 1)` with `R = hypot(H[0], H[1])`. -/
theorem mid_at_actual_one_flat (g : Geometry) (hg : g.cgclass = eGeometryClass.gcEuclid)
    (H : hyperpoint 2 ℝ) (hR : (CMath.hypot (H 0) (H 1) : ℝ) ≥ 1e-12) :
    mid_at_actual g H 1
      = ![H 0 * CMath.hypot (H 0) (H 1), H 1 * CMath.hypot (H 0) (H 1), 1] := by
  have hpos : (0 : ℝ) < CMath.hypot (H 0) (H 1) := lt_of_lt_of_le (by norm_num) hR
  have hR2 := hypot_mul_self (H 0) (H 1)
  have hd : hdist0 g H = CMath.hypot (H 0) (H 1) * CMath.hypot (H 0) (H 1) := by
    simp only [hdist0, hg]
    rw [sqhypot_d_two, hR2]
  rw [mid_at_actual_dim2 g H 1 hR, mul_one, hd]
  simp only [sin_auto, cos_auto, hg]
  generalize (CMath.hypot (H 0) (H 1) : ℝ) = R at *
  funext i
  fin_cases i <;> simp <;> field_simp <;> ring

/-- C18 fails in flat geometry: for the point `H = (2, 0, 1)` of the plane,
`mid_at_actual(H, 1) = (4, 0, 1)`, not `H`. -/
theorem mid_at_actual_flat_failing :
    OnManifold flatGeometry (![2, 0, 1] : hyperpoint 2 ℝ) ∧
    (CMath.hypot ((![2, 0, 1] : hyperpoint 2 ℝ) 0) ((![2, 0, 1] : hyperpoint 2 ℝ) 1) : ℝ)
      ≥ 1e-12 ∧
    mid_at_actual flatGeometry (![2, 0, 1] : hyperpoint 2 ℝ) 1 = ![4, 0, 1] ∧
    mid_at_actual flatGeometry (![2, 0, 1] : hyperpoint 2 ℝ) 1 ≠ ![2, 0, 1] := by
  have hh : (CMath.hypot ((![2, 0, 1] : hyperpoint 2 ℝ) 0) ((![2, 0, 1] : hyperpoint 2 ℝ) 1) : ℝ)
      = 2 := by
    rw [cmath_hypot]
    have : ((![2, 0, 1] : hyperpoint 2 ℝ) 0) ^ 2 + ((![2, 0, 1] : hyperpoint 2 ℝ) 1) ^ 2
        = (2 : ℝ) ^ 2 := by
      simp
    rw [this]
    exact Real.sqrt_sq (by norm_num)
  have hR : (CMath.hypot ((![2, 0, 1] : hyperpoint 2 ℝ) 0) ((![2, 0, 1] : hyperpoint 2 ℝ) 1) : ℝ)
      ≥ 1e-12 := by
    rw [hh]
    norm_num
  have hval : mid_at_actual flatGeometry (![2, 0, 1] : hyperpoint 2 ℝ) 1 = ![4, 0, 1] := by
    rw [mid_at_actual_one_flat flatGeometry rfl _ hR, hh]
    funext i
    fin_cases i <;> norm_num
  refine ⟨rfl, hR, hval, ?_⟩
  rw [hval]
  intro h
  have h0 := congrFun h 0
  norm_num at h0

end MidAtActual

/-! ## C19: pushes along one axis compose additively -/

section PushAdditive

variable {D : ℕ}

theorem cpush_mul (g : Geometry) (c : Fin (D + 1)) (hc : c.val < D) (a b : ℝ) :
    mulMatrix (cpush g c a) (cpush g c b) = cpush g c (a + b) := by
  have hcl : c ≠ Fin.last D := by
    intro h
    rw [h] at hc
    simp at hc
  obtain ⟨hcos, hsin⟩ := cos_sin_auto_add g a b
  ext i j
  rw [plane_mul c (Fin.last D) hcl _ _ _ _ _ _ _ _ _ _ (cpush_apply g c hc a)
    (cpush_apply g c hc b), cpush_apply g c hc (a + b), hcos, hsin]
  have hlc : Fin.last D ≠ c := Ne.symm hcl
  by_cases hia : i = c
  · simp only [hia, if_true]
    by_cases hja : j = c
    · simp only [hja, if_true]
      ring
    · by_cases hjb : j = Fin.last D
      · simp only [hjb, hlc, if_false, if_true]
        ring
      · simp only [hja, hjb, if_false]
  · by_cases hib : i = Fin.last D
    · simp only [hib, hlc, if_false, if_true]
      by_cases hja : j = c
      · simp only [hja, if_true]
        ring
      · by_cases hjb : j = Fin.last D
        · simp only [hjb, hlc, if_false, if_true]
          ring
        · simp only [hja, hjb, if_false]
    · simp only [hia, hib, if_false]

theorem cpush_zero (g : Geometry) (c : Fin (D + 1)) (hc : c.val < D) :
    (cpush g c 0 : transmatrix D ℝ) = Id := by
  obtain ⟨hcos, hsin⟩ := cos_sin_auto_zero g
  have hcl : c ≠ Fin.last D := by
    intro h
    rw [h] at hc
    simp at hc
  have hlc : Fin.last D ≠ c := Ne.symm hcl
  ext i j
  rw [cpush_apply g c hc 0, hcos, hsin, Id_apply]
  by_cases hia : i = c
  · rw [hia]
    by_cases hja : j = c
    · simp [hja]
    · have hcj : ¬ c = j := fun h => hja h.symm
      by_cases hjb : j = Fin.last D <;> simp [hja, hjb, hcj, hcl, hlc]
  · by_cases hib : i = Fin.last D
    · rw [hib]
      by_cases hja : j = c
      · simp [hja, hlc]
      · by_cases hjb : j = Fin.last D
        · simp [hjb, hlc]
        · have hlj : ¬ Fin.last D = j := fun h => hjb h.symm
          simp [hja, hjb, hlj, hlc]
    · simp [hia, hib]

/-- C19: in each geometry, for every axis `c < DIM` and all reals `a`, `b`,
`cpush(c, a) * cpush(c, b) = cpush(c, a + b)` and `cpush(c, 0) = Id`; hence `cpush(c, -a)` is
the inverse of `cpush(c, a)`. -/
theorem cpush_additive (g : Geometry) (c : Fin (D + 1)) (hc : c.val < D) (a b : ℝ) :
    mulMatrix (cpush g c a) (cpush g c b) = cpush g c (a + b) ∧
    (cpush g c 0 : transmatrix D ℝ) = Id ∧
    mulMatrix (cpush g c a) (cpush g c (-a)) = Id ∧
    mulMatrix (cpush g c (-a)) (cpush g c a) = Id := by
  refine ⟨cpush_mul g c hc a b, cpush_zero g c hc, ?_, ?_⟩
  · rw [cpush_mul g c hc, add_neg_cancel, cpush_zero g c hc]
  · rw [cpush_mul g c hc, neg_add_cancel, cpush_zero g c hc]

/-- C19 at concrete inputs: spherical geometry, `DIM = 3`, axis `1`, `a = 1`, `b = 2`. -/
theorem cpush_additive_witness :
    mulMatrix (cpush sphericalGeometry (1 : Fin 4) (1 : ℝ)) (cpush sphericalGeometry 1 2)
      = cpush sphericalGeometry 1 (1 + 2) ∧
    (cpush sphericalGeometry (1 : Fin 4) 0 : transmatrix 3 ℝ) = Id ∧
    mulMatrix (cpush sphericalGeometry (1 : Fin 4) (1 : ℝ)) (cpush sphericalGeometry 1 (-1)) = Id ∧
    mulMatrix (cpush sphericalGeometry (1 : Fin 4) (-1 : ℝ)) (cpush sphericalGeometry 1 1) = Id :=
  cpush_additive sphericalGeometry 1 (by decide) 1 2

end PushAdditive

/-! ## C20: `mid` is on the manifold and equidistant from its arguments -/

section Mid

variable {D : ℕ}

/-- The interval with the quotient mode off, written as a sum. -/
theorem intval_of_not_elliptic (g : Geometry) (he : g.elliptic = false) (X Y : hyperpoint D ℝ) :
    intval g X Y = ∑ i : Fin (D + 1), (X i - Y i) * (X i - Y i) * (sig D g i : ℝ) := by
  simp [intval, he, squar]

/-- The difference of the intervals from two points to a multiple `S / Z` of their sum `S`. -/
theorem intval_sub_intval (g : Geometry) (he : g.elliptic = false) (H1 H2 : hyperpoint D ℝ)
    (Z : ℝ) :
    intval g H1 (fun c => addPoint H1 H2 c / Z) - intval g H2 (fun c => addPoint H1 H2 c / Z)
      = (1 - 2 / Z) * (intval g H1 Hypc - intval g H2 Hypc) := by
  rw [intval_of_not_elliptic g he, intval_of_not_elliptic g he, intval_Hypc, intval_Hypc,
    ← Finset.sum_sub_distrib, ← Finset.sum_sub_distrib, Finset.mul_sum]
  refine Finset.sum_congr rfl (fun i _ => ?_)
  simp only [addPoint]
  ring

/-- On the manifold of a curved geometry the quadratic form is the curvature. -/
theorem intval_Hypc_of_onManifold (g : Geometry) (hg : euclid g = false) (H : hyperpoint D ℝ)
    (hH : OnManifold g H) : intval g H Hypc = (curvature g : ℝ) := by
  have hM := onManifold_curved g H hg hH
  have hk := curvature_sq (K := ℝ) g hg
  rw [intval_Hypc, Fin.sum_univ_castSucc]
  simp only [sig_castSucc, Int.cast_one, mul_one, sig_last_curved g hg]
  rw [← sqhypot_d_DIM]
  have e : sqhypot_d H D = (curvature g : ℝ) * (1 - H (Fin.last D) ^ 2) := by
    rw [← hM, ← mul_assoc, hk, one_mul]
  rw [e]
  ring

/-- Two points of the hyperboloid have a sum with negative quadratic form. -/
theorem intval_add_neg (g : Geometry) (hg : g.cgclass = eGeometryClass.gcHyperbolic)
    (H1 H2 : hyperpoint D ℝ) (h1 : OnManifold g H1) (h2 : OnManifold g H2) :
    intval g (addPoint H1 H2) Hypc < 0 := by
  have he : euclid g = false := by simp [euclid, hg]
  have hk : (curvature g : ℝ) = -1 := by simp [curvature, hg]
  have q1 := onManifold_curved g H1 he h1
  have q2 := onManifold_curved g H2 he h2
  rw [hk, sqhypot_d_DIM] at q1 q2
  simp only [OnManifold, hg] at h1 h2
  have p1 := h1.2
  have p2 := h2.2
  have cs := Finset.sum_mul_sq_le_sq_mul_sq Finset.univ (fun i : Fin D => H1 i.castSucc)
    (fun i : Fin D => H2 i.castSucc)
  have e1 : ∑ i : Fin D, H1 i.castSucc ^ 2 = H1 (Fin.last D) ^ 2 - 1 := by
    rw [Finset.sum_congr rfl (fun i _ => sq (H1 i.castSucc))]
    linarith
  have e2 : ∑ i : Fin D, H2 i.castSucc ^ 2 = H2 (Fin.last D) ^ 2 - 1 := by
    rw [Finset.sum_congr rfl (fun i _ => sq (H2 i.castSucc))]
    linarith
  rw [e1, e2] at cs
  have hA : 1 ≤ H1 (Fin.last D) := by
    have : 0 ≤ ∑ i : Fin D, H1 i.castSucc ^ 2 := Finset.sum_nonneg (fun i _ => sq_nonneg _)
    nlinarith
  have hB : 1 ≤ H2 (Fin.last D) := by
    have : 0 ≤ ∑ i : Fin D, H2 i.castSucc ^ 2 := Finset.sum_nonneg (fun i _ => sq_nonneg _)
    nlinarith
  have hlt : ∑ i : Fin D, H1 i.castSucc * H2 i.castSucc < H1 (Fin.last D) * H2 (Fin.last D) := by
    by_contra hcon
    push_neg at hcon
    have hAB : 0 < H1 (Fin.last D) * H2 (Fin.last D) := mul_pos p1 p2
    nlinarith [mul_le_mul hcon hcon hAB.le (le_trans hAB.le hcon)]
  rw [intval_Hypc, Fin.sum_univ_castSucc]
  simp only [sig_castSucc, Int.cast_one, mul_one, sig_last_curved g he, hk, addPoint]
  have expand : ∑ i : Fin D, (H1 i.castSucc + H2 i.castSucc) * (H1 i.castSucc + H2 i.castSucc)
      = ∑ i : Fin D, H1 i.castSucc ^ 2 + ∑ i : Fin D, H2 i.castSucc ^ 2
        + 2 * ∑ i : Fin D, H1 i.castSucc * H2 i.castSucc := by
    rw [Finset.mul_sum, ← Finset.sum_add_distrib, ← Finset.sum_add_distrib]
    exact Finset.sum_congr rfl (fun i _ => by ring)
  rw [expand, e1, e2]
  nlinarith

/-- C20: in each geometry with the quotient mode off, for all points `H1`, `H2` of the manifold
(spherical: `H1 != -H2`), `M = mid(H1, H2)` lies on the manifold and
`intval(H1, M) = intval(H2, M)`. -/
theorem mid_equidistant (g : Geometry) (he : g.elliptic = false) (H1 H2 : hyperpoint D ℝ)
    (h1 : OnManifold g H1) (h2 : OnManifold g H2)
    (hanti : g.cgclass = eGeometryClass.gcSphere → H1 ≠ negPoint H2) :
    OnManifold g (mid g H1 H2) ∧ intval g H1 (mid g H1 H2) = intval g H2 (mid g H1 H2) := by
  have hdiff := intval_sub_intval g he H1 H2 (zlevel g (addPoint H1 H2))
  have hmid : mid g H1 H2 = fun c => addPoint H1 H2 c / zlevel g (addPoint H1 H2) := rfl
  cases hc : g.cgclass with
  | gcHyperbolic =>
    have hg' : euclid g = false := by simp [euclid, hc]
    have hk : (curvature g : ℝ) = -1 := by simp [curvature, hc]
    obtain ⟨hq, hpos⟩ := normalize_hyperbolic g hc (addPoint H1 H2)
      (intval_add_neg g hc H1 H2 h1 h2)
    refine ⟨?_, ?_⟩
    · rw [intval_Hypc, Fin.sum_univ_castSucc] at hq
      simp only [sig_castSucc, Int.cast_one, mul_one, sig_last_curved g hg', hk] at hq
      simp only [OnManifold, hc, sum_filter_lt]
      refine ⟨?_, hpos⟩
      rw [← hq]
      have : ∑ i : Fin D, normalize g (addPoint H1 H2) i.castSucc ^ 2
          = ∑ i : Fin D, normalize g (addPoint H1 H2) i.castSucc
              * normalize g (addPoint H1 H2) i.castSucc :=
        Finset.sum_congr rfl (fun i _ => sq _)
      simp only [mid]
      rw [this]
      ring
    · rw [hmid]
      rw [intval_Hypc_of_onManifold g hg' H1 h1, intval_Hypc_of_onManifold g hg' H2 h2,
        sub_self, mul_zero] at hdiff
      linarith
  | gcEuclid =>
    have hg' : euclid g = true := by simp [euclid, hc]
    simp only [OnManifold, hc] at h1 h2
    have hz : zlevel g (addPoint H1 H2) = 2 := by
      simp only [zlevel, hg', if_true, addPoint, h1, h2]
      norm_num
    refine ⟨?_, ?_⟩
    · simp only [OnManifold, hc, mid, normalize, hz, addPoint, h1, h2]
      norm_num
    · rw [hmid, hz]
      rw [hz] at hdiff
      norm_num at hdiff
      linarith
  | gcSphere =>
    have hg' : euclid g = false := by simp [euclid, hc]
    have hne : addPoint H1 H2 ≠ 0 := by
      intro h0
      refine hanti hc (funext (fun i => ?_))
      have := congrFun h0 i
      simp only [addPoint, Pi.zero_apply] at this
      simp only [negPoint]
      linarith
    have hq := normalize_sphere g hc (addPoint H1 H2) hne
    refine ⟨?_, ?_⟩
    · rw [intval_Hypc] at hq
      have hsig : ∀ j : Fin (D + 1), (sig D g j : ℝ) = 1 := by
        intro j
        simp [sig, sphere, hc]
      simp only [hsig, mul_one] at hq
      simp only [OnManifold, hc, mid]
      rw [← hq]
      exact Finset.sum_congr rfl (fun i _ => sq _)
    · rw [hmid]
      rw [intval_Hypc_of_onManifold g hg' H1 h1, intval_Hypc_of_onManifold g hg' H2 h2,
        sub_self, mul_zero] at hdiff
      linarith

/-- C20 at two concrete points of the hyperbolic plane. -/
theorem mid_equidistant_witness :
    OnManifold hyperbolicGeometry (![3/4, 0, 5/4] : hyperpoint 2 ℝ) ∧
    OnManifold hyperbolicGeometry (![0, 4/3, 5/3] : hyperpoint 2 ℝ) ∧
    OnManifold hyperbolicGeometry
      (mid hyperbolicGeometry (![3/4, 0, 5/4] : hyperpoint 2 ℝ) ![0, 4/3, 5/3]) ∧
    intval hyperbolicGeometry (![3/4, 0, 5/4] : hyperpoint 2 ℝ)
        (mid hyperbolicGeometry ![3/4, 0, 5/4] ![0, 4/3, 5/3])
      = intval hyperbolicGeometry (![0, 4/3, 5/3] : hyperpoint 2 ℝ)
        (mid hyperbolicGeometry ![3/4, 0, 5/4] ![0, 4/3, 5/3]) :=
  have ha : OnManifold hyperbolicGeometry (![3/4, 0, 5/4] : hyperpoint 2 ℝ) := by
    simp only [OnManifold, hyperbolicGeometry, sum_filter_lt, Fin.sum_univ_two, last_dim2]
    norm_num
  have hb : OnManifold hyperbolicGeometry (![0, 4/3, 5/3] : hyperpoint 2 ℝ) := by
    simp only [OnManifold, hyperbolicGeometry, sum_filter_lt, Fin.sum_univ_two, last_dim2]
    norm_num
  ⟨ha, hb, mid_equidistant hyperbolicGeometry rfl _ _ ha hb (fun h => by cases h)⟩

end Mid

end hr
